import Mathlib

/-!
# gitbase: the `commit_trees` table iterator (`commit_trees.go`)

A shallow embedding of `commitTreesIter` (`NewIterator`, `Next`, `Close`) and of
the collaborators it drives: the commit stream (`object.CommitIter`), the commits
it yields (`object.Commit`, `Commit.Tree`) and the tree walker
(`object.TreeWalker`).

* `Next` returns `(sql.Row, error)`: a pair of options.  A call on a collaborator
  returns a value or an error (`Res`).
* The collaborators are objects with hidden state.  A commit stream and a tree
  walker are represented by the results their successive `Next` calls will give;
  once these are used up, `Next` gives `io.EOF`.
* Every call made on a collaborator is appended to a chronological list of calls
  that is passed along with the iterator.
* The `for` loop of `Next` is `Next.body` (one pass through the loop body) run by
  `Next.loop`; a nil dereference is a panic.
* `NewCommitsByHashIter` and `object.NewTreeWalker` are parameters (`Git`).  The tree
  walker and the object store that the specification describes are modelled in the
  section on the tree walker of the specification.
* `Next` creates every walker with an empty seen map and never writes to the map.  A
  walker that only reads the map is given next to the walker of the specification, which
  marks the hashes itself.
-/

namespace Gitbase

/-! ## Collaborator data -/

/-- A `plumbing.Hash`, identified with its canonical hexadecimal text. -/
structure Hash where
  hex : String
deriving DecidableEq

/-- The method `plumbing.Hash.String`: the hexadecimal text of the hash. -/
def hashString (h : Hash) : String := h.hex

/-- The file modes of `filemode`. -/
inductive FileMode
  | Empty
  | Dir
  | Regular
  | Deprecated
  | Executable
  | Symlink
  | Submodule
deriving DecidableEq

/-- An `object.TreeEntry`. -/
structure TreeEntry where
  Name : String
  Mode : FileMode
  Hash : Hash
deriving DecidableEq

/-- An `object.Tree`: its hash and its ordered entries. -/
structure Tree where
  Hash : Hash
  Entries : List TreeEntry
deriving DecidableEq

/-- A `*Session` of gitbase. -/
structure Session where
  SkipGitErrors : Bool
deriving DecidableEq

/-- A `sql.Session` interface value: a gitbase `*Session` or a value of another type. -/
inductive SqlSession
  | gitbase (s : Session)
  | foreign (name : String)
deriving DecidableEq

/-- A `*sql.Context`. -/
structure Context where
  Session : SqlSession
deriving DecidableEq

/-- A Go `error` value. -/
inductive GoError
  | EOF
  | ErrInvalidGitbaseSession (session : SqlSession)
  | git (msg : String)
deriving DecidableEq

/-- The result of a fallible collaborator call: a value or an error. -/
inductive Res (α : Type)
  | ok (a : α)
  | err (e : GoError)
deriving DecidableEq

/-- An `*object.Commit`: its hash and what its method `Tree()` returns. -/
structure Commit where
  Hash : Hash
  Tree : Res Tree
deriving DecidableEq

/-- An `object.CommitIter`: the results its coming `Next` calls return, then `io.EOF`. -/
structure CommitIter where
  items : List (Res Commit)
deriving DecidableEq

/-- An `*object.TreeWalker`: an identity and the results its coming `Next` calls return,
then `io.EOF`. -/
structure TreeWalker where
  id : Nat
  items : List (Res TreeEntry)
deriving DecidableEq

/-- A `*Repository`. -/
structure Repository where
  ID : String
deriving DecidableEq

/-- A call made on a collaborator. -/
inductive Call
  | NewCommitsByHashIter (repo : String) (hashes : List String)
  | commitsNext
  | commitsClose
  | commitTree (commit : Hash)
  | NewTreeWalker (id : Nat) (tree : Hash) (recursive : Bool) (seen : List Hash)
  | treesNext (id : Nat)
  | treesClose (id : Nat)
deriving DecidableEq

/-- The functions of the environment that create collaborators. -/
structure Git where
  NewCommitsByHashIter : Repository → List String → Res CommitIter
  NewTreeWalker : Tree → Bool → List Hash → List (Res TreeEntry)

/-- The method `CommitIter.Next`. -/
def CommitIter.Next (c : CommitIter) : Res Commit × CommitIter :=
  match c.items with
  | [] => (Res.err GoError.EOF, c)
  | r :: rest => (r, { items := rest })

/-- The method `TreeWalker.Next`. -/
def TreeWalker.Next (w : TreeWalker) : Res TreeEntry × TreeWalker :=
  match w.items with
  | [] => (Res.err GoError.EOF, w)
  | r :: rest => (r, { id := w.id, items := rest })

/-! ## The iterator -/

/-- A `sql.Row`. -/
abbrev Row := List String

/-- The function `sql.NewRow`. -/
def NewRow (values : List String) : Row := values

/-- Modelled from the spec: the helper `stringContains`, which is not part of
`commit_trees.go`; "the selector's repository-id set ... does not contain this
repository's id". -/
def stringContains (slice : List String) (target : String) : Bool :=
  slice.contains target

/-- The struct `commitTreesIter`. -/
structure commitTreesIter where
  ctx : Context
  repo : Option Repository
  commits : Option CommitIter
  commit : Option Commit
  trees : Option TreeWalker
  repos : List String
  commitHashes : List String
deriving DecidableEq

/-- The method `commitTreesIter.NewIterator`: the returned iterator or error, and the
calls made. -/
def NewIterator (git : Git) (i : commitTreesIter) (repo : Repository) (calls : List Call) :
    (Option commitTreesIter × Option GoError) × List Call :=
  if i.repos.length = 0 ∨ stringContains i.repos repo.ID = true then
    let calls1 := calls ++ [Call.NewCommitsByHashIter repo.ID i.commitHashes]
    match git.NewCommitsByHashIter repo i.commitHashes with
    | Res.err e => ((none, some e), calls1)
    | Res.ok commits =>
      ((some
        { ctx := i.ctx, repo := some repo, commits := some commits, commit := none,
          trees := none, repos := i.repos, commitHashes := i.commitHashes }, none), calls1)
  else
    ((some
      { ctx := i.ctx, repo := some repo, commits := none, commit := none,
        trees := none, repos := i.repos, commitHashes := i.commitHashes }, none), calls)

/-- How one pass through the body of the loop of `Next` ends. -/
inductive Flow
  | continues (i : commitTreesIter) (calls : List Call)
  | returns (row : Option Row) (err : Option GoError) (i : commitTreesIter) (calls : List Call)
  | panics (calls : List Call)
deriving DecidableEq

/-- The two `return sql.NewRow(i.repo.ID, i.commit.Hash.String(), h.String())`
statements of `Next`; a nil `i.repo` or `i.commit` is a nil dereference. -/
def Next.row (i : commitTreesIter) (h : Hash) (calls : List Call) : Flow :=
  match i.repo, i.commit with
  | some repo, some commit =>
    Flow.returns (some (NewRow [repo.ID, hashString commit.Hash, hashString h])) none i calls
  | _, _ => Flow.panics calls

/-- The part of the loop body of `Next` from `_, entry, err := i.trees.Next()` on; it is
reached with `i.trees` not nil. -/
def Next.walk (s : Session) (i : commitTreesIter) (calls : List Call) : Flow :=
  match i.trees with
  | none => Flow.panics calls
  | some trees =>
    let calls1 := calls ++ [Call.treesNext trees.id]
    match trees.Next with
    | (Res.err err, _) =>
      let calls2 := calls1 ++ [Call.treesClose trees.id]
      let i2 := { i with trees := none }
      if err = GoError.EOF ∨ s.SkipGitErrors = true then Flow.continues i2 calls2
      else Flow.returns none (some err) i2 calls2
    | (Res.ok entry, trees1) =>
      let i1 := { i with trees := some trees1 }
      if entry.Mode ≠ FileMode.Dir then Flow.continues i1 calls1
      else Next.row i1 entry.Hash calls1

/-- One pass through the body of the `for` loop of `Next`.  The local variable `tree` is
not nil exactly when the branch `if i.trees == nil` has fetched a commit and resolved
its root tree in this pass, so `if tree != nil { return sql.NewRow(...) }` is the end of
that branch; otherwise the pass goes on with `i.trees.Next()` (`Next.walk`). -/
def Next.body (git : Git) (s : Session) (i : commitTreesIter) (calls : List Call) : Flow :=
  match i.commits with
  | none => Flow.returns none (some GoError.EOF) i calls
  | some commits =>
    match i.trees with
    | none =>
      let calls1 := calls ++ [Call.commitsNext]
      match commits.Next with
      | (Res.err err, commits1) =>
        let i1 := { i with commits := some commits1 }
        if err = GoError.EOF then
          Flow.returns none (some GoError.EOF) i1 (calls1 ++ [Call.commitsClose])
        else if s.SkipGitErrors = true then Flow.continues i1 calls1
        else Flow.returns none (some err) i1 calls1
      | (Res.ok commit, commits1) =>
        let i1 := { i with commits := some commits1 }
        let calls2 := calls1 ++ [Call.commitTree commit.Hash]
        match commit.Tree with
        | Res.err err =>
          if s.SkipGitErrors = true then Flow.continues i1 calls2
          else Flow.returns none (some err) i1 calls2
        | Res.ok tree =>
          let id := calls2.length
          let calls3 := calls2 ++ [Call.NewTreeWalker id tree.Hash true []]
          let i2 :=
            { i1 with
              trees := some { id := id, items := git.NewTreeWalker tree true [] },
              commit := some commit }
          Next.row i2 tree.Hash calls3
    | some _ => Next.walk s i calls

/-- What a call of `Next` does: it returns a row or an error, or it panics. -/
inductive Outcome
  | returned (row : Option Row) (err : Option GoError) (i : commitTreesIter)
      (calls : List Call)
  | panicked (calls : List Call)
deriving DecidableEq

/-- The `for` loop of `Next`, run for at most `fuel` passes. -/
def Next.loop (git : Git) (s : Session) : Nat → commitTreesIter → List Call → Option Outcome
  | 0, _, _ => none
  | fuel + 1, i, calls =>
    match Next.body git s i calls with
    | Flow.continues i1 calls1 => Next.loop git s fuel i1 calls1
    | Flow.returns row err i1 calls1 => some (Outcome.returned row err i1 calls1)
    | Flow.panics calls1 => some (Outcome.panicked calls1)

/-- The number of passes the loop of `Next` can make without returning: one for
each result left in the commit stream, one for each result left in the active
walker and one for closing it. -/
def passes (i : commitTreesIter) : Nat :=
  (match i.commits with
    | none => 0
    | some c => c.items.length) +
  (match i.trees with
    | none => 0
    | some w => w.items.length + 1)

/-- The method `commitTreesIter.Next`; `none` would mean that the loop made more
than `passes i + 1` passes. -/
def Next (git : Git) (i : commitTreesIter) (calls : List Call) : Option Outcome :=
  match i.ctx.Session with
  | SqlSession.foreign _ =>
    some (Outcome.returned none (some (GoError.ErrInvalidGitbaseSession i.ctx.Session)) i calls)
  | SqlSession.gitbase s => Next.loop git s (passes i + 1) i calls

/-- The method `commitTreesIter.Close`: the returned error (always nil) and the calls
made. -/
def Close (i : commitTreesIter) (calls : List Call) : Option GoError × List Call :=
  let calls1 :=
    match i.commits with
    | some _ => calls ++ [Call.commitsClose]
    | none => calls
  let calls2 :=
    match i.trees with
    | some trees => calls1 ++ [Call.treesClose trees.id]
    | none => calls1
  (none, calls2)

/-- The results of `n` successive calls of `Next`, with the iterator and the calls
after the last one; `none` if one of the calls does not return. -/
def NextN (git : Git) :
    Nat → commitTreesIter → List Call →
      Option (List (Option Row × Option GoError) × commitTreesIter × List Call)
  | 0, i, calls => some ([], i, calls)
  | n + 1, i, calls =>
    match Next git i calls with
    | some (Outcome.returned row err i1 calls1) =>
      match NextN git n i1 calls1 with
      | some (rs, st) => some ((row, err) :: rs, st)
      | none => none
    | _ => none

/-! ## The tree walker of the specification -/

/-- The tree objects of an object store: the ordered entries of each stored tree,
by hash. -/
abbrev TreeStore := List (Hash × List TreeEntry)

/-- Modelled from the spec: the object store operation `getTreeEntries`, resolving "a
tree hash to its ordered child entries"; the object store is not part of
`commit_trees.go`.  A hash that is not stored does not resolve. -/
def getTreeEntries : TreeStore → Hash → Option (List TreeEntry)
  | [], _ => none
  | (k, es) :: rest, h => if k = h then some es else getTreeEntries rest h

/-- The error of a hash that "does not resolve in the store". -/
def ErrObjectNotFound : GoError := GoError.git "object not found"

/-- Modelled from the spec: the traversal of a list of entries by the Tree Flattening
Walker (the tree walker is not part of `commit_trees.go`).  Given the hashes seen so far
it gives the results of the walker and the hashes seen afterwards.  "If directory-mode
and its hash has not been seen in this walk, mark it seen, emit a fragment, and descend
into its children"; "if directory-mode but already seen ..., skip emission and do not
re-descend".  An entry that is not a directory is handed to `Next`, which skips it.
`descend` walks the children of a directory. -/
def walkEntries (descend : List Hash → Hash → List (Res TreeEntry) × List Hash) :
    List Hash → List TreeEntry → List (Res TreeEntry) × List Hash
  | seen, [] => ([], seen)
  | seen, e :: es =>
    if e.Mode = FileMode.Dir then
      if e.Hash ∈ seen then walkEntries descend seen es
      else
        let sub := descend (e.Hash :: seen) e.Hash
        let rest := walkEntries descend sub.2 es
        (Res.ok e :: (sub.1 ++ rest.1), rest.2)
    else
      let rest := walkEntries descend seen es
      (Res.ok e :: rest.1, rest.2)

/-- Modelled from the spec: the descent of the Tree Flattening Walker into the tree
with hash `h`, through at most `depth` further levels.  "A traversal-level access
failure on a child entry's lookup" is a result of the walker. -/
def walkTree (store : TreeStore) : Nat → List Hash → Hash → List (Res TreeEntry) × List Hash
  | 0, seen, h =>
    match getTreeEntries store h with
    | none => ([Res.err ErrObjectNotFound], seen)
    | some _ => ([], seen)
  | depth + 1, seen, h =>
    match getTreeEntries store h with
    | none => ([Res.err ErrObjectNotFound], seen)
    | some children => walkEntries (walkTree store depth) seen children

/-- Modelled from the spec: `object.NewTreeWalker(tree, recursive, seen)`, the Tree
Flattening Walker of the spec without its root fragment, which `Next` emits itself.
It is "a depth-first traversal" of the entries of the tree, "deduplicating by hash
within a single walk" from the hashes in `seen` on.  Every descent marks one more
stored hash, so `store.length` levels are never used up (`walkTree_complete`).
A walker that is not recursive does not descend. -/
def NewTreeWalker (store : TreeStore) (tree : Tree) (recursive : Bool) (seen : List Hash) :
    List (Res TreeEntry) :=
  (walkEntries (if recursive then walkTree store store.length else fun sn _ => ([], sn))
    seen tree.Entries).1

/-- The environment whose tree walkers are those of the specification over `store`. -/
def Git.withStore (git : Git) (store : TreeStore) : Git :=
  { NewCommitsByHashIter := git.NewCommitsByHashIter, NewTreeWalker := Gitbase.NewTreeWalker store }

/-- The hash `h` is that of a directory-mode entry reached from the entries `es` "by a
chain of directory-mode entries". -/
inductive Reach (store : TreeStore) (es : List TreeEntry) : Hash → Prop
  | entry (e : TreeEntry) : e ∈ es → e.Mode = FileMode.Dir → Reach store es e.Hash
  | child (h : Hash) (children : List TreeEntry) (e : TreeEntry) :
      Reach store es h → getTreeEntries store h = some children → e ∈ children →
      e.Mode = FileMode.Dir → Reach store es e.Hash

/-! ## Rows of one commit -/

/-- The directory-mode entries among the results of a walker that come before its first
error. -/
def dirsBeforeError : List (Res TreeEntry) → List TreeEntry
  | [] => []
  | Res.err _ :: _ => []
  | Res.ok e :: rest =>
    if e.Mode = FileMode.Dir then e :: dirsBeforeError rest else dirsBeforeError rest

/-- The row `(repository_id, commit_hash, tree_hash)` as `Next` returns it. -/
def rowResult (repo : Repository) (commit : Commit) (h : Hash) : Option Row × Option GoError :=
  (some (NewRow [repo.ID, hashString commit.Hash, hashString h]), none)

/-- The rows of one commit: the row of its root tree, then one row for each directory-mode
entry among the walker results `items`, in their order. -/
def commitRows (repo : Repository) (commit : Commit) (tree : Tree) (items : List (Res TreeEntry)) :
    List (Option Row × Option GoError) :=
  rowResult repo commit tree.Hash ::
    (dirsBeforeError items).map (fun e => rowResult repo commit e.Hash)

/-- The error that ends the use of a walker with the results `items`: its first error,
or `io.EOF` after its last result. -/
def walkError : List (Res TreeEntry) → GoError
  | [] => GoError.EOF
  | Res.err e :: _ => e
  | Res.ok _ :: rest => walkError rest

/-- The result `Next` returns when the use of a walker with the results `items` has
ended, before it fetches the next commit: none when the walker ends with `io.EOF` or its
failure is skipped, the failure otherwise. -/
def walkFailure (s : Session) (items : List (Res TreeEntry)) :
    List (Option Row × Option GoError) :=
  if walkError items = GoError.EOF ∨ s.SkipGitErrors = true then []
  else [(none, some (walkError items))]

/-- The results `rows`, followed by the results of a run of later calls of `Next`. -/
def thenResults (rows : List (Option Row × Option GoError))
    (run : Option (List (Option Row × Option GoError) × commitTreesIter × List Call)) :
    Option (List (Option Row × Option GoError) × commitTreesIter × List Call) :=
  match run with
  | some (rs, st) => some (rows ++ rs, st)
  | none => none

/-- The rows of a commit stream with the results `items` when no error is returned:
the rows of each commit whose root tree resolves, in the order of the stream. -/
def streamRows (git : Git) (repo : Repository) :
    List (Res Commit) → List (Option Row × Option GoError)
  | [] => []
  | Res.err _ :: rest => streamRows git repo rest
  | Res.ok c :: rest =>
    (match c.Tree with
      | Res.ok t => commitRows repo c t (git.NewTreeWalker t true [])
      | Res.err _ => []) ++ streamRows git repo rest

/-- The result `item` of a commit stream does not make `Next` return an error or end
the stream: it is a commit whose root tree resolves and whose walk ends with `io.EOF`,
or its failure is skipped. -/
def passable (git : Git) (s : Session) (item : Res Commit) : Prop :=
  match item with
  | Res.err e => e ≠ GoError.EOF ∧ s.SkipGitErrors = true
  | Res.ok c =>
    match c.Tree with
    | Res.err _ => s.SkipGitErrors = true
    | Res.ok t =>
      walkError (git.NewTreeWalker t true []) = GoError.EOF ∨ s.SkipGitErrors = true

/-- A commit of a commit stream together with its root tree and the entries its
walker yields. -/
structure Walk where
  commit : Commit
  tree : Tree
  entries : List TreeEntry

/-- The rows the table has for the commits `walks` of one repository: "for each commit
in commit-stream order, the row of its root tree followed by one row for each
directory-mode entry yielded by that commit's walker, in walker order". -/
def expectedRows (repo : Repository) : List Walk → List (Option Row × Option GoError)
  | [] => []
  | w :: rest =>
    (rowResult repo w.commit w.tree.Hash ::
      (w.entries.filter (fun e => e.Mode = FileMode.Dir)).map
        (fun e => rowResult repo w.commit e.Hash)) ++ expectedRows repo rest

/-! ## An example repository -/

/-- A repository `r2`. -/
def exRepo : Repository := ⟨"r2"⟩

/-- A directory entry `d1`. -/
def exD1 : TreeEntry := ⟨"d1", FileMode.Dir, ⟨"d1"⟩⟩

/-- A directory entry `d2`. -/
def exD2 : TreeEntry := ⟨"d2", FileMode.Dir, ⟨"d2"⟩⟩

/-- A file entry `f`. -/
def exF : TreeEntry := ⟨"f", FileMode.Regular, ⟨"f0"⟩⟩

/-- A root tree with the directories `d1` and `d2` and the file `f`. -/
def exTree : Tree := ⟨⟨"a0"⟩, [exD1, exD2, exF]⟩

/-- A root tree with the directory `d1` only. -/
def exTree2 : Tree := ⟨⟨"a1"⟩, [exD1]⟩

/-- The stored trees: `d1` and `d2` are empty directories. -/
def exStore : TreeStore := [(⟨"d1"⟩, []), (⟨"d2"⟩, [])]

/-- A commit with root tree `exTree`. -/
def exCommit : Commit := ⟨⟨"c1"⟩, Res.ok exTree⟩

/-- A commit with root tree `exTree2`. -/
def exCommit2 : Commit := ⟨⟨"c2"⟩, Res.ok exTree2⟩

/-- The stored trees in which the directories `d1` and `d2` both hold the same empty
directory `e0`. -/
def exSharedStore : TreeStore :=
  [(⟨"d1"⟩, [⟨"x", FileMode.Dir, ⟨"e0"⟩⟩]), (⟨"d2"⟩, [⟨"y", FileMode.Dir, ⟨"e0"⟩⟩]),
    (⟨"e0"⟩, [])]

/-- An environment over `exStore` in which every repository has the commits `exCommit`
and `exCommit2`. -/
def exGit : Git :=
  { NewCommitsByHashIter := fun _ _ => Res.ok ⟨[Res.ok exCommit, Res.ok exCommit2]⟩,
    NewTreeWalker := NewTreeWalker exStore }

/-- The iterator that `RowIter` hands to `NewRowRepoIter`, with the session `session`
and the selectors `repos` and `commitHashes`. -/
def template (session : SqlSession) (repos commitHashes : List String) : commitTreesIter :=
  { ctx := ⟨session⟩, repo := none, commits := none, commit := none, trees := none,
    repos := repos, commitHashes := commitHashes }

/-- An iterator of `exRepo` that is about to read the commit stream `items`. -/
def exIter (skip : Bool) (items : List (Res Commit)) : commitTreesIter :=
  { ctx := ⟨SqlSession.gitbase ⟨skip⟩⟩, repo := some exRepo, commits := some ⟨items⟩,
    commit := none, trees := none, repos := [], commitHashes := [] }

/-- The iterator `i` scans the repository `r`, and has a current commit whenever a tree
walker is active. -/
def scans (r : Repository) (i : commitTreesIter) : Prop :=
  i.repo = some r ∧ (i.trees ≠ none → i.commit ≠ none)

/-- The iterator `i` has no active walker, and its commit stream yields no further commit
whose root tree resolves. -/
def barren (i : commitTreesIter) : Prop :=
  i.trees = none ∧
    ∀ cs, i.commits = some cs → ∀ c t, Res.ok c ∈ cs.items → c.Tree ≠ Res.ok t

/-- The result `x` of `Next` is a row of the repository `r`, or no row. -/
def rowOf (r : Repository) (x : Option Row × Option GoError) : Prop :=
  ∀ row, x.1 = some row → ∃ commitHash treeHash, row = NewRow [r.ID, commitHash, treeHash]

/-- The number of times the result `x` occurs among the results `rs`. -/
def occurrences (x : Option Row × Option GoError) (rs : List (Option Row × Option GoError)) :
    Nat :=
  (rs.filter (fun y => decide (y = x))).length

/-! ## Notions for the tree walker of the specification -/

/-- The hashes of the directory-mode entries among all the results of a walker. -/
def dirHashes : List (Res TreeEntry) → List Hash
  | [] => []
  | Res.err _ :: rest => dirHashes rest
  | Res.ok e :: rest =>
    if e.Mode = FileMode.Dir then e.Hash :: dirHashes rest else dirHashes rest

/-- The result of the collaborator call is a value, not an error. -/
def Res.isOk {α : Type} : Res α → Bool
  | Res.ok _ => true
  | Res.err _ => false

/-- No result of the walker is an error. -/
def noError (items : List (Res TreeEntry)) : Prop :=
  ∀ x ∈ items, ∃ e, x = Res.ok e

/-- The number of stored trees whose hash is not in `seen`. -/
def unseen (store : TreeStore) (seen : List Hash) : Nat :=
  (store.filter (fun p => decide (p.1 ∉ seen))).length

/-- A traversal that started with the hashes `seen` has marked exactly the hashes of the
directory entries it yielded; these are pairwise distinct, were not seen before and
satisfy `reach`. -/
def Walked (seen : List Hash) (reach : Hash → Prop) (res : List (Res TreeEntry) × List Hash) :
    Prop :=
  (∀ x, x ∈ res.2 ↔ x ∈ seen ∨ x ∈ dirHashes res.1) ∧
  (dirHashes res.1).Nodup ∧
  ∀ x ∈ dirHashes res.1, x ∉ seen ∧ reach x

/-- A traversal of the entries `es` that started with the hashes `seen` has marked the
hash of every directory entry of `es`, and of every directory entry of every tree it has
newly marked. -/
def Covered (store : TreeStore) (seen : List Hash) (es : List TreeEntry)
    (res : List (Res TreeEntry) × List Hash) : Prop :=
  (∀ e ∈ es, e.Mode = FileMode.Dir → e.Hash ∈ res.2) ∧
  ∀ x ∈ res.2, x ∉ seen → ∀ children, getTreeEntries store x = some children →
    ∀ e ∈ children, e.Mode = FileMode.Dir → e.Hash ∈ res.2

/-! ## Notions for the outcomes and the safety of the iterator -/

/-- The result of a call of `Next` is one of three: a row and no error, no row and
`io.EOF`, or no row and another error. -/
def threeWay (row : Option Row) (err : Option GoError) : Prop :=
  (∃ r, row = some r ∧ err = none) ∨ (row = none ∧ err = some GoError.EOF) ∨
    (row = none ∧ ∃ e, err = some e ∧ e ≠ GoError.EOF)

/-- The iterator has a current commit whenever a tree walker is active, and a repository
whenever a commit stream is present. -/
def safe (i : commitTreesIter) : Prop :=
  (i.trees ≠ none → i.commit ≠ none) ∧ (i.commits ≠ none → i.repo ≠ none)

/-- A call made on the iterator: `Next` or `Close`. -/
inductive Op
  | Next
  | Close
deriving DecidableEq

/-- The iterator and the calls after the calls `ops` have been made on the iterator, in
their order; `none` if a call of `Next` does not return. -/
def run (git : Git) : List Op → commitTreesIter → List Call → Option (commitTreesIter × List Call)
  | [], i, calls => some (i, calls)
  | Op.Next :: ops, i, calls =>
    match Next git i calls with
    | some (Outcome.returned _ _ i1 calls1) => run git ops i1 calls1
    | _ => none
  | Op.Close :: ops, i, calls => run git ops i (Close i calls).2

/-! ## Notions for the shape of the rows -/

/-- The types of `sql` columns. -/
inductive SqlType
  | Null
  | Int32
  | Int64
  | Uint32
  | Uint64
  | Float32
  | Float64
  | Timestamp
  | Date
  | Text
  | Boolean
  | JSON
  | Blob
deriving DecidableEq

/-- A `sql.Column` with the fields that `commit_trees.go` sets; `Kind` is the field `Type`
of the source. -/
structure Column where
  Name : String
  Kind : SqlType
  Source : String
deriving DecidableEq

/-- The variable `CommitTreesSchema`; the constant `CommitTreesTableName` is declared
outside `commit_trees.go` and is a parameter. -/
def CommitTreesSchema (CommitTreesTableName : String) : List Column :=
  [{ Name := "repository_id", Kind := SqlType.Text, Source := CommitTreesTableName },
   { Name := "commit_hash", Kind := SqlType.Text, Source := CommitTreesTableName },
   { Name := "tree_hash", Kind := SqlType.Text, Source := CommitTreesTableName }]

/-- The hash of the commit that the commit stream returned last, according to the calls
made: `Tree()` is called on every commit that `commits.Next()` returns, right after the
return. -/
def lastFetched (calls : List Call) : Option Hash :=
  calls.reverse.findSome? (fun c =>
    match c with
    | Call.commitTree h => some h
    | _ => none)

/-- The iterator `i` scans the repository `r`, and whenever a tree walker is active its
current commit is the commit that the commit stream returned last. -/
def tracks (r : Repository) (i : commitTreesIter) (calls : List Call) : Prop :=
  i.repo = some r ∧
    ∀ w, i.trees = some w → ∃ c, i.commit = some c ∧ lastFetched calls = some c.Hash

/-- The result `x` of `Next` is no row, or the row of the repository `r`, of the commit
that the commit stream returned last according to `calls`, and of some tree hash. -/
def wellFormedRow (r : Repository) (calls : List Call) (x : Option Row × Option GoError) :
    Prop :=
  ∀ row, x.1 = some row →
    ∃ commitHash treeHash : Hash, lastFetched calls = some commitHash ∧
      row = NewRow [r.ID, hashString commitHash, hashString treeHash]

/-! ## Notions for the release of the resources -/

/-- In the calls `l` no call is made on a tree walker after its `Close`: neither `Next`
nor a second `Close`. -/
def closedWalkersUnused (l : List Call) : Prop :=
  ∀ (p q : List Call) (id : Nat), l = p ++ Call.treesClose id :: q →
    Call.treesNext id ∉ q ∧ Call.treesClose id ∉ q

/-- The identity of the active tree walker of the iterator, if there is one. -/
def activeWalker (i : commitTreesIter) : Option Nat :=
  i.trees.map TreeWalker.id

/-- What holds of the calls `made` after `base` earlier calls when `active` is the
active tree walker: no call is made on a walker after its `Close`; the active walker is
not closed; the walkers closed and the walkers created were given their identity
earlier; and every walker created is the active one or has been closed once. -/
def tidy (base : Nat) (active : Option Nat) (made : List Call) : Prop :=
  closedWalkersUnused made ∧
  (∀ id, active = some id → id < base + made.length ∧ Call.treesClose id ∉ made) ∧
  (∀ id, Call.treesClose id ∈ made → id < base + made.length) ∧
  ∀ id t rec seen, Call.NewTreeWalker id t rec seen ∈ made →
    id < base + made.length ∧ (active = some id ∨ made.count (Call.treesClose id) = 1)

/-! ## A tree walker that only reads the seen map -/

/-- The error of a walk that goes deeper than the levels it is allowed. -/
def ErrMaxTreeDepth : GoError := GoError.git "maximum tree depth exceeded"

/-- The traversal of a list of entries by a tree walker that only reads the map `seen`:
the traversal of `walkEntries`, except that it marks no hash.  A directory-mode entry
whose hash is in `seen` is skipped; every other entry is yielded, a directory-mode entry
followed by the walk of its children.  `commit_trees.go` hands its walker an empty map
and never writes to it, so under such a walker no hash is ever in the map. -/
def readEntries (descend : Hash → List (Res TreeEntry)) (seen : List Hash) :
    List TreeEntry → List (Res TreeEntry)
  | [] => []
  | e :: es =>
    if e.Mode = FileMode.Dir then
      if e.Hash ∈ seen then readEntries descend seen es
      else Res.ok e :: (descend e.Hash ++ readEntries descend seen es)
    else Res.ok e :: readEntries descend seen es

/-- The descent of a walker that only reads the map `seen` into the tree with hash `h`,
through at most `depth` further levels; a lookup that fails and a walk that needs more
levels are results of the walker. -/
def readTree (store : TreeStore) (seen : List Hash) : Nat → Hash → List (Res TreeEntry)
  | 0, h =>
    match getTreeEntries store h with
    | none => [Res.err ErrObjectNotFound]
    | some _ => [Res.err ErrMaxTreeDepth]
  | depth + 1, h =>
    match getTreeEntries store h with
    | none => [Res.err ErrObjectNotFound]
    | some children => readEntries (readTree store seen depth) seen children

/-- A tree walker over `store` that only reads the map `seen` it is created with, and
walks through at most `store.length` levels below the entries of `tree`.  A walker that
is not recursive does not descend. -/
def NewReadingTreeWalker (store : TreeStore) (tree : Tree) (recursive : Bool)
    (seen : List Hash) : List (Res TreeEntry) :=
  readEntries (if recursive then readTree store seen store.length else fun _ => [])
    seen tree.Entries

/-- The environment whose tree walkers only read the seen map, over `store`. -/
def Git.withReadingWalker (git : Git) (store : TreeStore) : Git :=
  { NewCommitsByHashIter := git.NewCommitsByHashIter,
    NewTreeWalker := NewReadingTreeWalker store }

/-- A root tree with the directories `a`, `gone` and `z` and the file `f`. -/
def exGoneTree : Tree :=
  ⟨⟨"a3"⟩, [⟨"a", FileMode.Dir, ⟨"b1"⟩⟩, ⟨"gone", FileMode.Dir, ⟨"b2"⟩⟩,
    ⟨"z", FileMode.Dir, ⟨"b3"⟩⟩, exF]⟩

/-- The stored trees in which `a` and `z` are empty directories and the tree of `gone`
is missing. -/
def exGoneStore : TreeStore := [(⟨"b1"⟩, []), (⟨"b3"⟩, [])]

/-- A commit with root tree `exGoneTree`. -/
def exGoneCommit : Commit := ⟨⟨"c4"⟩, Res.ok exGoneTree⟩

/-- A root tree with the directory `gone`, whose tree is missing from `exStore`, and the
directory `d1`. -/
def exGoneTree2 : Tree := ⟨⟨"a4"⟩, [⟨"gone", FileMode.Dir, ⟨"b2"⟩⟩, exD1]⟩

/-- A commit with root tree `exGoneTree2`. -/
def exGoneCommit2 : Commit := ⟨⟨"c5"⟩, Res.ok exGoneTree2⟩

/-! ## The loop of `Next` -/

theorem row_ne_continue (i : commitTreesIter) (h : Hash) (calls : List Call)
    (i1 : commitTreesIter) (calls1 : List Call) :
    Next.row i h calls ≠ Flow.continues i1 calls1 := by
  unfold Next.row
  split <;> simp

theorem walk_continue {s : Session} {i i1 : commitTreesIter} {calls calls1 : List Call}
    (h : Next.walk s i calls = Flow.continues i1 calls1) :
    passes i1 < passes i ∧ i1.ctx = i.ctx := by
  obtain ⟨ctx, repo, commits, commit, trees, repos, hashes⟩ := i
  cases trees with
  | none => simp [Next.walk] at h
  | some w =>
    obtain ⟨id, items⟩ := w
    cases items with
    | nil =>
      simp [Next.walk, TreeWalker.Next] at h
      obtain ⟨rfl, -⟩ := h
      simp [passes]
    | cons r rest =>
      cases r with
      | err e =>
        simp only [Next.walk, TreeWalker.Next] at h
        split at h
        · simp at h
          obtain ⟨rfl, -⟩ := h
          simp [passes]
        · simp at h
      | ok e =>
        simp only [Next.walk, TreeWalker.Next] at h
        split at h
        · simp at h
          obtain ⟨rfl, -⟩ := h
          simp [passes]
        · exact absurd h (row_ne_continue _ _ _ _ _)

theorem body_continue {g : Git} {s : Session} {i i1 : commitTreesIter}
    {calls calls1 : List Call} (h : Next.body g s i calls = Flow.continues i1 calls1) :
    passes i1 < passes i ∧ i1.ctx = i.ctx := by
  obtain ⟨ctx, repo, commits, commit, trees, repos, hashes⟩ := i
  cases commits with
  | none => simp [Next.body] at h
  | some c =>
    cases trees with
    | some w => exact walk_continue (by simpa [Next.body] using h)
    | none =>
      obtain ⟨items⟩ := c
      cases items with
      | nil => simp [Next.body, CommitIter.Next] at h
      | cons r rest =>
        cases r with
        | err e =>
          simp only [Next.body, CommitIter.Next] at h
          split at h
          · simp at h
          · split at h
            · simp at h
              obtain ⟨rfl, -⟩ := h
              simp [passes]
            · simp at h
        | ok cm =>
          simp only [Next.body, CommitIter.Next] at h
          split at h
          · split at h
            · simp at h
              obtain ⟨rfl, -⟩ := h
              simp [passes]
            · simp at h
          · exact absurd h (row_ne_continue _ _ _ _ _)

theorem loop_succ {g : Git} {s : Session} {n : Nat} {i : commitTreesIter} {calls : List Call}
    {o : Outcome} (h : Next.loop g s n i calls = some o) :
    Next.loop g s (n + 1) i calls = some o := by
  induction n generalizing i calls with
  | zero => simp [Next.loop] at h
  | succ n ih =>
    rw [Next.loop] at h
    rw [Next.loop]
    cases hb : Next.body g s i calls with
    | continues i1 calls1 =>
      rw [hb] at h
      simp only at h ⊢
      exact ih h
    | returns row err i1 calls1 =>
      rw [hb] at h
      simpa using h
    | panics calls1 =>
      rw [hb] at h
      simpa using h

theorem loop_le {g : Git} {s : Session} {n m : Nat} {i : commitTreesIter} {calls : List Call}
    {o : Outcome} (h : Next.loop g s n i calls = some o) (hnm : n ≤ m) :
    Next.loop g s m i calls = some o := by
  induction hnm with
  | refl => exact h
  | step _ ih => exact loop_succ ih

theorem loop_enough (git : Git) (s : Session) (n : Nat) (i : commitTreesIter)
    (calls : List Call) (hn : passes i < n) :
    ∃ o, Next.loop git s n i calls = some o := by
  induction n generalizing i calls with
  | zero => omega
  | succ n ih =>
    rw [Next.loop]
    cases hb : Next.body git s i calls with
    | continues i1 calls1 =>
      have := (body_continue hb).1
      exact ih i1 calls1 (by omega)
    | returns row err i1 calls1 => exact ⟨_, rfl⟩
    | panics calls1 => exact ⟨_, rfl⟩

theorem loop_passes (git : Git) (s : Session) (n : Nat) (i : commitTreesIter)
    (calls : List Call) (hn : passes i < n) :
    Next.loop git s n i calls = Next.loop git s (passes i + 1) i calls := by
  obtain ⟨o, ho⟩ := loop_enough git s (passes i + 1) i calls (by omega)
  rw [ho]
  exact loop_le ho (by omega)

theorem Next_eq_loop {g : Git} {s : Session} {i : commitTreesIter} (calls : List Call)
    (hs : i.ctx.Session = SqlSession.gitbase s) :
    Next g i calls = Next.loop g s (passes i + 1) i calls := by
  unfold Next
  rw [hs]

theorem Next_of_return {g : Git} {s : Session} {i i1 : commitTreesIter}
    {calls calls1 : List Call} {row : Option Row} {err : Option GoError}
    (hs : i.ctx.Session = SqlSession.gitbase s)
    (hb : Next.body g s i calls = Flow.returns row err i1 calls1) :
    Next g i calls = some (Outcome.returned row err i1 calls1) := by
  rw [Next_eq_loop calls hs, Next.loop, hb]

theorem Next_of_continue {g : Git} {s : Session} {i i1 : commitTreesIter}
    {calls calls1 : List Call}
    (hs : i.ctx.Session = SqlSession.gitbase s)
    (hb : Next.body g s i calls = Flow.continues i1 calls1) :
    Next g i calls = Next g i1 calls1 := by
  have hc := body_continue hb
  rw [Next_eq_loop calls hs, Next_eq_loop calls1 (by rw [hc.2]; exact hs), Next.loop, hb]
  exact loop_passes g s (passes i) i1 calls1 hc.1


/-! ## Single steps of `Next` -/

theorem Next_total (git : Git) (i : commitTreesIter) (calls : List Call) :
    ∃ o, Next git i calls = some o := by
  unfold Next
  split
  · exact ⟨_, rfl⟩
  · exact loop_enough git _ _ i calls (by omega)

theorem Next_no_stream {g : Git} {s : Session} {i : commitTreesIter} (calls : List Call)
    (hs : i.ctx.Session = SqlSession.gitbase s) (hc : i.commits = none) :
    Next g i calls = some (Outcome.returned none (some GoError.EOF) i calls) :=
  Next_of_return hs (by simp [Next.body, hc])

theorem Next_stream_end {g : Git} {s : Session} {i : commitTreesIter} (calls : List Call)
    (hs : i.ctx.Session = SqlSession.gitbase s) (ht : i.trees = none)
    (hc : i.commits = some ⟨[]⟩) :
    Next g i calls =
      some (Outcome.returned none (some GoError.EOF) i
        (calls ++ [Call.commitsNext, Call.commitsClose])) := by
  refine Next_of_return hs ?_
  obtain ⟨ctx, repo, commits, commit, trees, repos, hashes⟩ := i
  simp only at ht hc
  subst ht hc
  simp [Next.body, CommitIter.Next]

theorem Next_commit_error_skip {g : Git} {s : Session} {i : commitTreesIter}
    (calls : List Call) {e : GoError} {rest : List (Res Commit)}
    (hs : i.ctx.Session = SqlSession.gitbase s) (ht : i.trees = none)
    (hc : i.commits = some ⟨Res.err e :: rest⟩) (he : e ≠ GoError.EOF)
    (hskip : s.SkipGitErrors = true) :
    Next g i calls = Next g { i with commits := some ⟨rest⟩ } (calls ++ [Call.commitsNext]) :=
  Next_of_continue hs (by simp [Next.body, CommitIter.Next, hc, ht, he, hskip])

theorem Next_commit_error_strict {g : Git} {s : Session} {i : commitTreesIter}
    (calls : List Call) {e : GoError} {rest : List (Res Commit)}
    (hs : i.ctx.Session = SqlSession.gitbase s) (ht : i.trees = none)
    (hc : i.commits = some ⟨Res.err e :: rest⟩) (he : e ≠ GoError.EOF)
    (hstrict : s.SkipGitErrors = false) :
    Next g i calls =
      some (Outcome.returned none (some e) { i with commits := some ⟨rest⟩ }
        (calls ++ [Call.commitsNext])) :=
  Next_of_return hs (by simp [Next.body, CommitIter.Next, hc, ht, he, hstrict])

theorem Next_tree_error_skip {g : Git} {s : Session} {i : commitTreesIter}
    (calls : List Call) {c : Commit} {e : GoError} {rest : List (Res Commit)}
    (hs : i.ctx.Session = SqlSession.gitbase s) (ht : i.trees = none)
    (hc : i.commits = some ⟨Res.ok c :: rest⟩) (htree : c.Tree = Res.err e)
    (hskip : s.SkipGitErrors = true) :
    Next g i calls =
      Next g { i with commits := some ⟨rest⟩ }
        (calls ++ [Call.commitsNext, Call.commitTree c.Hash]) :=
  Next_of_continue hs (by simp [Next.body, CommitIter.Next, hc, ht, htree, hskip])

theorem Next_tree_error_strict {g : Git} {s : Session} {i : commitTreesIter}
    (calls : List Call) {c : Commit} {e : GoError} {rest : List (Res Commit)}
    (hs : i.ctx.Session = SqlSession.gitbase s) (ht : i.trees = none)
    (hc : i.commits = some ⟨Res.ok c :: rest⟩) (htree : c.Tree = Res.err e)
    (hstrict : s.SkipGitErrors = false) :
    Next g i calls =
      some (Outcome.returned none (some e) { i with commits := some ⟨rest⟩ }
        (calls ++ [Call.commitsNext, Call.commitTree c.Hash])) :=
  Next_of_return hs (by simp [Next.body, CommitIter.Next, hc, ht, htree, hstrict])

theorem Next_root {g : Git} {s : Session} {i : commitTreesIter}
    (calls : List Call) {c : Commit} {t : Tree} {r : Repository} {rest : List (Res Commit)}
    (hs : i.ctx.Session = SqlSession.gitbase s) (ht : i.trees = none)
    (hc : i.commits = some ⟨Res.ok c :: rest⟩) (htree : c.Tree = Res.ok t)
    (hr : i.repo = some r) :
    Next g i calls =
      some (Outcome.returned (rowResult r c t.Hash).1 none
        { i with
          commits := some ⟨rest⟩,
          trees := some ⟨calls.length + 2, g.NewTreeWalker t true []⟩,
          commit := some c }
        (calls ++ [Call.commitsNext, Call.commitTree c.Hash,
          Call.NewTreeWalker (calls.length + 2) t.Hash true []])) :=
  Next_of_return hs
    (by simp [Next.body, CommitIter.Next, hc, ht, htree, hr, Next.row, rowResult])

theorem Next_walk_end {g : Git} {s : Session} {i : commitTreesIter}
    (calls : List Call) {id : Nat} {cs : CommitIter}
    (hs : i.ctx.Session = SqlSession.gitbase s) (ht : i.trees = some ⟨id, []⟩)
    (hc : i.commits = some cs) :
    Next g i calls =
      Next g { i with trees := none } (calls ++ [Call.treesNext id, Call.treesClose id]) :=
  Next_of_continue hs (by simp [Next.body, Next.walk, TreeWalker.Next, hc, ht])

theorem Next_walk_error_skip {g : Git} {s : Session} {i : commitTreesIter}
    (calls : List Call) {id : Nat} {e : GoError} {ws : List (Res TreeEntry)} {cs : CommitIter}
    (hs : i.ctx.Session = SqlSession.gitbase s) (ht : i.trees = some ⟨id, Res.err e :: ws⟩)
    (hc : i.commits = some cs) (hcont : e = GoError.EOF ∨ s.SkipGitErrors = true) :
    Next g i calls =
      Next g { i with trees := none } (calls ++ [Call.treesNext id, Call.treesClose id]) :=
  Next_of_continue hs (by simp [Next.body, Next.walk, TreeWalker.Next, hc, ht, hcont])

theorem Next_walk_error_strict {g : Git} {s : Session} {i : commitTreesIter}
    (calls : List Call) {id : Nat} {e : GoError} {ws : List (Res TreeEntry)} {cs : CommitIter}
    (hs : i.ctx.Session = SqlSession.gitbase s) (ht : i.trees = some ⟨id, Res.err e :: ws⟩)
    (hc : i.commits = some cs) (he : e ≠ GoError.EOF) (hstrict : s.SkipGitErrors = false) :
    Next g i calls =
      some (Outcome.returned none (some e) { i with trees := none }
        (calls ++ [Call.treesNext id, Call.treesClose id])) :=
  Next_of_return hs (by simp [Next.body, Next.walk, TreeWalker.Next, hc, ht, he, hstrict])

theorem Next_walk_file {g : Git} {s : Session} {i : commitTreesIter}
    (calls : List Call) {id : Nat} {e : TreeEntry} {ws : List (Res TreeEntry)} {cs : CommitIter}
    (hs : i.ctx.Session = SqlSession.gitbase s) (ht : i.trees = some ⟨id, Res.ok e :: ws⟩)
    (hc : i.commits = some cs) (he : e.Mode ≠ FileMode.Dir) :
    Next g i calls =
      Next g { i with trees := some ⟨id, ws⟩ } (calls ++ [Call.treesNext id]) :=
  Next_of_continue hs (by simp [Next.body, Next.walk, TreeWalker.Next, hc, ht, he])

theorem Next_walk_dir {g : Git} {s : Session} {i : commitTreesIter}
    (calls : List Call) {id : Nat} {e : TreeEntry} {ws : List (Res TreeEntry)} {cs : CommitIter}
    {r : Repository} {c : Commit}
    (hs : i.ctx.Session = SqlSession.gitbase s) (ht : i.trees = some ⟨id, Res.ok e :: ws⟩)
    (hc : i.commits = some cs) (he : e.Mode = FileMode.Dir)
    (hr : i.repo = some r) (hcm : i.commit = some c) :
    Next g i calls =
      some (Outcome.returned (rowResult r c e.Hash).1 none
        { i with trees := some ⟨id, ws⟩ } (calls ++ [Call.treesNext id])) :=
  Next_of_return hs
    (by simp [Next.body, Next.walk, TreeWalker.Next, hc, ht, he, hr, hcm, Next.row, rowResult])

theorem NextN_congr {g : Git} {i i1 : commitTreesIter} {calls calls1 : List Call}
    (h : Next g i calls = Next g i1 calls1) (n : Nat) :
    NextN g (n + 1) i calls = NextN g (n + 1) i1 calls1 := by
  simp only [NextN, h]



/-! ## Runs of `Next` over one walk -/

theorem NextN_succ_of_returned {g : Git} {i i1 : commitTreesIter} {calls calls1 : List Call}
    {row : Option Row} {err : Option GoError}
    (h : Next g i calls = some (Outcome.returned row err i1 calls1)) (n : Nat) :
    NextN g (n + 1) i calls = thenResults [(row, err)] (NextN g n i1 calls1) := by
  simp only [NextN, h, thenResults]
  cases NextN g n i1 calls1 with
  | none => rfl
  | some p => rfl

theorem thenResults_thenResults (a b : List (Option Row × Option GoError))
    (run : Option (List (Option Row × Option GoError) × commitTreesIter × List Call)) :
    thenResults a (thenResults b run) = thenResults (a ++ b) run := by
  cases run with
  | none => rfl
  | some p => simp [thenResults]

theorem thenResults_nil
    (run : Option (List (Option Row × Option GoError) × commitTreesIter × List Call)) :
    thenResults [] run = run := by
  cases run with
  | none => rfl
  | some p => simp [thenResults]

/-- The rows of the directory entries a walker still yields, followed by what the
iterator does once the walker has ended without an error that `Next` returns. -/
theorem NextN_walk {g : Git} {s : Session} (ws : List (Res TreeEntry)) :
    ∀ (i : commitTreesIter) (calls : List Call) (id : Nat) (cs : CommitIter)
      (r : Repository) (c : Commit),
      i.ctx.Session = SqlSession.gitbase s → i.trees = some ⟨id, ws⟩ →
      i.commits = some cs → i.repo = some r → i.commit = some c →
      (walkError ws = GoError.EOF ∨ s.SkipGitErrors = true) →
      ∃ mid : List Call, Call.commitsClose ∉ mid ∧ ∀ n : Nat,
        NextN g ((dirsBeforeError ws).length + (n + 1)) i calls =
          thenResults ((dirsBeforeError ws).map (fun e => rowResult r c e.Hash))
            (NextN g (n + 1) { i with trees := none } (calls ++ mid)) := by
  induction ws with
  | nil =>
    intro i calls id cs r c hs ht hc hr hcm hw
    refine ⟨[Call.treesNext id, Call.treesClose id], by simp, fun n => ?_⟩
    simp only [dirsBeforeError, List.length_nil, Nat.zero_add, List.map_nil, thenResults_nil]
    exact NextN_congr (Next_walk_end calls hs ht hc) n
  | cons w ws ih =>
    intro i calls id cs r c hs ht hc hr hcm hw
    cases w with
    | err e =>
      refine ⟨[Call.treesNext id, Call.treesClose id], by simp, fun n => ?_⟩
      simp only [dirsBeforeError, List.length_nil, Nat.zero_add, List.map_nil, thenResults_nil]
      exact NextN_congr (Next_walk_error_skip calls hs ht hc (by simpa [walkError] using hw)) n
    | ok e =>
      have hw1 : walkError ws = GoError.EOF ∨ s.SkipGitErrors = true := by
        simpa [walkError] using hw
      obtain ⟨mid, hmid, hrun⟩ :=
        ih { i with trees := some ⟨id, ws⟩ } (calls ++ [Call.treesNext id]) id cs r c
          hs rfl hc hr hcm hw1
      refine ⟨Call.treesNext id :: mid, by simpa using hmid, fun n => ?_⟩
      have hcalls : calls ++ Call.treesNext id :: mid = calls ++ [Call.treesNext id] ++ mid := by
        simp
      by_cases hd : e.Mode = FileMode.Dir
      · have hstep := Next_walk_dir (g := g) calls hs ht hc hd hr hcm
        simp only [dirsBeforeError, hd, if_true, List.length_cons, List.map_cons]
        rw [show (dirsBeforeError ws).length + 1 + (n + 1) =
          ((dirsBeforeError ws).length + (n + 1)) + 1 by omega]
        rw [NextN_succ_of_returned hstep, hrun n, thenResults_thenResults, hcalls]
        rfl
      · have hstep := Next_walk_file (g := g) calls hs ht hc hd
        simp only [dirsBeforeError, hd, if_false]
        rw [show (dirsBeforeError ws).length + (n + 1) =
          ((dirsBeforeError ws).length + n) + 1 by omega]
        rw [NextN_congr hstep]
        rw [show (dirsBeforeError ws).length + n + 1 =
          (dirsBeforeError ws).length + (n + 1) by omega]
        rw [hrun n, hcalls]



/-- The rows of a newly fetched commit, followed by what the iterator does once the
walk of the commit has ended. -/
theorem NextN_commit {g : Git} {s : Session} {i : commitTreesIter} (calls : List Call)
    {c : Commit} {t : Tree} {r : Repository} {rest : List (Res Commit)}
    (hs : i.ctx.Session = SqlSession.gitbase s) (ht : i.trees = none)
    (hc : i.commits = some ⟨Res.ok c :: rest⟩) (htree : c.Tree = Res.ok t)
    (hr : i.repo = some r)
    (hw : walkError (g.NewTreeWalker t true []) = GoError.EOF ∨ s.SkipGitErrors = true) :
    ∃ mid : List Call, Call.commitsClose ∉ mid ∧ ∀ n : Nat,
      NextN g ((commitRows r c t (g.NewTreeWalker t true [])).length + (n + 1)) i calls =
        thenResults (commitRows r c t (g.NewTreeWalker t true []))
          (NextN g (n + 1)
            { i with commits := some ⟨rest⟩, trees := none, commit := some c }
            (calls ++ mid)) := by
  have hstep := Next_root (g := g) calls hs ht hc htree hr
  obtain ⟨mid, hmid, hrun⟩ :=
    NextN_walk (g := g) (s := s) (g.NewTreeWalker t true [])
      { i with
        commits := some ⟨rest⟩,
        trees := some ⟨calls.length + 2, g.NewTreeWalker t true []⟩,
        commit := some c }
      (calls ++ [Call.commitsNext, Call.commitTree c.Hash,
        Call.NewTreeWalker (calls.length + 2) t.Hash true []])
      (calls.length + 2) ⟨rest⟩ r c hs rfl rfl hr rfl hw
  refine ⟨[Call.commitsNext, Call.commitTree c.Hash,
    Call.NewTreeWalker (calls.length + 2) t.Hash true []] ++ mid, by simpa using hmid,
    fun n => ?_⟩
  simp only [commitRows, List.length_cons, List.length_map]
  rw [show (dirsBeforeError (g.NewTreeWalker t true [])).length + 1 + (n + 1) =
    ((dirsBeforeError (g.NewTreeWalker t true [])).length + (n + 1)) + 1 by omega]
  rw [NextN_succ_of_returned hstep, hrun n, thenResults_thenResults, List.append_assoc]
  rfl

/-! ## Runs of `Next` over a commit stream -/

/-- When no result of the commit stream makes `Next` return an error, the calls of
`Next` return the rows of the stream and then `io.EOF`, and the stream is closed by the
last of these calls and not before. -/
theorem NextN_stream {g : Git} {s : Session} {r : Repository} (cs : List (Res Commit)) :
    ∀ (i : commitTreesIter) (calls : List Call),
      i.ctx.Session = SqlSession.gitbase s → i.trees = none → i.commits = some ⟨cs⟩ →
      i.repo = some r → (∀ x ∈ cs, passable g s x) →
      ∃ (i1 : commitTreesIter) (mid : List Call), Call.commitsClose ∉ mid ∧
        i1.commits = some ⟨[]⟩ ∧ i1.trees = none ∧
        NextN g ((streamRows g r cs).length + 1) i calls =
          some (streamRows g r cs ++ [(none, some GoError.EOF)], i1,
            calls ++ mid ++ [Call.commitsNext, Call.commitsClose]) := by
  induction cs with
  | nil =>
    intro i calls hs ht hc hr _
    refine ⟨i, [], by simp, hc, ht, ?_⟩
    simp [streamRows, NextN, Next_stream_end calls hs ht hc]
  | cons x cs ih =>
    intro i calls hs ht hc hr hp
    have hp1 : ∀ y ∈ cs, passable g s y := fun y hy => hp y (List.mem_cons_of_mem _ hy)
    have hx : passable g s x := hp x (List.mem_cons_self _ _)
    cases x with
    | err e =>
      obtain ⟨he, hskip⟩ : e ≠ GoError.EOF ∧ s.SkipGitErrors = true := hx
      obtain ⟨i1, mid, hmid, h1, h2, hrun⟩ :=
        ih { i with commits := some ⟨cs⟩ } (calls ++ [Call.commitsNext]) hs ht rfl hr hp1
      refine ⟨i1, Call.commitsNext :: mid, by simpa using hmid, h1, h2, ?_⟩
      simp only [streamRows]
      rw [NextN_congr (Next_commit_error_skip calls hs ht hc he hskip), hrun]
      simp
    | ok c =>
      cases htree : c.Tree with
      | err e =>
        have hskip : s.SkipGitErrors = true := by simpa [passable, htree] using hx
        obtain ⟨i1, mid, hmid, h1, h2, hrun⟩ :=
          ih { i with commits := some ⟨cs⟩ }
            (calls ++ [Call.commitsNext, Call.commitTree c.Hash]) hs ht rfl hr hp1
        refine ⟨i1, [Call.commitsNext, Call.commitTree c.Hash] ++ mid,
          by simpa using hmid, h1, h2, ?_⟩
        simp only [streamRows, htree, List.nil_append]
        rw [NextN_congr (Next_tree_error_skip calls hs ht hc htree hskip), hrun]
        simp
      | ok t =>
        have hw : walkError (g.NewTreeWalker t true []) = GoError.EOF ∨
            s.SkipGitErrors = true := by simpa [passable, htree] using hx
        obtain ⟨mid0, hmid0, hrun0⟩ := NextN_commit (g := g) calls hs ht hc htree hr hw
        obtain ⟨i1, mid, hmid, h1, h2, hrun⟩ :=
          ih { i with commits := some ⟨cs⟩, trees := none, commit := some c }
            (calls ++ mid0) hs rfl rfl hr hp1
        refine ⟨i1, mid0 ++ mid, by simp [hmid0, hmid], h1, h2, ?_⟩
        simp only [streamRows, htree, List.length_append]
        rw [Nat.add_assoc, hrun0, hrun]
        simp [thenResults]



/-! ## The iterator of a repository -/

theorem NewIterator_some {g : Git} {tmpl it : commitTreesIter} {repo : Repository}
    {calls0 calls : List Call} {err : Option GoError}
    (h : NewIterator g tmpl repo calls0 = ((some it, err), calls)) :
    it.ctx = tmpl.ctx ∧ it.repo = some repo ∧ it.trees = none ∧ it.commit = none ∧
      it.repos = tmpl.repos ∧ it.commitHashes = tmpl.commitHashes := by
  unfold NewIterator at h
  split at h
  · split at h
    · simp at h
    · simp only [Prod.mk.injEq, Option.some.injEq] at h
      obtain ⟨⟨rfl, -⟩, -⟩ := h
      simp
  · simp only [Prod.mk.injEq, Option.some.injEq] at h
    obtain ⟨⟨rfl, -⟩, -⟩ := h
    simp

theorem dirsBeforeError_map_ok (es : List TreeEntry) :
    dirsBeforeError (es.map Res.ok) = es.filter (fun e => e.Mode = FileMode.Dir) := by
  induction es with
  | nil => rfl
  | cons e es ih =>
    by_cases hd : e.Mode = FileMode.Dir
    · simp [dirsBeforeError, hd, ih]
    · simp [dirsBeforeError, hd, ih]

theorem walkError_map_ok (es : List TreeEntry) : walkError (es.map Res.ok) = GoError.EOF := by
  induction es with
  | nil => rfl
  | cons e es ih => simpa [walkError] using ih

theorem streamRows_walks {g : Git} {repo : Repository} (walks : List Walk)
    (htree : ∀ w ∈ walks, w.commit.Tree = Res.ok w.tree)
    (hwalk : ∀ w ∈ walks, g.NewTreeWalker w.tree true [] = w.entries.map Res.ok) :
    streamRows g repo (walks.map (fun w => Res.ok w.commit)) = expectedRows repo walks := by
  induction walks with
  | nil => rfl
  | cons w rest ih =>
    have h1 := htree w (List.mem_cons_self _ _)
    have h2 := hwalk w (List.mem_cons_self _ _)
    have ih1 := ih (fun v hv => htree v (List.mem_cons_of_mem _ hv))
      (fun v hv => hwalk v (List.mem_cons_of_mem _ hv))
    simp only [List.map_cons, streamRows, h1, h2, commitRows, dirsBeforeError_map_ok,
      expectedRows, ih1]

/-- C1: for a repository whose commit stream yields commits without error, with root
trees that resolve and walkers that yield no error, and a valid gitbase session, the
successive results of `Next` on the iterator returned by `NewIterator` are, for each
commit in stream order, the row of its root tree followed by one row for each
directory-mode entry its walker yields, in walker order, and then `io.EOF`; the commit
stream is closed by the call that returns `io.EOF` and not before. -/
theorem C1_rows_of_stream (git : Git) (tmpl it : commitTreesIter) (repo : Repository)
    (calls0 calls : List Call) (s : Session) (walks : List Walk)
    (hs : tmpl.ctx.Session = SqlSession.gitbase s)
    (hnew : NewIterator git tmpl repo calls0 = ((some it, none), calls))
    (hstream : it.commits = some ⟨walks.map (fun w => Res.ok w.commit)⟩)
    (htree : ∀ w ∈ walks, w.commit.Tree = Res.ok w.tree)
    (hwalk : ∀ w ∈ walks, git.NewTreeWalker w.tree true [] = w.entries.map Res.ok) :
    ∃ (it1 : commitTreesIter) (mid : List Call), Call.commitsClose ∉ mid ∧
      NextN git ((expectedRows repo walks).length + 1) it calls =
        some (expectedRows repo walks ++ [(none, some GoError.EOF)], it1,
          calls ++ mid ++ [Call.commitsNext, Call.commitsClose]) := by
  obtain ⟨hctx, hrepo, htrees, -, -, -⟩ := NewIterator_some hnew
  have hpass : ∀ x ∈ walks.map (fun w => Res.ok w.commit), passable git s x := by
    intro x hx
    obtain ⟨w, hw, rfl⟩ := List.mem_map.1 hx
    simp [passable, htree w hw, hwalk w hw, walkError_map_ok]
  obtain ⟨i1, mid, hmid, -, -, hrun⟩ :=
    NextN_stream (g := git) (s := s) (r := repo) _ it calls (by rw [hctx]; exact hs)
      htrees hstream hrepo hpass
  rw [streamRows_walks walks htree hwalk] at hrun
  exact ⟨i1, mid, hmid, hrun⟩



/-- C1 (witness): the example repository with its two commits, under the strict policy. -/
theorem C1_rows_of_stream_witness :
    ∃ (it1 : commitTreesIter) (mid : List Call), Call.commitsClose ∉ mid ∧
      NextN exGit 6 (exIter false [Res.ok exCommit, Res.ok exCommit2])
          [Call.NewCommitsByHashIter "r2" []] =
        some ([rowResult exRepo exCommit ⟨"a0"⟩, rowResult exRepo exCommit ⟨"d1"⟩,
            rowResult exRepo exCommit ⟨"d2"⟩, rowResult exRepo exCommit2 ⟨"a1"⟩,
            rowResult exRepo exCommit2 ⟨"d1"⟩, (none, some GoError.EOF)], it1,
          [Call.NewCommitsByHashIter "r2" []] ++ mid ++
            [Call.commitsNext, Call.commitsClose]) :=
  C1_rows_of_stream exGit (template (SqlSession.gitbase ⟨false⟩) [] [])
    (exIter false [Res.ok exCommit, Res.ok exCommit2]) exRepo []
    [Call.NewCommitsByHashIter "r2" []] ⟨false⟩
    [⟨exCommit, exTree, [exD1, exD2, exF]⟩, ⟨exCommit2, exTree2, [exD1]⟩]
    rfl rfl rfl (by decide) (by decide)



theorem NextN_no_stream {g : Git} {s : Session} {i : commitTreesIter} (calls : List Call)
    (hs : i.ctx.Session = SqlSession.gitbase s) (hc : i.commits = none) (n : Nat) :
    NextN g n i calls = some (List.replicate n (none, some GoError.EOF), i, calls) := by
  induction n with
  | zero => rfl
  | succ n ih => simp [NextN, Next_no_stream calls hs hc, ih, List.replicate_succ]

theorem NewIterator_filtered (git : Git) (tmpl : commitTreesIter) (repo : Repository)
    (calls : List Call) (hne : tmpl.repos ≠ []) (hnot : repo.ID ∉ tmpl.repos) :
    NewIterator git tmpl repo calls =
      ((some
        { ctx := tmpl.ctx, repo := some repo, commits := none, commit := none,
          trees := none, repos := tmpl.repos, commitHashes := tmpl.commitHashes }, none),
        calls) := by
  unfold NewIterator
  rw [if_neg]
  simp [stringContains, hne, hnot]

/-- C5: when the repository-id list of the template iterator is not empty and does not
contain the ID of the repository, `NewIterator` returns an iterator and no error
without making any call (so without opening a commit stream), the iterator has no
commit stream, and under a valid gitbase session every call of `Next` on it, the first
as any later one, returns `io.EOF` and no row. -/
theorem C5_filtered_repository (git : Git) (tmpl : commitTreesIter) (repo : Repository)
    (calls : List Call) (s : Session) (hs : tmpl.ctx.Session = SqlSession.gitbase s)
    (hne : tmpl.repos ≠ []) (hnot : repo.ID ∉ tmpl.repos) :
    ∃ it : commitTreesIter,
      NewIterator git tmpl repo calls = ((some it, none), calls) ∧ it.commits = none ∧
      ∀ n : Nat,
        NextN git n it calls = some (List.replicate n (none, some GoError.EOF), it, calls) := by
  refine ⟨_, NewIterator_filtered git tmpl repo calls hne hnot, rfl, fun n => ?_⟩
  exact NextN_no_stream calls (s := s) (by exact hs) rfl n

/-- C5 (witness): the repository `r1` under the repository-id selector `[r2]`. -/
theorem C5_filtered_repository_witness :
    (template (SqlSession.gitbase ⟨false⟩) ["r2"] []).repos ≠ [] ∧
    (⟨"r1"⟩ : Repository).ID ∉ (template (SqlSession.gitbase ⟨false⟩) ["r2"] []).repos ∧
    ∃ it : commitTreesIter,
      NewIterator exGit (template (SqlSession.gitbase ⟨false⟩) ["r2"] []) ⟨"r1"⟩ [] =
        ((some it, none), []) ∧ it.commits = none ∧
      ∀ n : Nat,
        NextN exGit n it [] = some (List.replicate n (none, some GoError.EOF), it, []) :=
  ⟨by decide, by decide,
    C5_filtered_repository exGit (template (SqlSession.gitbase ⟨false⟩) ["r2"] []) ⟨"r1"⟩ []
      ⟨false⟩ rfl (by decide) (by decide)⟩

theorem passable_of_skip {g : Git} {s : Session} (hskip : s.SkipGitErrors = true)
    {x : Res Commit} (hx : x ≠ Res.err GoError.EOF) : passable g s x := by
  cases x with
  | err e => exact ⟨fun h => hx (by rw [h]), hskip⟩
  | ok c =>
    unfold passable
    simp only
    split
    · exact hskip
    · exact Or.inr hskip

/-- C7: when the next result of the commit stream is an error other than `io.EOF` and
no walk is active, then under the skip policy `Next` behaves as on the iterator whose
commit stream starts at the following result (no row and no error for the failed one),
and under the strict policy `Next` returns exactly that error and no row.  Under the
skip policy the rows of the other results of the stream are still returned, followed by
`io.EOF`: with one valid and one unresolvable hash, the rows of the valid hash only. -/
theorem C7_commit_stream_failure (git : Git) (i : commitTreesIter) (calls : List Call)
    (s : Session) (e : GoError) (rest : List (Res Commit))
    (hs : i.ctx.Session = SqlSession.gitbase s) (ht : i.trees = none)
    (hc : i.commits = some ⟨Res.err e :: rest⟩) (he : e ≠ GoError.EOF) :
    (s.SkipGitErrors = true →
      Next git i calls =
        Next git { i with commits := some ⟨rest⟩ } (calls ++ [Call.commitsNext]) ∧
      ∃ o, Next git i calls = some o) ∧
    (s.SkipGitErrors = false →
      Next git i calls =
        some (Outcome.returned none (some e) { i with commits := some ⟨rest⟩ }
          (calls ++ [Call.commitsNext]))) ∧
    (s.SkipGitErrors = true → ∀ r : Repository, i.repo = some r →
      (∀ x ∈ rest, x ≠ Res.err GoError.EOF) →
      ∃ (i1 : commitTreesIter) (calls1 : List Call),
        NextN git ((streamRows git r rest).length + 1) i calls =
          some (streamRows git r rest ++ [(none, some GoError.EOF)], i1, calls1)) := by
  refine ⟨fun hskip => ⟨Next_commit_error_skip calls hs ht hc he hskip, Next_total _ _ _⟩,
    fun hstrict => Next_commit_error_strict calls hs ht hc he hstrict,
    fun hskip r hr hrest => ?_⟩
  have hpass : ∀ x ∈ Res.err e :: rest, passable git s x := by
    intro x hx
    rcases List.mem_cons.1 hx with rfl | hx
    · exact ⟨he, hskip⟩
    · exact passable_of_skip hskip (hrest x hx)
  obtain ⟨i1, mid, -, -, -, hrun⟩ :=
    NextN_stream (g := git) (s := s) (r := r) _ i calls hs ht hc hr hpass
  exact ⟨i1, _, hrun⟩

/-- C7 (witness): a commit-hash selector with an unresolvable and a valid hash under the
skip policy gives the rows of the valid hash only, then `io.EOF`. -/
theorem C7_commit_stream_failure_witness :
    (Next exGit (exIter true [Res.err ErrObjectNotFound, Res.ok exCommit]) [] =
        Next exGit (exIter true [Res.ok exCommit]) [Call.commitsNext] ∧
      ∃ o, Next exGit (exIter true [Res.err ErrObjectNotFound, Res.ok exCommit]) [] =
        some o) ∧
    ∃ (i1 : commitTreesIter) (calls1 : List Call),
      NextN exGit 4 (exIter true [Res.err ErrObjectNotFound, Res.ok exCommit]) [] =
        some ([rowResult exRepo exCommit ⟨"a0"⟩, rowResult exRepo exCommit ⟨"d1"⟩,
          rowResult exRepo exCommit ⟨"d2"⟩, (none, some GoError.EOF)], i1, calls1) :=
  have h := C7_commit_stream_failure exGit
    (exIter true [Res.err ErrObjectNotFound, Res.ok exCommit]) [] ⟨true⟩ ErrObjectNotFound
    [Res.ok exCommit] rfl rfl rfl (by decide)
  ⟨h.1 rfl, h.2.2 rfl exRepo rfl (by decide)⟩

/-- C9: when the root tree of a fetched commit does not resolve (`commit.Tree` returns
an error), then under the skip policy `Next` returns nothing for that commit, leaves no
walker active and behaves as on the iterator whose commit stream starts at the next
result, so that the rows of the later commits are still returned; under the strict
policy `Next` returns that error and no row. -/
theorem C9_root_tree_failure (git : Git) (i : commitTreesIter) (calls : List Call)
    (s : Session) (c : Commit) (e : GoError) (rest : List (Res Commit))
    (hs : i.ctx.Session = SqlSession.gitbase s) (ht : i.trees = none)
    (hc : i.commits = some ⟨Res.ok c :: rest⟩) (htree : c.Tree = Res.err e) :
    (s.SkipGitErrors = true →
      Next git i calls =
        Next git { i with commits := some ⟨rest⟩ }
          (calls ++ [Call.commitsNext, Call.commitTree c.Hash]) ∧
      ({ i with commits := some ⟨rest⟩ } : commitTreesIter).trees = none ∧
      ∃ o, Next git i calls = some o) ∧
    (s.SkipGitErrors = false →
      Next git i calls =
        some (Outcome.returned none (some e) { i with commits := some ⟨rest⟩ }
          (calls ++ [Call.commitsNext, Call.commitTree c.Hash]))) ∧
    (s.SkipGitErrors = true → ∀ r : Repository, i.repo = some r →
      (∀ x ∈ rest, x ≠ Res.err GoError.EOF) →
      ∃ (i1 : commitTreesIter) (calls1 : List Call),
        NextN git ((streamRows git r rest).length + 1) i calls =
          some (streamRows git r rest ++ [(none, some GoError.EOF)], i1, calls1)) := by
  refine ⟨fun hskip =>
      ⟨Next_tree_error_skip calls hs ht hc htree hskip, ht, Next_total _ _ _⟩,
    fun hstrict => Next_tree_error_strict calls hs ht hc htree hstrict,
    fun hskip r hr hrest => ?_⟩
  have hpass : ∀ x ∈ Res.ok c :: rest, passable git s x := by
    intro x hx
    rcases List.mem_cons.1 hx with rfl | hx
    · simpa [passable, htree] using hskip
    · exact passable_of_skip hskip (hrest x hx)
  obtain ⟨i1, mid, -, -, -, hrun⟩ :=
    NextN_stream (g := git) (s := s) (r := r) _ i calls hs ht hc hr hpass
  refine ⟨i1, calls ++ mid ++ [Call.commitsNext, Call.commitsClose], ?_⟩
  simpa [streamRows, htree] using hrun

/-- C9 (witness): a commit whose root tree does not resolve, followed by `exCommit2`,
under the skip policy. -/
theorem C9_root_tree_failure_witness :
    (Next exGit
        (exIter true [Res.ok ⟨⟨"c0"⟩, Res.err ErrObjectNotFound⟩, Res.ok exCommit2]) [] =
      Next exGit (exIter true [Res.ok exCommit2])
        [Call.commitsNext, Call.commitTree ⟨"c0"⟩] ∧
      (exIter true [Res.ok exCommit2]).trees = none ∧
      ∃ o, Next exGit
        (exIter true [Res.ok ⟨⟨"c0"⟩, Res.err ErrObjectNotFound⟩, Res.ok exCommit2]) [] =
          some o) ∧
    ∃ (i1 : commitTreesIter) (calls1 : List Call),
      NextN exGit 3
          (exIter true [Res.ok ⟨⟨"c0"⟩, Res.err ErrObjectNotFound⟩, Res.ok exCommit2]) [] =
        some ([rowResult exRepo exCommit2 ⟨"a1"⟩, rowResult exRepo exCommit2 ⟨"d1"⟩,
          (none, some GoError.EOF)], i1, calls1) :=
  have h := C9_root_tree_failure exGit
    (exIter true [Res.ok ⟨⟨"c0"⟩, Res.err ErrObjectNotFound⟩, Res.ok exCommit2]) [] ⟨true⟩
    ⟨⟨"c0"⟩, Res.err ErrObjectNotFound⟩ ErrObjectNotFound [Res.ok exCommit2]
    rfl rfl rfl rfl
  ⟨h.1 rfl, h.2.2 rfl exRepo rfl (by decide)⟩

/-- C10: when `Next` of the active tree walker returns an error other than `io.EOF`,
the walker is closed and cleared; under the skip policy `Next` then behaves as on the
iterator without walker, which fetches the next commit (the other results of the walker
are dropped), and under the strict policy `Next` returns that error and no row. -/
theorem C10_walker_failure (git : Git) (i : commitTreesIter) (calls : List Call)
    (s : Session) (id : Nat) (e : GoError) (ws : List (Res TreeEntry)) (cs : CommitIter)
    (hs : i.ctx.Session = SqlSession.gitbase s)
    (ht : i.trees = some ⟨id, Res.err e :: ws⟩) (hc : i.commits = some cs)
    (he : e ≠ GoError.EOF) :
    (s.SkipGitErrors = true →
      Next git i calls =
        Next git { i with trees := none }
          (calls ++ [Call.treesNext id, Call.treesClose id]) ∧
      (∃ o, Next git i calls = some o) ∧
      ∀ (c : Commit) (t : Tree) (r : Repository) (rest : List (Res Commit)),
        cs = ⟨Res.ok c :: rest⟩ → c.Tree = Res.ok t → i.repo = some r →
        ∃ (i1 : commitTreesIter) (calls1 : List Call),
          Next git i calls =
            some (Outcome.returned (rowResult r c t.Hash).1 none i1 calls1)) ∧
    (s.SkipGitErrors = false →
      Next git i calls =
        some (Outcome.returned none (some e) { i with trees := none }
          (calls ++ [Call.treesNext id, Call.treesClose id]))) := by
  refine ⟨fun hskip => ?_, fun hstrict => Next_walk_error_strict calls hs ht hc he hstrict⟩
  have hstep := Next_walk_error_skip (g := git) calls hs ht hc (Or.inr hskip)
  refine ⟨hstep, Next_total _ _ _, fun c t r rest hcs htree hr => ?_⟩
  subst hcs
  rw [hstep]
  exact ⟨_, _, Next_root _ hs rfl hc htree hr⟩

/-- C10 (witness): a walker whose next result is a failure, under the strict and under
the skip policy. -/
theorem C10_walker_failure_witness :
    (Next exGit
        { exIter false [Res.ok exCommit2] with
          trees := some ⟨7, [Res.err ErrObjectNotFound, Res.ok exD1]⟩,
          commit := some exCommit } [] =
      some (Outcome.returned none (some ErrObjectNotFound)
        { exIter false [Res.ok exCommit2] with trees := none, commit := some exCommit }
        [Call.treesNext 7, Call.treesClose 7])) ∧
    (Next exGit
        { exIter true [Res.ok exCommit2] with
          trees := some ⟨7, [Res.err ErrObjectNotFound, Res.ok exD1]⟩,
          commit := some exCommit } [] =
      Next exGit
        { exIter true [Res.ok exCommit2] with trees := none, commit := some exCommit }
        [Call.treesNext 7, Call.treesClose 7]) :=
  ⟨(C10_walker_failure exGit
      { exIter false [Res.ok exCommit2] with
        trees := some ⟨7, [Res.err ErrObjectNotFound, Res.ok exD1]⟩,
        commit := some exCommit } [] ⟨false⟩ 7 ErrObjectNotFound [Res.ok exD1]
      ⟨[Res.ok exCommit2]⟩ rfl rfl rfl (by decide)).2 rfl,
    ((C10_walker_failure exGit
      { exIter true [Res.ok exCommit2] with
        trees := some ⟨7, [Res.err ErrObjectNotFound, Res.ok exD1]⟩,
        commit := some exCommit } [] ⟨true⟩ 7 ErrObjectNotFound [Res.ok exD1]
      ⟨[Res.ok exCommit2]⟩ rfl rfl rfl (by decide)).1 rfl).1⟩



/-! ## Invariants of the iterator -/

theorem body_scans {g : Git} {s : Session} {r : Repository} {i : commitTreesIter}
    (calls : List Call) (hi : scans r i) :
    match Next.body g s i calls with
    | Flow.continues i1 _ => scans r i1
    | Flow.returns row err i1 _ => scans r i1 ∧ rowOf r (row, err)
    | Flow.panics _ => False := by
  obtain ⟨ctx, repo, commits, commit, trees, repos, hashes⟩ := i
  obtain ⟨hr, hcm⟩ := hi
  simp only at hr hcm
  subst hr
  cases commits with
  | none => simpa [Next.body, scans, rowOf] using hcm
  | some c =>
    cases trees with
    | some w =>
      obtain ⟨cm, rfl⟩ : ∃ cm, commit = some cm := by
        cases commit with
        | none => exact absurd rfl (hcm (by simp))
        | some cm => exact ⟨cm, rfl⟩
      obtain ⟨id, items⟩ := w
      cases items with
      | nil => simp [Next.body, Next.walk, TreeWalker.Next, scans]
      | cons x rest =>
        cases x with
        | err e =>
          by_cases h : e = GoError.EOF ∨ s.SkipGitErrors = true
          · simp [Next.body, Next.walk, TreeWalker.Next, scans, h]
          · simp [Next.body, Next.walk, TreeWalker.Next, scans, rowOf, h]
        | ok e =>
          by_cases h : e.Mode = FileMode.Dir
          · simp only [Next.body, Next.walk, TreeWalker.Next, Next.row, scans, rowOf, h]
            simp only [ne_eq, not_true_eq_false, if_false, reduceCtorEq, not_false_eq_true,
              forall_true_left, true_and, Option.some.injEq, forall_eq']
            exact ⟨_, _, rfl⟩
          · simp [Next.body, Next.walk, TreeWalker.Next, scans, h]
    | none =>
      obtain ⟨items⟩ := c
      cases items with
      | nil => simp [Next.body, CommitIter.Next, scans, rowOf]
      | cons x rest =>
        cases x with
        | err e =>
          by_cases h : e = GoError.EOF
          · simp [Next.body, CommitIter.Next, scans, rowOf, h]
          · by_cases h2 : s.SkipGitErrors = true
            · simp [Next.body, CommitIter.Next, scans, h, h2]
            · simp [Next.body, CommitIter.Next, scans, rowOf, h, h2]
        | ok cm =>
          cases htree : cm.Tree with
          | err e =>
            by_cases h2 : s.SkipGitErrors = true
            · simp [Next.body, CommitIter.Next, scans, htree, h2]
            · simp [Next.body, CommitIter.Next, scans, rowOf, htree, h2]
          | ok t =>
            simp only [Next.body, CommitIter.Next, Next.row, scans, rowOf, htree]
            simp only [ne_eq, reduceCtorEq, not_false_eq_true, forall_true_left, true_and,
              Option.some.injEq, forall_eq']
            exact ⟨_, _, rfl⟩

theorem loop_scans {g : Git} {s : Session} {r : Repository} (n : Nat) :
    ∀ (i : commitTreesIter) (calls : List Call) (o : Outcome), scans r i →
      Next.loop g s n i calls = some o →
      ∃ row err i1 calls1, o = Outcome.returned row err i1 calls1 ∧ scans r i1 ∧
        rowOf r (row, err) := by
  induction n with
  | zero => intro i calls o _ h; simp [Next.loop] at h
  | succ n ih =>
    intro i calls o hi h
    have hb := body_scans (g := g) (s := s) calls hi
    rw [Next.loop] at h
    cases hbody : Next.body g s i calls with
    | continues i1 calls1 =>
      rw [hbody] at h hb
      exact ih i1 calls1 o hb h
    | returns row err i1 calls1 =>
      rw [hbody] at h hb
      simp only [Option.some.injEq] at h
      exact ⟨row, err, i1, calls1, h.symm, hb.1, hb.2⟩
    | panics calls1 =>
      rw [hbody] at hb
      exact hb.elim

theorem Next_scans {g : Git} {r : Repository} {i : commitTreesIter} (calls : List Call)
    (hi : scans r i) :
    ∃ row err i1 calls1, Next g i calls = some (Outcome.returned row err i1 calls1) ∧
      scans r i1 ∧ rowOf r (row, err) := by
  obtain ⟨o, ho⟩ := Next_total g i calls
  have ho1 := ho
  unfold Next at ho1
  split at ho1
  · simp only [Option.some.injEq] at ho1
    subst ho1
    exact ⟨_, _, _, _, ho, hi, by simp [rowOf]⟩
  · obtain ⟨row, err, i1, calls1, rfl, h1, h2⟩ := loop_scans _ i calls o hi ho1
    exact ⟨row, err, i1, calls1, ho, h1, h2⟩

theorem NextN_scans {g : Git} {r : Repository} (n : Nat) :
    ∀ (i : commitTreesIter) (calls : List Call), scans r i →
      ∃ rs i1 calls1, NextN g n i calls = some (rs, i1, calls1) ∧ scans r i1 ∧
        ∀ x ∈ rs, rowOf r x := by
  induction n with
  | zero => intro i calls hi; exact ⟨[], i, calls, rfl, hi, by simp⟩
  | succ n ih =>
    intro i calls hi
    obtain ⟨row, err, i1, calls1, hnext, h1, h2⟩ := Next_scans (g := g) calls hi
    obtain ⟨rs, i2, calls2, hrun, h3, h4⟩ := ih i1 calls1 h1
    refine ⟨(row, err) :: rs, i2, calls2, ?_, h3, ?_⟩
    · simp [NextN, hnext, hrun]
    · intro x hx
      rcases List.mem_cons.1 hx with rfl | hx
      · exact h2
      · exact h4 x hx

/-- C6: every row returned by calls of `Next` on the iterator that `NewIterator` returns
for a repository has the ID of that repository as its repository_id, and the calls do
return.  With the repository-id selector `[r2]` and a valid gitbase session, every row
therefore has repository_id `r2`, and a repository with another ID gives `io.EOF` at
every call: no row and no other error. -/
theorem C6_repository_id (git : Git) (tmpl it : commitTreesIter) (repo : Repository)
    (calls0 calls : List Call) (n : Nat)
    (hnew : NewIterator git tmpl repo calls0 = ((some it, none), calls)) :
    ∃ rs i1 calls1, NextN git n it calls = some (rs, i1, calls1) ∧
      (∀ x ∈ rs, rowOf repo x) ∧
      ∀ (s : Session) (r2 : Repository), tmpl.ctx.Session = SqlSession.gitbase s →
        tmpl.repos = [r2.ID] →
        (∀ x ∈ rs, rowOf r2 x) ∧
        (repo.ID ≠ r2.ID → rs = List.replicate n (none, some GoError.EOF)) := by
  obtain ⟨hctx, hrepo, htrees, -, -, -⟩ := NewIterator_some hnew
  have hi : scans repo it := ⟨hrepo, fun h => absurd htrees h⟩
  obtain ⟨rs, i1, calls1, hrun, -, hrows⟩ := NextN_scans (g := git) n it calls hi
  refine ⟨rs, i1, calls1, hrun, hrows, fun s r2 hs hsel => ?_⟩
  by_cases hid : repo.ID = r2.ID
  · refine ⟨fun x hx => ?_, fun h => absurd hid h⟩
    have := hrows x hx
    simpa [rowOf, hid] using this
  · have hf := NewIterator_filtered git tmpl repo calls0 (by simp [hsel])
      (by simpa [hsel] using hid)
    rw [hf] at hnew
    simp only [Prod.mk.injEq, Option.some.injEq, and_true, true_and] at hnew
    have hc : it.commits = none := by rw [← hnew.1]
    have hrun2 := NextN_no_stream (g := git) (s := s) (i := it) calls
      (by rw [hctx]; exact hs) hc n
    rw [hrun2] at hrun
    simp only [Option.some.injEq, Prod.mk.injEq] at hrun
    obtain ⟨rfl, -, -⟩ := hrun
    refine ⟨fun x hx => ?_, fun _ => rfl⟩
    rw [List.eq_of_mem_replicate hx]
    simp [rowOf]



/-- C6 (witness): the iterator of the repository `r2` under the selector `[r2]`. -/
theorem C6_repository_id_witness :
    ∃ rs i1 calls1,
      NextN exGit 3
          { exIter false [Res.ok exCommit, Res.ok exCommit2] with repos := ["r2"] }
          [Call.NewCommitsByHashIter "r2" []] = some (rs, i1, calls1) ∧
      (∀ x ∈ rs, rowOf exRepo x) ∧
      ∀ (s : Session) (r2 : Repository),
        (template (SqlSession.gitbase ⟨false⟩) ["r2"] []).ctx.Session =
          SqlSession.gitbase s →
        (template (SqlSession.gitbase ⟨false⟩) ["r2"] []).repos = [r2.ID] →
        (∀ x ∈ rs, rowOf r2 x) ∧
        (exRepo.ID ≠ r2.ID → rs = List.replicate 3 (none, some GoError.EOF)) :=
  C6_repository_id exGit (template (SqlSession.gitbase ⟨false⟩) ["r2"] [])
    { exIter false [Res.ok exCommit, Res.ok exCommit2] with repos := ["r2"] } exRepo []
    [Call.NewCommitsByHashIter "r2" []] 3 rfl

theorem body_failure {g : Git} {s : Session} (i : commitTreesIter) (calls : List Call) :
    match Next.body g s i calls with
    | Flow.returns row err i1 _ =>
      ∀ e, err = some e → row = none ∧ (e ≠ GoError.EOF → i1.trees = none)
    | _ => True := by
  obtain ⟨ctx, repo, commits, commit, trees, repos, hashes⟩ := i
  cases commits with
  | none => simp [Next.body]
  | some c =>
    cases trees with
    | some w =>
      obtain ⟨id, items⟩ := w
      cases items with
      | nil => simp [Next.body, Next.walk, TreeWalker.Next]
      | cons x rest =>
        cases x with
        | err e =>
          by_cases h : e = GoError.EOF ∨ s.SkipGitErrors = true
          · simp [Next.body, Next.walk, TreeWalker.Next, h]
          · simp [Next.body, Next.walk, TreeWalker.Next, h]
        | ok e =>
          by_cases h : e.Mode = FileMode.Dir
          · simp only [Next.body, Next.walk, TreeWalker.Next, Next.row, h]
            cases repo <;> cases commit <;> simp
          · simp [Next.body, Next.walk, TreeWalker.Next, h]
    | none =>
      obtain ⟨items⟩ := c
      cases items with
      | nil => simp [Next.body, CommitIter.Next]
      | cons x rest =>
        cases x with
        | err e =>
          by_cases h : e = GoError.EOF
          · simp [Next.body, CommitIter.Next, h]
          · by_cases h2 : s.SkipGitErrors = true
            · simp [Next.body, CommitIter.Next, h, h2]
            · simp [Next.body, CommitIter.Next, h, h2]
        | ok cm =>
          cases htree : cm.Tree with
          | err e =>
            by_cases h2 : s.SkipGitErrors = true
            · simp [Next.body, CommitIter.Next, htree, h2]
            · simp [Next.body, CommitIter.Next, htree, h2]
          | ok t =>
            simp only [Next.body, CommitIter.Next, Next.row, htree]
            cases repo <;> simp

theorem loop_failure {g : Git} {s : Session} (n : Nat) :
    ∀ (i i1 : commitTreesIter) (calls calls1 : List Call) (row : Option Row) (e : GoError),
      Next.loop g s n i calls = some (Outcome.returned row (some e) i1 calls1) →
      row = none ∧ (e ≠ GoError.EOF → i1.trees = none) := by
  induction n with
  | zero => intro i i1 calls calls1 row e h; simp [Next.loop] at h
  | succ n ih =>
    intro i i1 calls calls1 row e h
    have hb := body_failure (g := g) (s := s) i calls
    rw [Next.loop] at h
    cases hbody : Next.body g s i calls with
    | continues i2 calls2 =>
      rw [hbody] at h
      exact ih i2 i1 calls2 calls1 row e h
    | returns row2 err2 i2 calls2 =>
      rw [hbody] at h hb
      simp only [Option.some.injEq, Outcome.returned.injEq] at h
      obtain ⟨rfl, rfl, rfl, rfl⟩ := h
      exact hb e rfl
    | panics calls2 =>
      rw [hbody] at h
      simp at h

theorem body_barren {g : Git} {s : Session} {i : commitTreesIter} (calls : List Call)
    (hi : barren i) :
    match Next.body g s i calls with
    | Flow.continues i1 _ => barren i1
    | Flow.returns row _ i1 _ => barren i1 ∧ row = none
    | Flow.panics _ => False := by
  obtain ⟨ctx, repo, commits, commit, trees, repos, hashes⟩ := i
  obtain ⟨ht, hcs⟩ := hi
  simp only at ht hcs
  subst ht
  cases commits with
  | none => simp [Next.body, barren]
  | some c =>
    obtain ⟨items⟩ := c
    cases items with
    | nil => simp [Next.body, CommitIter.Next, barren]
    | cons x rest =>
      have hrest : ∀ c t, Res.ok c ∈ rest → c.Tree ≠ Res.ok t :=
        fun c t hc => hcs _ rfl c t (List.mem_cons_of_mem _ hc)
      have hb : barren
          { ctx := ctx, repo := repo, commits := some ⟨rest⟩, commit := commit,
            trees := none, repos := repos, commitHashes := hashes } := by
        refine ⟨rfl, fun cs h c t hc => ?_⟩
        simp only [Option.some.injEq] at h
        subst h
        exact hrest c t hc
      cases x with
      | err e =>
        by_cases h : e = GoError.EOF
        · simpa [Next.body, CommitIter.Next, h] using hb
        · by_cases h2 : s.SkipGitErrors = true
          · simpa [Next.body, CommitIter.Next, h, h2] using hb
          · simpa [Next.body, CommitIter.Next, h, h2] using hb
      | ok cm =>
        cases htree : cm.Tree with
        | err e =>
          by_cases h2 : s.SkipGitErrors = true
          · simpa [Next.body, CommitIter.Next, htree, h2] using hb
          · simpa [Next.body, CommitIter.Next, htree, h2] using hb
        | ok t => exact absurd htree (hcs _ rfl cm t (List.mem_cons_self _ _))

theorem loop_barren {g : Git} {s : Session} (n : Nat) :
    ∀ (i : commitTreesIter) (calls : List Call) (o : Outcome), barren i →
      Next.loop g s n i calls = some o →
      ∃ err i1 calls1, o = Outcome.returned none err i1 calls1 ∧ barren i1 := by
  induction n with
  | zero => intro i calls o _ h; simp [Next.loop] at h
  | succ n ih =>
    intro i calls o hi h
    have hb := body_barren (g := g) (s := s) calls hi
    rw [Next.loop] at h
    cases hbody : Next.body g s i calls with
    | continues i1 calls1 =>
      rw [hbody] at h hb
      exact ih i1 calls1 o hb h
    | returns row err i1 calls1 =>
      rw [hbody] at h hb
      simp only [Option.some.injEq] at h
      obtain ⟨h1, rfl⟩ := hb
      exact ⟨err, i1, calls1, h.symm, h1⟩
    | panics calls1 =>
      rw [hbody] at hb
      exact hb.elim

theorem NextN_barren {g : Git} (n : Nat) :
    ∀ (i : commitTreesIter) (calls : List Call), barren i →
      ∃ rs i1 calls1, NextN g n i calls = some (rs, i1, calls1) ∧ ∀ x ∈ rs, x.1 = none := by
  induction n with
  | zero => intro i calls _; exact ⟨[], i, calls, rfl, by simp⟩
  | succ n ih =>
    intro i calls hi
    obtain ⟨o, ho⟩ := Next_total g i calls
    have hstep : ∃ err i1 calls1, o = Outcome.returned none err i1 calls1 ∧ barren i1 := by
      have ho1 := ho
      unfold Next at ho1
      split at ho1
      · simp only [Option.some.injEq] at ho1
        exact ⟨_, _, _, ho1.symm, hi⟩
      · exact loop_barren _ i calls o hi ho1
    obtain ⟨err, i1, calls1, rfl, h1⟩ := hstep
    obtain ⟨rs, i2, calls2, hrun, h2⟩ := ih i1 calls1 h1
    refine ⟨(none, err) :: rs, i2, calls2, by simp [NextN, ho, hrun], ?_⟩
    intro x hx
    rcases List.mem_cons.1 hx with rfl | hx
    · rfl
    · exact h2 x hx

/-- C8 (counterexample): under the strict policy, on a commit stream whose first result
is a failure and whose second result is a commit, the first call of `Next` returns the
error and the second call returns a row. -/
theorem C8_counterexample :
    (exIter false []).ctx.Session = SqlSession.gitbase ⟨false⟩ ∧
    Option.map (fun p => p.1)
        (NextN exGit 2 (exIter false [Res.err ErrObjectNotFound, Res.ok exCommit]) []) =
      some [(none, some ErrObjectNotFound), rowResult exRepo exCommit ⟨"a0"⟩] := by
  decide

/-- C8 (amended): under a valid session, a call of `Next` that returns an error other
than `io.EOF` returns no row and leaves no tree walker active; the iterator keeps no
record of the failure, and later calls of `Next` go on with the commit stream: they
return no row if the stream yields no further commit whose root tree resolves. -/
theorem C8_failure_leaves_no_walker (git : Git) (i i1 : commitTreesIter)
    (calls calls1 : List Call) (s : Session) (row : Option Row) (e : GoError)
    (hs : i.ctx.Session = SqlSession.gitbase s)
    (hnext : Next git i calls = some (Outcome.returned row (some e) i1 calls1))
    (he : e ≠ GoError.EOF) :
    row = none ∧ i1.trees = none ∧
    ((∀ cs, i1.commits = some cs → ∀ c t, Res.ok c ∈ cs.items → c.Tree ≠ Res.ok t) →
      ∀ n : Nat, ∃ rs i2 calls2,
        NextN git n i1 calls1 = some (rs, i2, calls2) ∧ ∀ x ∈ rs, x.1 = none) := by
  rw [Next_eq_loop calls hs] at hnext
  obtain ⟨h1, h2⟩ := loop_failure _ i i1 calls calls1 row e hnext
  exact ⟨h1, h2 he, fun hcs n => NextN_barren n i1 calls1 ⟨h2 he, hcs⟩⟩

/-- C8 (witness): under the strict policy `Next` returns the failure of the first hash;
the commit that is left has no root tree. -/
theorem C8_failure_leaves_no_walker_witness :
    (none : Option Row) = none ∧
    (exIter false [Res.ok ⟨⟨"c0"⟩, Res.err ErrObjectNotFound⟩]).trees = none ∧
    ((∀ cs, (exIter false [Res.ok ⟨⟨"c0"⟩, Res.err ErrObjectNotFound⟩]).commits = some cs →
        ∀ c t, Res.ok c ∈ cs.items → c.Tree ≠ Res.ok t) →
      ∀ n : Nat, ∃ rs i2 calls2,
        NextN exGit n (exIter false [Res.ok ⟨⟨"c0"⟩, Res.err ErrObjectNotFound⟩])
          [Call.commitsNext] = some (rs, i2, calls2) ∧ ∀ x ∈ rs, x.1 = none) :=
  C8_failure_leaves_no_walker exGit
    (exIter false [Res.err ErrObjectNotFound, Res.ok ⟨⟨"c0"⟩, Res.err ErrObjectNotFound⟩])
    (exIter false [Res.ok ⟨⟨"c0"⟩, Res.err ErrObjectNotFound⟩]) [] [Call.commitsNext]
    ⟨false⟩ none ErrObjectNotFound rfl (by decide) (by decide)



/-! ## The tree walker of the specification -/

theorem dirHashes_append (a b : List (Res TreeEntry)) :
    dirHashes (a ++ b) = dirHashes a ++ dirHashes b := by
  induction a with
  | nil => rfl
  | cons x a ih =>
    cases x with
    | err e => simpa [dirHashes] using ih
    | ok e =>
      by_cases hd : e.Mode = FileMode.Dir
      · simp [dirHashes, hd, ih]
      · simp [dirHashes, hd, ih]

theorem dirHashes_of_noError {items : List (Res TreeEntry)} (h : noError items) :
    (dirsBeforeError items).map TreeEntry.Hash = dirHashes items := by
  induction items with
  | nil => rfl
  | cons x items ih =>
    have ih1 := ih (fun y hy => h y (List.mem_cons_of_mem _ hy))
    cases x with
    | err e =>
      obtain ⟨e1, he1⟩ := h _ (List.mem_cons_self _ _)
      cases he1
    | ok e =>
      by_cases hd : e.Mode = FileMode.Dir
      · simp [dirsBeforeError, dirHashes, hd, ih1]
      · simp [dirsBeforeError, dirHashes, hd, ih1]

theorem dirsBeforeError_sublist (items : List (Res TreeEntry)) :
    List.Sublist ((dirsBeforeError items).map TreeEntry.Hash) (dirHashes items) := by
  induction items with
  | nil => exact List.Sublist.slnil
  | cons x items ih =>
    cases x with
    | err e => simp [dirsBeforeError]
    | ok e =>
      by_cases hd : e.Mode = FileMode.Dir
      · simpa [dirsBeforeError, dirHashes, hd] using ih
      · simpa [dirsBeforeError, dirHashes, hd] using ih

theorem walkError_of_noError {items : List (Res TreeEntry)} (h : noError items) :
    walkError items = GoError.EOF := by
  induction items with
  | nil => rfl
  | cons x items ih =>
    have ih1 := ih (fun y hy => h y (List.mem_cons_of_mem _ hy))
    cases x with
    | err e =>
      obtain ⟨e1, he1⟩ := h _ (List.mem_cons_self _ _)
      cases he1
    | ok e => simpa [walkError] using ih1

theorem Reach_mono {store : TreeStore} {es es1 : List TreeEntry} (hsub : ∀ e ∈ es, e ∈ es1)
    {h : Hash} (hr : Reach store es h) : Reach store es1 h := by
  induction hr with
  | entry e he hd => exact Reach.entry e (hsub e he) hd
  | child h children e _ hl he hd ih => exact Reach.child h children e ih hl he hd

theorem Reach_of_child {store : TreeStore} {es children : List TreeEntry} {h x : Hash}
    (hh : Reach store es h) (hl : getTreeEntries store h = some children)
    (hx : Reach store children x) : Reach store es x := by
  induction hx with
  | entry e he hd => exact Reach.child h children e hh hl he hd
  | child h1 children1 e _ hl1 he hd ih => exact Reach.child h1 children1 e ih hl1 he hd

theorem unseen_cons (p : Hash × List TreeEntry) (store : TreeStore) (seen : List Hash) :
    unseen (p :: store) seen = unseen store seen + (if p.1 ∈ seen then 0 else 1) := by
  unfold unseen
  by_cases h : p.1 ∈ seen
  · simp [List.filter_cons, h]
  · simp [List.filter_cons, h]

theorem unseen_mono (store : TreeStore) {seen seen1 : List Hash}
    (hsub : ∀ x ∈ seen, x ∈ seen1) : unseen store seen1 ≤ unseen store seen := by
  induction store with
  | nil => simp [unseen]
  | cons p store ih =>
    rw [unseen_cons, unseen_cons]
    by_cases h1 : p.1 ∈ seen
    · have h2 : p.1 ∈ seen1 := hsub _ h1
      simp only [h1, h2, if_true]
      omega
    · by_cases h2 : p.1 ∈ seen1
      · simp only [h1, h2, if_true, if_false]
        omega
      · simp only [h1, h2, if_false]
        omega

theorem unseen_lt (store : TreeStore) {seen : List Hash} {h : Hash}
    {children : List TreeEntry} (hn : h ∉ seen)
    (hl : getTreeEntries store h = some children) :
    unseen store (h :: seen) < unseen store seen := by
  induction store with
  | nil => simp [getTreeEntries] at hl
  | cons p store ih =>
    obtain ⟨k, es⟩ := p
    rw [unseen_cons, unseen_cons]
    by_cases hk : k = h
    · subst hk
      have hm : unseen store (k :: seen) ≤ unseen store seen :=
        unseen_mono store (fun x hx => List.mem_cons_of_mem _ hx)
      simp only [hn, List.mem_cons, true_or, if_true, if_false]
      omega
    · have ih1 := ih (by simpa [getTreeEntries, hk] using hl)
      by_cases h1 : k ∈ seen
      · simp only [h1, List.mem_cons, or_true, if_true]
        omega
      · simp only [h1, hk, List.mem_cons, or_self, if_false]
        omega



theorem Walked.imp {seen : List Hash} {reach reach1 : Hash → Prop}
    {res : List (Res TreeEntry) × List Hash} (h : Walked seen reach res)
    (himp : ∀ x, reach x → reach1 x) : Walked seen reach1 res :=
  ⟨h.1, h.2.1, fun x hx => ⟨(h.2.2 x hx).1, himp x (h.2.2 x hx).2⟩⟩

theorem walkEntries_walked {store : TreeStore}
    {descend : List Hash → Hash → List (Res TreeEntry) × List Hash}
    (hd : ∀ seen h,
      Walked seen (fun x => ∃ ch, getTreeEntries store h = some ch ∧ Reach store ch x)
        (descend seen h)) :
    ∀ (es : List TreeEntry) (seen : List Hash),
      Walked seen (Reach store es) (walkEntries descend seen es) := by
  intro es
  induction es with
  | nil =>
    intro seen
    exact ⟨fun x => by simp [walkEntries, dirHashes], by simp [walkEntries, dirHashes],
      fun x hx => by simp [walkEntries, dirHashes] at hx⟩
  | cons e es ih =>
    intro seen
    have hmono : ∀ x, Reach store es x → Reach store (e :: es) x :=
      fun x hx => Reach_mono (fun y hy => List.mem_cons_of_mem _ hy) hx
    by_cases hdir : e.Mode = FileMode.Dir
    · by_cases hseen : e.Hash ∈ seen
      · simpa [walkEntries, hdir, hseen] using (ih seen).imp hmono
      · have hsub := hd (e.Hash :: seen) e.Hash
        have hrest := ih (descend (e.Hash :: seen) e.Hash).2
        have hres : walkEntries descend seen (e :: es) =
            (Res.ok e :: ((descend (e.Hash :: seen) e.Hash).1 ++
              (walkEntries descend (descend (e.Hash :: seen) e.Hash).2 es).1),
              (walkEntries descend (descend (e.Hash :: seen) e.Hash).2 es).2) := by
          simp [walkEntries, hdir, hseen]
        rw [hres]
        generalize descend (e.Hash :: seen) e.Hash = sub at hsub hrest
        generalize walkEntries descend sub.2 es = rest at hrest
        obtain ⟨s1, s2, s3⟩ := hsub
        obtain ⟨r1, r2, r3⟩ := hrest
        have hself : Reach store (e :: es) e.Hash :=
          Reach.entry e (List.mem_cons_self _ _) hdir
        refine ⟨fun x => ?_, ?_, fun x hx => ?_⟩
        · simp only [dirHashes, hdir, if_true, dirHashes_append, List.mem_cons,
            List.mem_append]
          rw [r1, s1]
          simp only [List.mem_cons]
          tauto
        · simp only [dirHashes, hdir, if_true, dirHashes_append]
          refine List.nodup_cons.2 ⟨?_, List.Nodup.append s2 r2 ?_⟩
          · intro hmem
            rcases List.mem_append.1 hmem with h1 | h1
            · exact (s3 _ h1).1 (List.mem_cons_self _ _)
            · exact (r3 _ h1).1 ((s1 _).2 (Or.inl (List.mem_cons_self _ _)))
          · intro x hx1 hx2
            exact (r3 x hx2).1 ((s1 x).2 (Or.inr hx1))
        · simp only [dirHashes, hdir, if_true, dirHashes_append, List.mem_cons,
            List.mem_append] at hx
          rcases hx with rfl | hx | hx
          · exact ⟨hseen, hself⟩
          · obtain ⟨h1, ch, hl, h2⟩ := s3 x hx
            exact ⟨fun hm => h1 (List.mem_cons_of_mem _ hm), Reach_of_child hself hl h2⟩
          · obtain ⟨h1, h2⟩ := r3 x hx
            exact ⟨fun hm => h1 ((s1 x).2 (Or.inl (List.mem_cons_of_mem _ hm))), hmono x h2⟩
    · have hrest := (ih seen).imp hmono
      have hres : walkEntries descend seen (e :: es) =
          (Res.ok e :: (walkEntries descend seen es).1, (walkEntries descend seen es).2) := by
        simp [walkEntries, hdir]
      rw [hres]
      generalize walkEntries descend seen es = rest at hrest
      obtain ⟨r1, r2, r3⟩ := hrest
      exact ⟨fun x => by simpa [dirHashes, hdir] using r1 x, by simpa [dirHashes, hdir] using r2,
        fun x hx => r3 x (by simpa [dirHashes, hdir] using hx)⟩

theorem walkTree_walked (store : TreeStore) (n : Nat) :
    ∀ (seen : List Hash) (h : Hash),
      Walked seen (fun x => ∃ ch, getTreeEntries store h = some ch ∧ Reach store ch x)
        (walkTree store n seen h) := by
  induction n with
  | zero =>
    intro seen h
    unfold walkTree
    split
    · exact ⟨fun x => by simp [dirHashes], by simp [dirHashes],
        fun x hx => by simp [dirHashes] at hx⟩
    · exact ⟨fun x => by simp [dirHashes], by simp [dirHashes],
        fun x hx => by simp [dirHashes] at hx⟩
  | succ n ih =>
    intro seen h
    unfold walkTree
    split
    · exact ⟨fun x => by simp [dirHashes], by simp [dirHashes],
        fun x hx => by simp [dirHashes] at hx⟩
    · rename_i children hl
      exact (walkEntries_walked ih children seen).imp (fun x hx => ⟨children, hl, hx⟩)

theorem NewTreeWalker_walked (store : TreeStore) (t : Tree) (seen : List Hash) :
    Walked seen (Reach store t.Entries)
      (walkEntries (walkTree store store.length) seen t.Entries) :=
  walkEntries_walked (walkTree_walked store store.length) t.Entries seen



theorem noError_cons {x : Res TreeEntry} {items : List (Res TreeEntry)}
    (h : noError (x :: items)) : noError items :=
  fun y hy => h y (List.mem_cons_of_mem _ hy)

theorem noError_append {a b : List (Res TreeEntry)} (h : noError (a ++ b)) :
    noError a ∧ noError b :=
  ⟨fun y hy => h y (List.mem_append.2 (Or.inl hy)),
    fun y hy => h y (List.mem_append.2 (Or.inr hy))⟩

theorem walkEntries_covered {store : TreeStore}
    {descend : List Hash → Hash → List (Res TreeEntry) × List Hash} (n : Nat)
    (hw : ∀ seen h,
      Walked seen (fun x => ∃ ch, getTreeEntries store h = some ch ∧ Reach store ch x)
        (descend seen h))
    (hd : ∀ seen h, noError (descend seen h).1 →
      ∃ ch, getTreeEntries store h = some ch ∧
        (unseen store seen < n → Covered store seen ch (descend seen h))) :
    ∀ (es : List TreeEntry) (seen : List Hash), unseen store seen ≤ n →
      noError (walkEntries descend seen es).1 →
      Covered store seen es (walkEntries descend seen es) := by
  intro es
  induction es with
  | nil =>
    intro seen _ _
    exact ⟨fun e he => by simp at he, fun x hx hn => absurd (by simpa [walkEntries] using hx) hn⟩
  | cons e es ih =>
    intro seen hfuel hok
    by_cases hdir : e.Mode = FileMode.Dir
    · by_cases hseen : e.Hash ∈ seen
      · have hres : walkEntries descend seen (e :: es) = walkEntries descend seen es := by
          simp [walkEntries, hdir, hseen]
        rw [hres] at hok ⊢
        obtain ⟨c1, c2⟩ := ih seen hfuel hok
        have hwk := walkEntries_walked hw es seen
        refine ⟨fun e1 he1 hd1 => ?_, c2⟩
        rcases List.mem_cons.1 he1 with rfl | he1
        · exact (hwk.1 _).2 (Or.inl hseen)
        · exact c1 e1 he1 hd1
      · have hres : walkEntries descend seen (e :: es) =
            (Res.ok e :: ((descend (e.Hash :: seen) e.Hash).1 ++
              (walkEntries descend (descend (e.Hash :: seen) e.Hash).2 es).1),
              (walkEntries descend (descend (e.Hash :: seen) e.Hash).2 es).2) := by
          simp [walkEntries, hdir, hseen]
        rw [hres] at hok ⊢
        obtain ⟨hok1, hok2⟩ := noError_append (noError_cons hok)
        obtain ⟨ch, hl, hcov⟩ := hd (e.Hash :: seen) e.Hash hok1
        have hlt := unseen_lt store hseen hl
        obtain ⟨s1, s2⟩ := hcov (by omega)
        have hsw := hw (e.Hash :: seen) e.Hash
        have hsub2 : ∀ x ∈ seen, x ∈ (descend (e.Hash :: seen) e.Hash).2 :=
          fun x hx => (hsw.1 x).2 (Or.inl (List.mem_cons_of_mem _ hx))
        have hfuel2 := unseen_mono store hsub2
        obtain ⟨r1, r2⟩ := ih (descend (e.Hash :: seen) e.Hash).2 (by omega) hok2
        have hrw := walkEntries_walked hw es (descend (e.Hash :: seen) e.Hash).2
        have hup : ∀ x ∈ (descend (e.Hash :: seen) e.Hash).2,
            x ∈ (walkEntries descend (descend (e.Hash :: seen) e.Hash).2 es).2 :=
          fun x hx => (hrw.1 x).2 (Or.inl hx)
        refine ⟨fun e1 he1 hd1 => ?_, fun x hx hn children hlx e1 he1 hd1 => ?_⟩
        · rcases List.mem_cons.1 he1 with rfl | he1
          · exact hup _ ((hsw.1 _).2 (Or.inl (List.mem_cons_self _ _)))
          · exact r1 e1 he1 hd1
        · by_cases hx1 : x ∈ (descend (e.Hash :: seen) e.Hash).2
          · by_cases hxh : x = e.Hash
            · subst hxh
              rw [hl] at hlx
              simp only [Option.some.injEq] at hlx
              subst hlx
              exact hup _ (s1 e1 he1 hd1)
            · have hx2 : x ∉ e.Hash :: seen := by
                simp only [List.mem_cons, not_or]
                exact ⟨hxh, hn⟩
              exact hup _ (s2 x hx1 hx2 children hlx e1 he1 hd1)
          · exact r2 x hx hx1 children hlx e1 he1 hd1
    · have hres : walkEntries descend seen (e :: es) =
          (Res.ok e :: (walkEntries descend seen es).1, (walkEntries descend seen es).2) := by
        simp [walkEntries, hdir]
      rw [hres] at hok ⊢
      obtain ⟨c1, c2⟩ := ih seen hfuel (noError_cons hok)
      refine ⟨fun e1 he1 hd1 => ?_, c2⟩
      rcases List.mem_cons.1 he1 with rfl | he1
      · exact absurd hd1 hdir
      · exact c1 e1 he1 hd1

theorem walkTree_covered (store : TreeStore) (n : Nat) :
    ∀ (seen : List Hash) (h : Hash), noError (walkTree store n seen h).1 →
      ∃ ch, getTreeEntries store h = some ch ∧
        (unseen store seen < n → Covered store seen ch (walkTree store n seen h)) := by
  induction n with
  | zero =>
    intro seen h hok
    unfold walkTree at hok
    split at hok
    · obtain ⟨e1, he1⟩ := hok _ (List.mem_cons_self _ _)
      cases he1
    · rename_i children hl
      exact ⟨children, hl, fun hlt => absurd hlt (Nat.not_lt_zero _)⟩
  | succ n ih =>
    intro seen h hok
    cases hl : getTreeEntries store h with
    | none =>
      simp only [walkTree, hl] at hok
      obtain ⟨e1, he1⟩ := hok _ (List.mem_cons_self _ _)
      cases he1
    | some children =>
      simp only [walkTree, hl] at hok ⊢
      exact ⟨children, rfl, fun hlt =>
        walkEntries_covered n (walkTree_walked store n) ih children seen (by omega) hok⟩

theorem unseen_le_length (store : TreeStore) (seen : List Hash) :
    unseen store seen ≤ store.length :=
  List.length_filter_le _ _

theorem NewTreeWalker_eq (store : TreeStore) (t : Tree) (seen : List Hash) :
    NewTreeWalker store t true seen =
      (walkEntries (walkTree store store.length) seen t.Entries).1 := by
  simp [NewTreeWalker]

/-- The depth allowed to the walker of the specification is never used up: when no
lookup fails, every directory reached from the root tree is yielded. -/
theorem walkTree_complete (store : TreeStore) (t : Tree)
    (hok : noError (NewTreeWalker store t true [])) {h : Hash}
    (hr : Reach store t.Entries h) : h ∈ dirHashes (NewTreeWalker store t true []) := by
  rw [NewTreeWalker_eq] at hok ⊢
  have hwk := NewTreeWalker_walked store t []
  obtain ⟨c1, c2⟩ :=
    walkEntries_covered store.length (walkTree_walked store store.length)
      (walkTree_covered store store.length) t.Entries [] (unseen_le_length store []) hok
  have hmem : h ∈ (walkEntries (walkTree store store.length) [] t.Entries).2 := by
    induction hr with
    | entry e he hd => exact c1 e he hd
    | child h1 children e _ hl he hd ih =>
      exact c2 h1 ih (by simp) children hl e he hd
  simpa using (hwk.1 h).1 hmem

theorem NewTreeWalker_sound (store : TreeStore) (t : Tree) {h : Hash}
    (hm : h ∈ dirHashes (NewTreeWalker store t true [])) : Reach store t.Entries h := by
  rw [NewTreeWalker_eq] at hm
  exact ((NewTreeWalker_walked store t []).2.2 h hm).2

theorem NewTreeWalker_nodup (store : TreeStore) (t : Tree) :
    (dirHashes (NewTreeWalker store t true [])).Nodup := by
  rw [NewTreeWalker_eq]
  exact (NewTreeWalker_walked store t []).2.1



/-! ## Membership in the rows of one commit -/

theorem noError_of_all {items : List (Res TreeEntry)}
    (h : ∀ x ∈ items, x.isOk = true) : noError items := by
  intro x hx
  cases x with
  | ok e => exact ⟨e, rfl⟩
  | err e => exact absurd (h _ hx) (by simp [Res.isOk])

theorem rowResult_inj {r : Repository} {c : Commit} {h h1 : Hash}
    (heq : rowResult r c h = rowResult r c h1) : h = h1 := by
  cases h
  cases h1
  simpa [rowResult, NewRow, hashString] using heq

theorem mem_commitRows {r : Repository} {c : Commit} {t : Tree} {items : List (Res TreeEntry)}
    {h : Hash} :
    rowResult r c h ∈ commitRows r c t items ↔
      h = t.Hash ∨ h ∈ (dirsBeforeError items).map TreeEntry.Hash := by
  simp only [commitRows, List.mem_cons, List.mem_map]
  constructor
  · rintro (heq | ⟨e, he, heq⟩)
    · exact Or.inl (rowResult_inj heq)
    · exact Or.inr ⟨e, he, rowResult_inj heq⟩
  · rintro (rfl | ⟨e, he, rfl⟩)
    · exact Or.inl rfl
    · exact Or.inr ⟨e, he, rfl⟩

theorem mem_dirsBeforeError {items : List (Res TreeEntry)} {e : TreeEntry}
    (he : e ∈ dirsBeforeError items) : Res.ok e ∈ items ∧ e.Mode = FileMode.Dir := by
  induction items with
  | nil => simp [dirsBeforeError] at he
  | cons x items ih =>
    cases x with
    | err e1 => simp [dirsBeforeError] at he
    | ok e1 =>
      by_cases hd : e1.Mode = FileMode.Dir
      · simp only [dirsBeforeError, hd, if_true, List.mem_cons] at he
        rcases he with rfl | he
        · exact ⟨List.mem_cons_self _ _, hd⟩
        · exact ⟨List.mem_cons_of_mem _ (ih he).1, (ih he).2⟩
      · simp only [dirsBeforeError, hd, if_false] at he
        exact ⟨List.mem_cons_of_mem _ (ih he).1, (ih he).2⟩

theorem iter_trees_eta {i : commitTreesIter} {w : Option TreeWalker} (h : i.trees = w) :
    { i with trees := w } = i := by
  cases i
  simp_all

/-- The rows of the directory entries a walker yields before its end or its first
error; after them the walker has no directory entry left before that point. -/
theorem NextN_walk_rows {g : Git} {s : Session} (ws : List (Res TreeEntry)) :
    ∀ (i : commitTreesIter) (calls : List Call) (id : Nat) (cs : CommitIter)
      (r : Repository) (c : Commit),
      i.ctx.Session = SqlSession.gitbase s → i.trees = some ⟨id, ws⟩ →
      i.commits = some cs → i.repo = some r → i.commit = some c →
      ∃ (ws1 : List (Res TreeEntry)) (calls1 : List Call),
        NextN g (dirsBeforeError ws).length i calls =
          some ((dirsBeforeError ws).map (fun e => rowResult r c e.Hash),
            { i with trees := some ⟨id, ws1⟩ }, calls1) ∧
        dirsBeforeError ws1 = [] := by
  induction ws with
  | nil =>
    intro i calls id cs r c hs ht hc hr hcm
    exact ⟨[], calls, by simp [dirsBeforeError, NextN, iter_trees_eta ht], rfl⟩
  | cons w ws ih =>
    intro i calls id cs r c hs ht hc hr hcm
    cases w with
    | err e =>
      exact ⟨Res.err e :: ws, calls, by simp [dirsBeforeError, NextN, iter_trees_eta ht], rfl⟩
    | ok e =>
      obtain ⟨ws1, calls1, hrun, hws1⟩ :=
        ih { i with trees := some ⟨id, ws⟩ } (calls ++ [Call.treesNext id]) id cs r c
          hs rfl hc hr hcm
      by_cases hd : e.Mode = FileMode.Dir
      · refine ⟨ws1, calls1, ?_, hws1⟩
        have hstep := Next_walk_dir (g := g) calls hs ht hc hd hr hcm
        simp only [dirsBeforeError, hd, if_true, List.length_cons, List.map_cons]
        rw [NextN_succ_of_returned hstep, hrun]
        rfl
      · have hstep := Next_walk_file (g := g) calls hs ht hc hd
        cases hlen : (dirsBeforeError ws).length with
        | zero =>
          have hnil : dirsBeforeError ws = [] := List.length_eq_zero.1 hlen
          refine ⟨Res.ok e :: ws, calls, ?_, by simp [dirsBeforeError, hd, hnil]⟩
          simp [dirsBeforeError, hd, hnil, NextN, iter_trees_eta ht]
        | succ m =>
          refine ⟨ws1, calls1, ?_, hws1⟩
          rw [hlen] at hrun
          simp only [dirsBeforeError, hd, if_false, hlen]
          rw [NextN_congr hstep, hrun]

theorem occurrences_cons (x y : Option Row × Option GoError)
    (rs : List (Option Row × Option GoError)) :
    occurrences x (y :: rs) = occurrences x rs + (if y = x then 1 else 0) := by
  unfold occurrences
  by_cases h : y = x
  · simp [List.filter_cons, h]
  · simp [List.filter_cons, h]

theorem occurrences_eq_zero {x : Option Row × Option GoError}
    {rs : List (Option Row × Option GoError)} (h : x ∉ rs) : occurrences x rs = 0 := by
  induction rs with
  | nil => rfl
  | cons y rs ih =>
    rw [occurrences_cons, ih (fun hm => h (List.mem_cons_of_mem _ hm)),
      if_neg (fun heq => h (by rw [heq]; exact List.mem_cons_self _ _))]

theorem occurrences_eq_one {x : Option Row × Option GoError}
    {rs : List (Option Row × Option GoError)} (hnd : rs.Nodup) (h : x ∈ rs) :
    occurrences x rs = 1 := by
  induction rs with
  | nil => simp at h
  | cons y rs ih =>
    rw [occurrences_cons]
    obtain ⟨hy, hnd1⟩ := List.nodup_cons.1 hnd
    rcases List.mem_cons.1 h with rfl | hm
    · rw [occurrences_eq_zero hy, if_pos rfl]
    · rw [ih hnd1 hm, if_neg (fun heq => hy (by rw [heq]; exact hm))]

/-! ## Session, opening and closing -/

theorem Next_foreign (g : Git) {i : commitTreesIter} (calls : List Call) {name : String}
    (hs : i.ctx.Session = SqlSession.foreign name) :
    Next g i calls =
      some (Outcome.returned none
        (some (GoError.ErrInvalidGitbaseSession (SqlSession.foreign name))) i calls) := by
  unfold Next
  rw [hs]

/-- C11: in every iterator state (walker active or not, commit stream present or not),
if the session of the context is not a gitbase session then `Next` returns the error
`ErrInvalidGitbaseSession` of that session and no row, makes no call on a collaborator
and leaves the iterator unchanged; it does so at every call, and no skip policy is
consulted. -/
theorem C11_invalid_session (git : Git) (i : commitTreesIter) (calls : List Call)
    (name : String) (hs : i.ctx.Session = SqlSession.foreign name) :
    Next git i calls =
      some (Outcome.returned none
        (some (GoError.ErrInvalidGitbaseSession (SqlSession.foreign name))) i calls) ∧
    ∀ n : Nat,
      NextN git n i calls =
        some (List.replicate n
          (none, some (GoError.ErrInvalidGitbaseSession (SqlSession.foreign name))),
          i, calls) := by
  refine ⟨Next_foreign git calls hs, fun n => ?_⟩
  induction n with
  | zero => rfl
  | succ n ih => simp [NextN, Next_foreign git calls hs, ih, List.replicate_succ]

/-- C11 (witness): an iterator with an active walker and a session of another type. -/
theorem C11_invalid_session_witness :
    Next exGit
        { exIter true [Res.ok exCommit2] with
          ctx := ⟨SqlSession.foreign "other"⟩,
          trees := some ⟨7, [Res.ok exD1]⟩,
          commit := some exCommit } [] =
      some (Outcome.returned none
        (some (GoError.ErrInvalidGitbaseSession (SqlSession.foreign "other")))
        { exIter true [Res.ok exCommit2] with
          ctx := ⟨SqlSession.foreign "other"⟩,
          trees := some ⟨7, [Res.ok exD1]⟩,
          commit := some exCommit } []) :=
  (C11_invalid_session exGit
    { exIter true [Res.ok exCommit2] with
      ctx := ⟨SqlSession.foreign "other"⟩,
      trees := some ⟨7, [Res.ok exD1]⟩,
      commit := some exCommit } [] "other" rfl).1

theorem NewIterator_included (g : Git) (tmpl : commitTreesIter) (repo : Repository)
    (calls : List Call) (hsel : tmpl.repos = [] ∨ repo.ID ∈ tmpl.repos) :
    NewIterator g tmpl repo calls =
      (match g.NewCommitsByHashIter repo tmpl.commitHashes with
        | Res.err e => (none, some e)
        | Res.ok commits =>
          (some
            { ctx := tmpl.ctx, repo := some repo, commits := some commits, commit := none,
              trees := none, repos := tmpl.repos, commitHashes := tmpl.commitHashes }, none),
        calls ++ [Call.NewCommitsByHashIter repo.ID tmpl.commitHashes]) := by
  unfold NewIterator
  rw [if_pos]
  · cases g.NewCommitsByHashIter repo tmpl.commitHashes <;> rfl
  · rcases hsel with h | h
    · exact Or.inl (by simp [h])
    · exact Or.inr (by simpa [stringContains] using h)

/-- C16: when the repository-id list of the template iterator is empty or contains the
ID of the repository, `NewIterator` makes exactly one call, `NewCommitsByHashIter` with
the repository and the commit-hash list of the template as it is, and the commit stream
of the iterator it returns is the stream this call returned. -/
theorem C16_commit_stream_opened (git : Git) (tmpl : commitTreesIter) (repo : Repository)
    (calls : List Call) (hsel : tmpl.repos = [] ∨ repo.ID ∈ tmpl.repos) :
    (NewIterator git tmpl repo calls).2 =
      calls ++ [Call.NewCommitsByHashIter repo.ID tmpl.commitHashes] ∧
    ∀ cs : CommitIter, git.NewCommitsByHashIter repo tmpl.commitHashes = Res.ok cs →
      ∃ it : commitTreesIter, (NewIterator git tmpl repo calls).1 = (some it, none) ∧
        it.commits = some cs ∧ it.commitHashes = tmpl.commitHashes ∧ it.repo = some repo := by
  rw [NewIterator_included git tmpl repo calls hsel]
  refine ⟨rfl, fun cs hcs => ?_⟩
  rw [hcs]
  exact ⟨_, rfl, rfl, rfl, rfl⟩

/-- C16 (witness): an empty repository-id list and the commit-hash selector `[c1, c2]`. -/
theorem C16_commit_stream_opened_witness :
    (NewIterator exGit (template (SqlSession.gitbase ⟨false⟩) [] ["c1", "c2"]) exRepo []).2 =
      [] ++ [Call.NewCommitsByHashIter "r2" ["c1", "c2"]] ∧
    ∀ cs : CommitIter, exGit.NewCommitsByHashIter exRepo ["c1", "c2"] = Res.ok cs →
      ∃ it : commitTreesIter,
        (NewIterator exGit (template (SqlSession.gitbase ⟨false⟩) [] ["c1", "c2"])
          exRepo []).1 = (some it, none) ∧
        it.commits = some cs ∧ it.commitHashes = ["c1", "c2"] ∧ it.repo = some exRepo :=
  C16_commit_stream_opened exGit (template (SqlSession.gitbase ⟨false⟩) [] ["c1", "c2"])
    exRepo [] (Or.inl rfl)

/-- C20: for an included repository, when `NewCommitsByHashIter` returns an error,
`NewIterator` returns that error and no iterator, whatever the session and its policy.
`NewIterator` only reads the template: an iterator it returns has the context, the
repository-id list and the commit-hash list of the template, the repository it was given,
no active walker and no current commit. -/
theorem C20_open_failure (git : Git) (tmpl : commitTreesIter) (repo : Repository)
    (calls : List Call) (e : GoError) (hsel : tmpl.repos = [] ∨ repo.ID ∈ tmpl.repos)
    (hopen : git.NewCommitsByHashIter repo tmpl.commitHashes = Res.err e) :
    (∀ session : SqlSession,
      NewIterator git { tmpl with ctx := ⟨session⟩ } repo calls =
        ((none, some e), calls ++ [Call.NewCommitsByHashIter repo.ID tmpl.commitHashes])) ∧
    ∀ (repo1 : Repository) (it : commitTreesIter) (calls1 : List Call),
      NewIterator git tmpl repo1 calls = ((some it, none), calls1) →
      it.ctx = tmpl.ctx ∧ it.repos = tmpl.repos ∧ it.commitHashes = tmpl.commitHashes ∧
        it.repo = some repo1 ∧ it.trees = none ∧ it.commit = none := by
  refine ⟨fun session => ?_, fun repo1 it calls1 hnew => ?_⟩
  · have h := NewIterator_included git { tmpl with ctx := ⟨session⟩ } repo calls hsel
    rw [h]
    simp only [hopen]
  · obtain ⟨h1, h2, h3, h4, h5, h6⟩ := NewIterator_some hnew
    exact ⟨h1, h5, h6, h2, h3, h4⟩

/-- C20 (witness): an environment in which no commit stream can be opened, under the
skip policy and under the strict policy. -/
theorem C20_open_failure_witness :
    NewIterator
        { NewCommitsByHashIter := fun _ _ => Res.err ErrObjectNotFound,
          NewTreeWalker := NewTreeWalker exStore }
        { template (SqlSession.gitbase ⟨true⟩) [] [] with
          ctx := ⟨SqlSession.gitbase ⟨true⟩⟩ } exRepo [] =
      ((none, some ErrObjectNotFound), [] ++ [Call.NewCommitsByHashIter "r2" []]) ∧
    NewIterator
        { NewCommitsByHashIter := fun _ _ => Res.err ErrObjectNotFound,
          NewTreeWalker := NewTreeWalker exStore }
        { template (SqlSession.gitbase ⟨true⟩) [] [] with
          ctx := ⟨SqlSession.gitbase ⟨false⟩⟩ } exRepo [] =
      ((none, some ErrObjectNotFound), [] ++ [Call.NewCommitsByHashIter "r2" []]) :=
  have h := (C20_open_failure
    { NewCommitsByHashIter := fun _ _ => Res.err ErrObjectNotFound,
      NewTreeWalker := NewTreeWalker exStore }
    (template (SqlSession.gitbase ⟨true⟩) [] []) exRepo [] ErrObjectNotFound
    (Or.inl rfl) rfl).1
  ⟨h (SqlSession.gitbase ⟨true⟩), h (SqlSession.gitbase ⟨false⟩)⟩


/-- C13 (counterexample): on an iterator that holds a commit stream, a second `Close`
closes the commit stream a second time. -/
theorem C13_counterexample :
    (Close (exIter false [Res.ok exCommit]) []).2 = [Call.commitsClose] ∧
    (Close (exIter false [Res.ok exCommit]) (Close (exIter false [Res.ok exCommit]) []).2).2 =
      [Call.commitsClose, Call.commitsClose] := by
  decide

/-- C13 (amended): `Close` returns no error, closes the commit stream exactly when the
iterator holds one and the tree walker exactly when one is active, and leaves the
iterator as it is; so `Close` followed by `Close` makes the same calls as a single
`Close` exactly when the iterator holds no commit stream and no active walker, and
otherwise makes the `Close` calls of the first a second time. -/
theorem C13_close_repeats (i : commitTreesIter) (calls : List Call) :
    (Close i calls).1 = none ∧
    (Close i calls).2 =
      calls ++
        (match i.commits with
          | some _ => [Call.commitsClose]
          | none => []) ++
        (match i.trees with
          | some w => [Call.treesClose w.id]
          | none => []) ∧
    ((Close i (Close i calls).2).2 = (Close i calls).2 ↔ i.commits = none ∧ i.trees = none) := by
  obtain ⟨ctx, repo, commits, commit, trees, repos, hashes⟩ := i
  cases commits <;> cases trees <;> simp [Close]

theorem Next_stays {g : Git} {i : commitTreesIter} (calls : List Call)
    (hc : i.commits = none) :
    ∃ err, Next g i calls = some (Outcome.returned none err i calls) := by
  cases hs : i.ctx.Session with
  | gitbase s => exact ⟨_, Next_no_stream calls hs hc⟩
  | foreign name => exact ⟨_, Next_foreign g calls hs⟩

theorem Next_safe {g : Git} {i : commitTreesIter} (calls : List Call) (hi : safe i) :
    ∃ row err i1 calls1, Next g i calls = some (Outcome.returned row err i1 calls1) ∧
      safe i1 := by
  cases hc : i.commits with
  | none =>
    obtain ⟨err, h⟩ := Next_stays (g := g) calls hc
    exact ⟨none, err, i, calls, h, hi⟩
  | some cs =>
    cases hr : i.repo with
    | none => exact absurd hr (hi.2 (by simp [hc]))
    | some r =>
      obtain ⟨row, err, i1, calls1, h, h1, -⟩ := Next_scans (g := g) calls ⟨hr, hi.1⟩
      exact ⟨row, err, i1, calls1, h, h1.2, fun _ => by simp [h1.1]⟩

theorem run_safe {g : Git} (ops : List Op) :
    ∀ (i : commitTreesIter) (calls : List Call), safe i →
      ∃ i1 calls1, run g ops i calls = some (i1, calls1) ∧ safe i1 := by
  induction ops with
  | nil => intro i calls hi; exact ⟨i, calls, rfl, hi⟩
  | cons op ops ih =>
    intro i calls hi
    cases op with
    | Next =>
      obtain ⟨row, err, i1, calls1, h, h1⟩ := Next_safe (g := g) calls hi
      obtain ⟨i2, calls2, h2, h3⟩ := ih i1 calls1 h1
      exact ⟨i2, calls2, by simp [run, h, h2], h3⟩
    | Close =>
      obtain ⟨i2, calls2, h2, h3⟩ := ih i (Close i calls).2 hi
      exact ⟨i2, calls2, by simp [run, h2], h3⟩

/-- C18: from an iterator returned by `NewIterator`, or from the template that `RowIter`
builds, every sequence of `Next` and `Close` calls runs without a nil dereference and
ends in a state in which a current commit is set whenever a tree walker is active and a
repository is set whenever a commit stream is present. -/
theorem C18_no_nil_dereference (git : Git) (i : commitTreesIter) (calls : List Call)
    (ops : List Op)
    (hstart :
      (∃ tmpl repo calls0 err, NewIterator git tmpl repo calls0 = ((some i, err), calls)) ∨
      ∃ session repos commitHashes, i = template session repos commitHashes) :
    ∃ i1 calls1, run git ops i calls = some (i1, calls1) ∧
      (i1.trees ≠ none → i1.commit ≠ none) ∧ (i1.commits ≠ none → i1.repo ≠ none) := by
  refine run_safe ops i calls ?_
  rcases hstart with ⟨tmpl, repo, calls0, err, hnew⟩ | ⟨session, repos, hashes, rfl⟩
  · obtain ⟨-, hrepo, htrees, -, -, -⟩ := NewIterator_some hnew
    exact ⟨fun h => absurd htrees h, fun _ => by simp [hrepo]⟩
  · exact ⟨fun h => absurd rfl h, fun h => absurd rfl h⟩

/-- C18 (witness): `Next`, `Close` and `Next` again on the iterator of the example
repository. -/
theorem C18_no_nil_dereference_witness :
    ∃ i1 calls1,
      run exGit [Op.Next, Op.Close, Op.Next]
        (exIter false [Res.ok exCommit, Res.ok exCommit2])
        [Call.NewCommitsByHashIter "r2" []] = some (i1, calls1) ∧
      (i1.trees ≠ none → i1.commit ≠ none) ∧ (i1.commits ≠ none → i1.repo ≠ none) :=
  C18_no_nil_dereference exGit (exIter false [Res.ok exCommit, Res.ok exCommit2])
    [Call.NewCommitsByHashIter "r2" []] [Op.Next, Op.Close, Op.Next]
    (Or.inl ⟨template (SqlSession.gitbase ⟨false⟩) [] [], exRepo, [], none, rfl⟩)


/-! ## Outcomes of `Next` -/

theorem body_outcome {g : Git} {s : Session} (i : commitTreesIter) (calls : List Call) :
    match Next.body g s i calls with
    | Flow.returns row err _ _ => threeWay row err
    | _ => True := by
  obtain ⟨ctx, repo, commits, commit, trees, repos, hashes⟩ := i
  cases commits with
  | none => simp [Next.body, threeWay]
  | some c =>
    cases trees with
    | some w =>
      obtain ⟨id, items⟩ := w
      cases items with
      | nil => simp [Next.body, Next.walk, TreeWalker.Next]
      | cons x rest =>
        cases x with
        | err e =>
          by_cases h : e = GoError.EOF ∨ s.SkipGitErrors = true
          · simp [Next.body, Next.walk, TreeWalker.Next, h]
          · have he : e ≠ GoError.EOF := fun he => h (Or.inl he)
            have hsk : ¬ s.SkipGitErrors = true := fun hsk => h (Or.inr hsk)
            simp [Next.body, Next.walk, TreeWalker.Next, threeWay, he, hsk]
        | ok e =>
          by_cases h : e.Mode = FileMode.Dir
          · simp only [Next.body, Next.walk, TreeWalker.Next, Next.row, h]
            cases repo <;> cases commit <;> simp [threeWay]
          · simp [Next.body, Next.walk, TreeWalker.Next, h]
    | none =>
      obtain ⟨items⟩ := c
      cases items with
      | nil => simp [Next.body, CommitIter.Next, threeWay]
      | cons x rest =>
        cases x with
        | err e =>
          by_cases h : e = GoError.EOF
          · simp [Next.body, CommitIter.Next, h, threeWay]
          · by_cases h2 : s.SkipGitErrors = true
            · simp [Next.body, CommitIter.Next, h, h2]
            · simp [Next.body, CommitIter.Next, h, h2, threeWay]
        | ok cm =>
          cases htree : cm.Tree with
          | err e =>
            by_cases h2 : s.SkipGitErrors = true
            · simp [Next.body, CommitIter.Next, htree, h2]
            · by_cases h : e = GoError.EOF
              · simp [Next.body, CommitIter.Next, htree, h2, threeWay, h]
              · simp [Next.body, CommitIter.Next, htree, h2, threeWay, h]
          | ok t =>
            simp only [Next.body, CommitIter.Next, Next.row, htree]
            cases repo <;> simp [threeWay]

theorem loop_outcome {g : Git} {s : Session} (n : Nat) :
    ∀ (i i1 : commitTreesIter) (calls calls1 : List Call) (row : Option Row)
      (err : Option GoError),
      Next.loop g s n i calls = some (Outcome.returned row err i1 calls1) →
      threeWay row err := by
  induction n with
  | zero => intro i i1 calls calls1 row err h; simp [Next.loop] at h
  | succ n ih =>
    intro i i1 calls calls1 row err h
    have hb := body_outcome (g := g) (s := s) i calls
    rw [Next.loop] at h
    cases hbody : Next.body g s i calls with
    | continues i2 calls2 =>
      rw [hbody] at h
      exact ih i2 i1 calls2 calls1 row err h
    | returns row2 err2 i2 calls2 =>
      rw [hbody] at h hb
      simp only [Option.some.injEq, Outcome.returned.injEq] at h
      obtain ⟨rfl, rfl, rfl, rfl⟩ := h
      exact hb
    | panics calls2 =>
      rw [hbody] at h
      simp at h

theorem Next_outcome {g : Git} {i i1 : commitTreesIter} {calls calls1 : List Call}
    {row : Option Row} {err : Option GoError}
    (h : Next g i calls = some (Outcome.returned row err i1 calls1)) : threeWay row err := by
  unfold Next at h
  split at h
  · simp only [Option.some.injEq, Outcome.returned.injEq] at h
    obtain ⟨rfl, rfl, -, -⟩ := h
    exact Or.inr (Or.inr ⟨rfl, _, rfl, by simp⟩)
  · exact loop_outcome _ _ _ _ _ _ _ h

/-- C14: the loop of `Next` returns within `passes i + 1` passes, where `passes i`
counts the results left in the commit stream and in the active walker (and one for
closing the walker), and every pass that does not return lowers this count; a call of
`Next` that returns gives one of the three outcomes (a row and no error, no row and
`io.EOF`, no row and another error), never no row and no error, and in a state in which
the current commit and the repository are set where they are used every call of `Next`
returns. -/
theorem C14_next_returns (git : Git) (i : commitTreesIter) (calls : List Call) :
    (∀ s : Session, ∃ o, Next.loop git s (passes i + 1) i calls = some o) ∧
    (∀ (s : Session) (i1 : commitTreesIter) (calls1 : List Call),
      Next.body git s i calls = Flow.continues i1 calls1 → passes i1 < passes i) ∧
    (∀ (row : Option Row) (err : Option GoError) (i1 : commitTreesIter) (calls1 : List Call),
      Next git i calls = some (Outcome.returned row err i1 calls1) →
      threeWay row err ∧ ¬ (row = none ∧ err = none)) ∧
    (safe i →
      ∃ row err i1 calls1, Next git i calls = some (Outcome.returned row err i1 calls1) ∧
        threeWay row err) := by
  refine ⟨fun s => loop_enough git s _ i calls (by omega),
    fun s i1 calls1 h => (body_continue h).1, fun row err i1 calls1 h => ?_, fun hi => ?_⟩
  · have h3 := Next_outcome h
    refine ⟨h3, ?_⟩
    rintro ⟨rfl, rfl⟩
    rcases h3 with ⟨r, h1, -⟩ | ⟨-, h1⟩ | ⟨-, e, h1, -⟩ <;> simp at h1
  · obtain ⟨row, err, i1, calls1, h, -⟩ := Next_safe (g := git) calls hi
    exact ⟨row, err, i1, calls1, h, Next_outcome h⟩

/-- C14 (witness): an iterator whose walker still has a file entry and ends, and whose
commit stream has a failing result and a commit, under the skip policy: `Next` makes four
passes and returns the root row of the commit. -/
theorem C14_next_returns_witness :
    safe { exIter true [Res.err ErrObjectNotFound, Res.ok exCommit2] with
        trees := some ⟨7, [Res.ok exF]⟩, commit := some exCommit } ∧
    ∃ row err i1 calls1,
      Next exGit
          { exIter true [Res.err ErrObjectNotFound, Res.ok exCommit2] with
            trees := some ⟨7, [Res.ok exF]⟩, commit := some exCommit } [] =
        some (Outcome.returned row err i1 calls1) ∧ threeWay row err :=
  have hsafe : safe { exIter true [Res.err ErrObjectNotFound, Res.ok exCommit2] with
      trees := some ⟨7, [Res.ok exF]⟩, commit := some exCommit } :=
    ⟨fun _ => by simp, fun _ => by simp [exIter]⟩
  ⟨hsafe,
    (C14_next_returns exGit
      { exIter true [Res.err ErrObjectNotFound, Res.ok exCommit2] with
        trees := some ⟨7, [Res.ok exF]⟩, commit := some exCommit } []).2.2.2 hsafe⟩


/-! ## The root row of a commit -/

theorem NextN_commit_rows {g : Git} {s : Session} {i : commitTreesIter} (calls : List Call)
    {c : Commit} {t : Tree} {r : Repository} {rest : List (Res Commit)}
    (hs : i.ctx.Session = SqlSession.gitbase s) (ht : i.trees = none)
    (hc : i.commits = some ⟨Res.ok c :: rest⟩) (htree : c.Tree = Res.ok t)
    (hr : i.repo = some r) :
    ∃ (ws1 : List (Res TreeEntry)) (calls1 : List Call),
      NextN g (commitRows r c t (g.NewTreeWalker t true [])).length i calls =
        some (commitRows r c t (g.NewTreeWalker t true []),
          { i with
            commits := some ⟨rest⟩,
            trees := some ⟨calls.length + 2, ws1⟩,
            commit := some c }, calls1) ∧
      dirsBeforeError ws1 = [] := by
  have hstep := Next_root (g := g) calls hs ht hc htree hr
  obtain ⟨ws1, calls1, hrun, hws1⟩ :=
    NextN_walk_rows (g := g) (s := s) (g.NewTreeWalker t true [])
      { i with
        commits := some ⟨rest⟩,
        trees := some ⟨calls.length + 2, g.NewTreeWalker t true []⟩,
        commit := some c }
      (calls ++ [Call.commitsNext, Call.commitTree c.Hash,
        Call.NewTreeWalker (calls.length + 2) t.Hash true []])
      (calls.length + 2) ⟨rest⟩ r c hs rfl rfl hr rfl
  refine ⟨ws1, calls1, ?_, hws1⟩
  simp only [commitRows, List.length_cons, List.length_map]
  rw [NextN_succ_of_returned hstep, hrun]
  rfl

/-- C15: the call of `Next` that fetches a commit and resolves its root tree returns the
row of the root tree itself; the calls it makes are `commits.Next`, `commit.Tree` and
`NewTreeWalker`, and none on the new walker.  The rows of the commit are this row
followed only by rows of directory entries that the walker yields: `Next` emits the
root row once, and the row occurs once among the rows of the commit when no directory
entry the walker yields carries the hash of the root tree. -/
theorem C15_root_row_first (git : Git) (i : commitTreesIter) (calls : List Call)
    (s : Session) (r : Repository) (c : Commit) (t : Tree) (rest : List (Res Commit))
    (hs : i.ctx.Session = SqlSession.gitbase s) (ht : i.trees = none)
    (hc : i.commits = some ⟨Res.ok c :: rest⟩) (htree : c.Tree = Res.ok t)
    (hr : i.repo = some r) :
    Next git i calls =
      some (Outcome.returned (rowResult r c t.Hash).1 none
        { i with
          commits := some ⟨rest⟩,
          trees := some ⟨calls.length + 2, git.NewTreeWalker t true []⟩,
          commit := some c }
        (calls ++ [Call.commitsNext, Call.commitTree c.Hash,
          Call.NewTreeWalker (calls.length + 2) t.Hash true []])) ∧
    (∃ (i1 : commitTreesIter) (calls1 : List Call) (w : TreeWalker),
      NextN git ((dirsBeforeError (git.NewTreeWalker t true [])).length + 1) i calls =
        some (rowResult r c t.Hash ::
            (dirsBeforeError (git.NewTreeWalker t true [])).map
              (fun e => rowResult r c e.Hash), i1, calls1) ∧
      i1.commits = some ⟨rest⟩ ∧ i1.trees = some w ∧ dirsBeforeError w.items = []) ∧
    (t.Hash ∉ (dirsBeforeError (git.NewTreeWalker t true [])).map TreeEntry.Hash →
      occurrences (rowResult r c t.Hash)
        (rowResult r c t.Hash ::
          (dirsBeforeError (git.NewTreeWalker t true [])).map
            (fun e => rowResult r c e.Hash)) = 1) := by
  refine ⟨Next_root calls hs ht hc htree hr, ?_, fun hroot => ?_⟩
  · obtain ⟨ws1, calls1, hrun, hws1⟩ :=
      NextN_commit_rows (g := git) calls hs ht hc htree hr
    refine ⟨{ i with
        commits := some ⟨rest⟩,
        trees := some ⟨calls.length + 2, ws1⟩,
        commit := some c }, calls1, ⟨calls.length + 2, ws1⟩, ?_, rfl, rfl, hws1⟩
    simpa [commitRows] using hrun
  · rw [occurrences_cons, if_pos rfl, occurrences_eq_zero]
    intro hm
    obtain ⟨e, he, heq⟩ := List.mem_map.1 hm
    exact hroot (List.mem_map.2 ⟨e, he, rowResult_inj heq⟩)

/-- C15 (witness): the first call of `Next` on the example repository returns the root
row of `exCommit`, whose rows are the root row and the rows of `d1` and `d2`. -/
theorem C15_root_row_first_witness :
    Next exGit (exIter false [Res.ok exCommit]) [] =
      some (Outcome.returned (rowResult exRepo exCommit ⟨"a0"⟩).1 none
        { exIter false [] with
          trees := some ⟨2, [Res.ok exD1, Res.ok exD2, Res.ok exF]⟩,
          commit := some exCommit }
        [Call.commitsNext, Call.commitTree ⟨"c1"⟩, Call.NewTreeWalker 2 ⟨"a0"⟩ true []]) ∧
    occurrences (rowResult exRepo exCommit ⟨"a0"⟩)
      [rowResult exRepo exCommit ⟨"a0"⟩, rowResult exRepo exCommit ⟨"d1"⟩,
        rowResult exRepo exCommit ⟨"d2"⟩] = 1 :=
  have h := C15_root_row_first exGit (exIter false [Res.ok exCommit]) [] ⟨false⟩ exRepo
    exCommit exTree [] rfl rfl rfl rfl rfl
  ⟨h.1, h.2.2 (by decide)⟩


/-! ## The shape of the rows -/

theorem lastFetched_append (l m : List Call) :
    lastFetched (l ++ m) =
      (match lastFetched m with
        | some h => some h
        | none => lastFetched l) := by
  unfold lastFetched
  rw [List.reverse_append, List.findSome?_append]
  cases List.findSome? _ m.reverse <;> rfl

theorem body_tracks {g : Git} {s : Session} {r : Repository} {i : commitTreesIter}
    (calls : List Call) (hi : tracks r i calls) :
    match Next.body g s i calls with
    | Flow.continues i1 calls1 => tracks r i1 calls1
    | Flow.returns row err i1 calls1 => tracks r i1 calls1 ∧ wellFormedRow r calls1 (row, err)
    | Flow.panics _ => False := by
  obtain ⟨ctx, repo, commits, commit, trees, repos, hashes⟩ := i
  obtain ⟨hr, hcm⟩ := hi
  simp only at hr hcm
  subst hr
  cases commits with
  | none => exact ⟨⟨rfl, hcm⟩, fun row h => by simp at h⟩
  | some c =>
    cases trees with
    | some w =>
      obtain ⟨cm, hcm1, hlast⟩ := hcm w rfl
      subst hcm1
      obtain ⟨id, items⟩ := w
      cases items with
      | nil => simp [Next.body, Next.walk, TreeWalker.Next, tracks]
      | cons x rest =>
        cases x with
        | err e =>
          by_cases h : e = GoError.EOF ∨ s.SkipGitErrors = true
          · simp [Next.body, Next.walk, TreeWalker.Next, tracks, h]
          · simp [Next.body, Next.walk, TreeWalker.Next, tracks, wellFormedRow, h]
        | ok e =>
          have hl : lastFetched (calls ++ [Call.treesNext id]) = some cm.Hash := by
            rw [lastFetched_append, hlast]
            rfl
          by_cases h : e.Mode = FileMode.Dir
          · simp only [Next.body, Next.walk, TreeWalker.Next, Next.row, h, ne_eq,
              not_true_eq_false, if_false]
            refine ⟨⟨rfl, fun w1 _ => ⟨cm, rfl, hl⟩⟩, fun row hrow => ?_⟩
            simp only [Option.some.injEq] at hrow
            exact ⟨cm.Hash, e.Hash, hl, hrow.symm⟩
          · simp only [Next.body, Next.walk, TreeWalker.Next, h, ne_eq, not_false_eq_true,
              if_true]
            exact ⟨rfl, fun w1 _ => ⟨cm, rfl, hl⟩⟩
    | none =>
      obtain ⟨items⟩ := c
      cases items with
      | nil => simp [Next.body, CommitIter.Next, tracks, wellFormedRow]
      | cons x rest =>
        cases x with
        | err e =>
          by_cases h : e = GoError.EOF
          · simp [Next.body, CommitIter.Next, tracks, wellFormedRow, h]
          · by_cases h2 : s.SkipGitErrors = true
            · simp [Next.body, CommitIter.Next, tracks, h, h2]
            · simp [Next.body, CommitIter.Next, tracks, wellFormedRow, h, h2]
        | ok cm =>
          cases htree : cm.Tree with
          | err e =>
            by_cases h2 : s.SkipGitErrors = true
            · simp [Next.body, CommitIter.Next, tracks, htree, h2]
            · simp [Next.body, CommitIter.Next, tracks, wellFormedRow, htree, h2]
          | ok t =>
            have hl : lastFetched (calls ++ [Call.commitsNext] ++ [Call.commitTree cm.Hash] ++
                [Call.NewTreeWalker (calls ++ [Call.commitsNext] ++
                  [Call.commitTree cm.Hash]).length t.Hash true []]) = some cm.Hash := by
              rw [lastFetched_append, lastFetched_append]
              rfl
            simp only [Next.body, CommitIter.Next, Next.row, htree]
            refine ⟨⟨rfl, fun w1 _ => ⟨cm, rfl, hl⟩⟩, fun row hrow => ?_⟩
            simp only [Option.some.injEq] at hrow
            exact ⟨cm.Hash, t.Hash, hl, hrow.symm⟩

theorem loop_tracks {g : Git} {s : Session} {r : Repository} (n : Nat) :
    ∀ (i : commitTreesIter) (calls : List Call) (o : Outcome), tracks r i calls →
      Next.loop g s n i calls = some o →
      ∃ row err i1 calls1, o = Outcome.returned row err i1 calls1 ∧ tracks r i1 calls1 ∧
        wellFormedRow r calls1 (row, err) := by
  induction n with
  | zero => intro i calls o _ h; simp [Next.loop] at h
  | succ n ih =>
    intro i calls o hi h
    have hb := body_tracks (g := g) (s := s) calls hi
    rw [Next.loop] at h
    cases hbody : Next.body g s i calls with
    | continues i1 calls1 =>
      rw [hbody] at h hb
      exact ih i1 calls1 o hb h
    | returns row err i1 calls1 =>
      rw [hbody] at h hb
      simp only [Option.some.injEq] at h
      exact ⟨row, err, i1, calls1, h.symm, hb.1, hb.2⟩
    | panics calls1 =>
      rw [hbody] at hb
      exact hb.elim

theorem Next_tracks {g : Git} {r : Repository} {i : commitTreesIter} (calls : List Call)
    (hi : tracks r i calls) :
    ∃ row err i1 calls1, Next g i calls = some (Outcome.returned row err i1 calls1) ∧
      tracks r i1 calls1 ∧ wellFormedRow r calls1 (row, err) := by
  obtain ⟨o, ho⟩ := Next_total g i calls
  have ho1 := ho
  unfold Next at ho1
  split at ho1
  · simp only [Option.some.injEq] at ho1
    subst ho1
    exact ⟨_, _, _, _, ho, hi, fun row h => by simp at h⟩
  · obtain ⟨row, err, i1, calls1, rfl, h1, h2⟩ := loop_tracks _ i calls o hi ho1
    exact ⟨row, err, i1, calls1, ho, h1, h2⟩

theorem NextN_tracks {g : Git} {r : Repository} (n : Nat) :
    ∀ (i : commitTreesIter) (calls : List Call), tracks r i calls →
      ∃ rs i1 calls1, NextN g n i calls = some (rs, i1, calls1) ∧ tracks r i1 calls1 := by
  induction n with
  | zero => intro i calls hi; exact ⟨[], i, calls, rfl, hi⟩
  | succ n ih =>
    intro i calls hi
    obtain ⟨row, err, i1, calls1, hnext, h1, -⟩ := Next_tracks (g := g) calls hi
    obtain ⟨rs, i2, calls2, hrun, h3⟩ := ih i1 calls1 h1
    exact ⟨(row, err) :: rs, i2, calls2, by simp [NextN, hnext, hrun], h3⟩

/-- C17: after any number of calls of `Next` on the iterator that `NewIterator` returns
for a repository, a row returned by the next call has exactly three fields, in this
order: the ID of the repository, the hexadecimal text of the hash of the commit that the
commit stream returned last, and the hexadecimal text of a tree hash.
`CommitTreesSchema` is the three `Text` columns `repository_id`, `commit_hash` and
`tree_hash`, in this order. -/
theorem C17_row_shape (git : Git) (tmpl it : commitTreesIter) (repo : Repository)
    (calls0 calls : List Call) (n : Nat)
    (hnew : NewIterator git tmpl repo calls0 = ((some it, none), calls)) :
    (∃ rs i1 calls1, NextN git n it calls = some (rs, i1, calls1) ∧
      ∃ row err i2 calls2, Next git i1 calls1 = some (Outcome.returned row err i2 calls2) ∧
        ∀ r, row = some r → r.length = 3 ∧
          ∃ commitHash treeHash : Hash, lastFetched calls2 = some commitHash ∧
            r = NewRow [repo.ID, hashString commitHash, hashString treeHash]) ∧
    ∀ name : String,
      (CommitTreesSchema name).map (fun c => (c.Name, c.Kind)) =
        [("repository_id", SqlType.Text), ("commit_hash", SqlType.Text),
          ("tree_hash", SqlType.Text)] := by
  obtain ⟨-, hrepo, htrees, -, -, -⟩ := NewIterator_some hnew
  have hi : tracks repo it calls := ⟨hrepo, fun w hw => by rw [htrees] at hw; cases hw⟩
  obtain ⟨rs, i1, calls1, hrun, h1⟩ := NextN_tracks (g := git) n it calls hi
  obtain ⟨row, err, i2, calls2, hnext, -, hrow⟩ := Next_tracks (g := git) calls1 h1
  refine ⟨⟨rs, i1, calls1, hrun, row, err, i2, calls2, hnext, fun r hr => ?_⟩,
    fun name => rfl⟩
  obtain ⟨c, h, hl, rfl⟩ := hrow r hr
  exact ⟨rfl, c, h, hl, rfl⟩

/-- C17 (witness): the fourth call of `Next` on the example repository returns the root
row of the second commit. -/
theorem C17_row_shape_witness :
    ∃ rs i1 calls1,
      NextN exGit 3 (exIter false [Res.ok exCommit, Res.ok exCommit2])
        [Call.NewCommitsByHashIter "r2" []] = some (rs, i1, calls1) ∧
      ∃ row err i2 calls2, Next exGit i1 calls1 = some (Outcome.returned row err i2 calls2) ∧
        ∀ r, row = some r → r.length = 3 ∧
          ∃ commitHash treeHash : Hash, lastFetched calls2 = some commitHash ∧
            r = NewRow [exRepo.ID, hashString commitHash, hashString treeHash] :=
  (C17_row_shape exGit (template (SqlSession.gitbase ⟨false⟩) [] [])
    (exIter false [Res.ok exCommit, Res.ok exCommit2]) exRepo []
    [Call.NewCommitsByHashIter "r2" []] 3 rfl).1


/-! ## The release of the resources -/

theorem closedWalkersUnused_snoc {l : List Call} {x : Call} (hl : closedWalkersUnused l)
    (hx : ∀ id, x = Call.treesNext id ∨ x = Call.treesClose id → Call.treesClose id ∉ l) :
    closedWalkersUnused (l ++ [x]) := by
  intro p q id h
  rcases List.eq_nil_or_concat q with rfl | ⟨q1, y, hq⟩
  · simp
  · rw [List.concat_eq_append] at hq
    subst hq
    have h1 : l ++ [x] = (p ++ Call.treesClose id :: q1) ++ [y] := by
      rw [h]
      simp
    obtain ⟨h2, h3⟩ := List.append_inj' h1 rfl
    simp only [List.cons.injEq, and_true] at h3
    subst h3
    obtain ⟨h4, h5⟩ := hl p q1 id h2
    have hmem : Call.treesClose id ∈ l := by
      rw [h2]
      simp
    refine ⟨fun hm => ?_, fun hm => ?_⟩
    · rcases List.mem_append.1 hm with hm | hm
      · exact h4 hm
      · simp only [List.mem_singleton] at hm
        exact hx id (Or.inl hm.symm) hmem
    · rcases List.mem_append.1 hm with hm | hm
      · exact h5 hm
      · simp only [List.mem_singleton] at hm
        exact hx id (Or.inr hm.symm) hmem

theorem tidy_other {b : Nat} {a : Option Nat} {made : List Call} {x : Call}
    (h : tidy b a made)
    (hx1 : ∀ id, x ≠ Call.treesNext id) (hx2 : ∀ id, x ≠ Call.treesClose id)
    (hx3 : ∀ id t rec seen, x ≠ Call.NewTreeWalker id t rec seen) :
    tidy b a (made ++ [x]) := by
  obtain ⟨h1, h2, h3, h4⟩ := h
  refine ⟨closedWalkersUnused_snoc h1 (fun id hid => ?_), fun id hid => ?_, fun id hid => ?_,
    fun id t rec seen hid => ?_⟩
  · rcases hid with hid | hid
    · exact absurd hid (hx1 id)
    · exact absurd hid (hx2 id)
  · obtain ⟨h5, h6⟩ := h2 id hid
    refine ⟨by simp; omega, fun hm => ?_⟩
    rcases List.mem_append.1 hm with hm | hm
    · exact h6 hm
    · simp only [List.mem_singleton] at hm
      exact hx2 id hm.symm
  · rcases List.mem_append.1 hid with hm | hm
    · have := h3 id hm
      simp
      omega
    · simp only [List.mem_singleton] at hm
      exact absurd hm.symm (hx2 id)
  · rcases List.mem_append.1 hid with hm | hm
    · obtain ⟨h5, h6⟩ := h4 id t rec seen hm
      refine ⟨by simp; omega, ?_⟩
      rcases h6 with h6 | h6
      · exact Or.inl h6
      · refine Or.inr ?_
        rw [List.count_append, h6, List.count_singleton]
        simpa using hx2 id
    · simp only [List.mem_singleton] at hm
      exact absurd hm.symm (hx3 id t rec seen)

theorem tidy_next {b id : Nat} {made : List Call} (h : tidy b (some id) made) :
    tidy b (some id) (made ++ [Call.treesNext id]) := by
  obtain ⟨h1, h2, h3, h4⟩ := h
  obtain ⟨h5, h6⟩ := h2 id rfl
  refine ⟨closedWalkersUnused_snoc h1 (fun id1 hid => ?_), fun id1 hid => ?_,
    fun id1 hid => ?_, fun id1 t rec seen hid => ?_⟩
  · rcases hid with hid | hid
    · simp only [Call.treesNext.injEq] at hid
      subst hid
      exact h6
    · cases hid
  · simp only [Option.some.injEq] at hid
    subst hid
    refine ⟨by simp; omega, fun hm => ?_⟩
    rcases List.mem_append.1 hm with hm | hm
    · exact h6 hm
    · simp at hm
  · rcases List.mem_append.1 hid with hm | hm
    · have := h3 id1 hm
      simp
      omega
    · simp at hm
  · rcases List.mem_append.1 hid with hm | hm
    · obtain ⟨h7, h8⟩ := h4 id1 t rec seen hm
      refine ⟨by simp; omega, ?_⟩
      rcases h8 with h8 | h8
      · exact Or.inl h8
      · refine Or.inr ?_
        rw [List.count_append, h8, List.count_singleton]
        simp
    · simp at hm

theorem tidy_close {b id : Nat} {made : List Call} (h : tidy b (some id) made) :
    tidy b none (made ++ [Call.treesClose id]) := by
  obtain ⟨h1, h2, h3, h4⟩ := h
  obtain ⟨h5, h6⟩ := h2 id rfl
  refine ⟨closedWalkersUnused_snoc h1 (fun id1 hid => ?_), fun id1 hid => ?_,
    fun id1 hid => ?_, fun id1 t rec seen hid => ?_⟩
  · rcases hid with hid | hid
    · cases hid
    · simp only [Call.treesClose.injEq] at hid
      subst hid
      exact h6
  · cases hid
  · rcases List.mem_append.1 hid with hm | hm
    · have := h3 id1 hm
      simp
      omega
    · simp only [List.mem_singleton, Call.treesClose.injEq] at hm
      subst hm
      simp
      omega
  · rcases List.mem_append.1 hid with hm | hm
    · obtain ⟨h7, h8⟩ := h4 id1 t rec seen hm
      refine ⟨by simp; omega, Or.inr ?_⟩
      rw [List.count_append, List.count_singleton]
      rcases h8 with h8 | h8
      · simp only [Option.some.injEq] at h8
        subst h8
        rw [List.count_eq_zero_of_not_mem h6]
        simp
      · have hne : id ≠ id1 := by
          rintro rfl
          exact h6 (List.count_pos_iff.1 (by omega))
        rw [h8]
        simp [hne]
    · simp at hm

theorem tidy_new {b : Nat} {made : List Call} (t : Hash) (rec : Bool) (seen : List Hash)
    (h : tidy b none made) :
    tidy b (some (b + made.length))
      (made ++ [Call.NewTreeWalker (b + made.length) t rec seen]) := by
  obtain ⟨h1, h2, h3, h4⟩ := h
  refine ⟨closedWalkersUnused_snoc h1 (fun id1 hid => ?_), fun id1 hid => ?_,
    fun id1 hid => ?_, fun id1 t1 rec1 seen1 hid => ?_⟩
  · rcases hid with hid | hid <;> cases hid
  · simp only [Option.some.injEq] at hid
    subst hid
    refine ⟨by simp, fun hm => ?_⟩
    rcases List.mem_append.1 hm with hm | hm
    · have := h3 _ hm
      omega
    · simp at hm
  · rcases List.mem_append.1 hid with hm | hm
    · have := h3 id1 hm
      simp
      omega
    · simp at hm
  · rcases List.mem_append.1 hid with hm | hm
    · obtain ⟨h7, h8⟩ := h4 id1 t1 rec1 seen1 hm
      refine ⟨by simp; omega, Or.inr ?_⟩
      rcases h8 with h8 | h8
      · cases h8
      · rw [List.count_append, h8, List.count_singleton]
        simp
    · simp only [List.mem_singleton, Call.NewTreeWalker.injEq] at hm
      obtain ⟨rfl, -, -, -⟩ := hm
      exact ⟨by simp, Or.inl rfl⟩

theorem tidy_commitsNext {b : Nat} {a : Option Nat} {made : List Call} (h : tidy b a made) :
    tidy b a (made ++ [Call.commitsNext]) :=
  tidy_other h (fun _ => by simp) (fun _ => by simp) (fun _ _ _ _ => by simp)

theorem tidy_commitsClose {b : Nat} {a : Option Nat} {made : List Call} (h : tidy b a made) :
    tidy b a (made ++ [Call.commitsClose]) :=
  tidy_other h (fun _ => by simp) (fun _ => by simp) (fun _ _ _ _ => by simp)

theorem tidy_commitTree {b : Nat} {a : Option Nat} {made : List Call} (c : Hash)
    (h : tidy b a made) : tidy b a (made ++ [Call.commitTree c]) :=
  tidy_other h (fun _ => by simp) (fun _ => by simp) (fun _ _ _ _ => by simp)

theorem body_tidy {g : Git} {s : Session} (pre made : List Call) (i : commitTreesIter)
    (hi : tidy pre.length (activeWalker i) made) :
    match Next.body g s i (pre ++ made) with
    | Flow.continues i1 calls1 =>
      ∃ made1, calls1 = pre ++ made1 ∧ tidy pre.length (activeWalker i1) made1 ∧
        made1.count Call.commitsClose = made.count Call.commitsClose ∧
        (i1.commits = none ↔ i.commits = none)
    | Flow.returns _ err i1 calls1 =>
      ∃ made1, calls1 = pre ++ made1 ∧ tidy pre.length (activeWalker i1) made1 ∧
        (err ≠ some GoError.EOF →
          made1.count Call.commitsClose = made.count Call.commitsClose) ∧
        (i1.commits = none ↔ i.commits = none)
    | Flow.panics _ => True := by
  obtain ⟨ctx, repo, commits, commit, trees, repos, hashes⟩ := i
  cases commits with
  | none => exact ⟨made, rfl, hi, fun _ => rfl, Iff.rfl⟩
  | some c =>
    cases trees with
    | some w =>
      obtain ⟨id, items⟩ := w
      have hi1 : tidy pre.length (some id) made := hi
      have hclosed : tidy pre.length none
          (made ++ [Call.treesNext id] ++ [Call.treesClose id]) :=
        tidy_close (tidy_next hi1)
      have hcount : (made ++ [Call.treesNext id] ++ [Call.treesClose id]).count
          Call.commitsClose = made.count Call.commitsClose := by
        simp [List.count_append]
      have hcount1 : (made ++ [Call.treesNext id]).count Call.commitsClose =
          made.count Call.commitsClose := by
        simp [List.count_append]
      cases items with
      | nil =>
        simp only [Next.body, Next.walk, TreeWalker.Next, true_or, if_true]
        exact ⟨_, by simp, hclosed, hcount, by simp⟩
      | cons x rest =>
        cases x with
        | err e =>
          by_cases h : e = GoError.EOF ∨ s.SkipGitErrors = true
          · simp only [Next.body, Next.walk, TreeWalker.Next, h, if_true]
            exact ⟨_, by simp, hclosed, hcount, by simp⟩
          · simp only [Next.body, Next.walk, TreeWalker.Next, h, if_false]
            exact ⟨_, by simp, hclosed, fun _ => hcount, by simp⟩
        | ok e =>
          by_cases h : e.Mode = FileMode.Dir
          · simp only [Next.body, Next.walk, TreeWalker.Next, Next.row, h, ne_eq,
              not_true_eq_false, if_false]
            cases repo with
            | none => trivial
            | some r =>
              cases commit with
              | none => trivial
              | some cm => exact ⟨_, by simp, tidy_next hi1, fun _ => hcount1, by simp⟩
          · simp only [Next.body, Next.walk, TreeWalker.Next, h, ne_eq, not_false_eq_true,
              if_true]
            exact ⟨_, by simp, tidy_next hi1, hcount1, by simp⟩
    | none =>
      have hi1 : tidy pre.length none made := hi
      have hn : tidy pre.length none (made ++ [Call.commitsNext]) := tidy_commitsNext hi1
      have hcount1 : (made ++ [Call.commitsNext]).count Call.commitsClose =
          made.count Call.commitsClose := by
        simp [List.count_append]
      obtain ⟨items⟩ := c
      cases items with
      | nil =>
        simp only [Next.body, CommitIter.Next, if_true]
        exact ⟨made ++ [Call.commitsNext] ++ [Call.commitsClose], by simp,
          tidy_commitsClose hn, fun h => absurd rfl h, by simp⟩
      | cons x rest =>
        cases x with
        | err e =>
          by_cases h : e = GoError.EOF
          · simp only [Next.body, CommitIter.Next, h, if_true]
            exact ⟨made ++ [Call.commitsNext] ++ [Call.commitsClose], by simp,
              tidy_commitsClose hn, fun h => absurd rfl h, by simp⟩
          · by_cases h2 : s.SkipGitErrors = true
            · simp only [Next.body, CommitIter.Next, h, h2, if_true, if_false]
              exact ⟨_, by simp, hn, hcount1, by simp⟩
            · simp only [Next.body, CommitIter.Next, h, h2, if_false]
              exact ⟨_, by simp, hn, fun _ => hcount1, by simp⟩
        | ok cm =>
          have hn2 : tidy pre.length none
              (made ++ [Call.commitsNext] ++ [Call.commitTree cm.Hash]) :=
            tidy_commitTree cm.Hash hn
          have hcount2 : (made ++ [Call.commitsNext] ++ [Call.commitTree cm.Hash]).count
              Call.commitsClose = made.count Call.commitsClose := by
            simp [List.count_append]
          cases htree : cm.Tree with
          | err e =>
            by_cases h2 : s.SkipGitErrors = true
            · simp only [Next.body, CommitIter.Next, htree, h2, if_true]
              exact ⟨_, by simp, hn2, hcount2, by simp⟩
            · simp only [Next.body, CommitIter.Next, htree, h2, if_false]
              exact ⟨_, by simp, hn2, fun _ => hcount2, by simp⟩
          | ok t =>
            have hlen : (pre ++ made ++ [Call.commitsNext] ++
                [Call.commitTree cm.Hash]).length =
                pre.length + (made ++ [Call.commitsNext] ++
                  [Call.commitTree cm.Hash]).length := by
              simp only [List.length_append]
              omega
            have hnew := tidy_new t.Hash true [] hn2
            rw [← hlen] at hnew
            have hcount3 : (made ++ [Call.commitsNext] ++ [Call.commitTree cm.Hash] ++
                [Call.NewTreeWalker (pre ++ made ++ [Call.commitsNext] ++
                  [Call.commitTree cm.Hash]).length t.Hash true []]).count
                Call.commitsClose = made.count Call.commitsClose := by
              simp [List.count_append]
            simp only [Next.body, CommitIter.Next, Next.row, htree]
            cases repo with
            | none => trivial
            | some r => exact ⟨_, by simp, hnew, fun _ => hcount3, by simp⟩

theorem loop_tidy {g : Git} {s : Session} (pre : List Call) (n : Nat) :
    ∀ (i i1 : commitTreesIter) (made calls1 : List Call) (row : Option Row)
      (err : Option GoError), tidy pre.length (activeWalker i) made →
      Next.loop g s n i (pre ++ made) = some (Outcome.returned row err i1 calls1) →
      ∃ made1, calls1 = pre ++ made1 ∧ tidy pre.length (activeWalker i1) made1 ∧
        (err ≠ some GoError.EOF →
          made1.count Call.commitsClose = made.count Call.commitsClose) ∧
        (i1.commits = none ↔ i.commits = none) := by
  induction n with
  | zero => intro i i1 made calls1 row err _ h; simp [Next.loop] at h
  | succ n ih =>
    intro i i1 made calls1 row err hi h
    have hb := body_tidy (g := g) (s := s) pre made i hi
    rw [Next.loop] at h
    cases hbody : Next.body g s i (pre ++ made) with
    | continues i2 calls2 =>
      rw [hbody] at h hb
      obtain ⟨made2, rfl, h1, h2, h3⟩ := hb
      obtain ⟨made1, h4, h5, h6, h7⟩ := ih i2 i1 made2 calls1 row err h1 h
      exact ⟨made1, h4, h5, fun he => (h6 he).trans h2, h7.trans h3⟩
    | returns row2 err2 i2 calls2 =>
      rw [hbody] at h hb
      simp only [Option.some.injEq, Outcome.returned.injEq] at h
      obtain ⟨rfl, rfl, rfl, rfl⟩ := h
      exact hb
    | panics calls2 =>
      rw [hbody] at h
      simp at h

theorem Next_tidy {g : Git} (pre : List Call) {i i1 : commitTreesIter}
    {made calls1 : List Call} {row : Option Row} {err : Option GoError}
    (hi : tidy pre.length (activeWalker i) made)
    (h : Next g i (pre ++ made) = some (Outcome.returned row err i1 calls1)) :
    ∃ made1, calls1 = pre ++ made1 ∧ tidy pre.length (activeWalker i1) made1 ∧
      (err ≠ some GoError.EOF →
        made1.count Call.commitsClose = made.count Call.commitsClose) ∧
      (i1.commits = none ↔ i.commits = none) := by
  unfold Next at h
  split at h
  · simp only [Option.some.injEq, Outcome.returned.injEq] at h
    obtain ⟨-, -, rfl, rfl⟩ := h
    exact ⟨made, rfl, hi, fun _ => rfl, Iff.rfl⟩
  · exact loop_tidy pre _ i i1 made calls1 row err hi h

theorem NextN_tidy {g : Git} (pre : List Call) (n : Nat) :
    ∀ (i i1 : commitTreesIter) (made calls1 : List Call)
      (rs : List (Option Row × Option GoError)), tidy pre.length (activeWalker i) made →
      NextN g n i (pre ++ made) = some (rs, i1, calls1) →
      ∃ made1, calls1 = pre ++ made1 ∧ tidy pre.length (activeWalker i1) made1 ∧
        ((∀ x ∈ rs, x.2 ≠ some GoError.EOF) →
          made1.count Call.commitsClose = made.count Call.commitsClose) ∧
        (i1.commits = none ↔ i.commits = none) := by
  induction n with
  | zero =>
    intro i i1 made calls1 rs hi h
    simp only [NextN, Option.some.injEq, Prod.mk.injEq] at h
    obtain ⟨-, rfl, rfl⟩ := h
    exact ⟨made, rfl, hi, fun _ => rfl, Iff.rfl⟩
  | succ n ih =>
    intro i i1 made calls1 rs hi h
    rw [NextN] at h
    cases hnext : Next g i (pre ++ made) with
    | none => simp [hnext] at h
    | some o =>
      cases o with
      | panicked c => simp [hnext] at h
      | returned row err i2 calls2 =>
        obtain ⟨made2, rfl, h1, h2, h3⟩ := Next_tidy pre hi hnext
        rw [hnext] at h
        simp only at h
        cases hrun : NextN g n i2 (pre ++ made2) with
        | none => simp [hrun] at h
        | some p =>
          obtain ⟨rs1, i3, calls3⟩ := p
          rw [hrun] at h
          simp only [Option.some.injEq, Prod.mk.injEq] at h
          obtain ⟨rfl, rfl, rfl⟩ := h
          obtain ⟨made1, h4, h5, h6, h7⟩ := ih i2 i3 made2 calls3 rs1 h1 hrun
          refine ⟨made1, h4, h5, fun hne => ?_, h7.trans h3⟩
          rw [h6 (fun x hx => hne x (List.mem_cons_of_mem _ hx))]
          exact h2 (hne _ (List.mem_cons_self _ _))

theorem Close_calls (i : commitTreesIter) (calls : List Call) :
    (Close i calls).2 =
      calls ++
        ((match i.commits with
          | some _ => [Call.commitsClose]
          | none => []) ++
        (match activeWalker i with
          | some id => [Call.treesClose id]
          | none => [])) := by
  obtain ⟨ctx, repo, commits, commit, trees, repos, hashes⟩ := i
  cases commits <;> cases trees <;> simp [Close, activeWalker]

theorem tidy_Close {b : Nat} {i : commitTreesIter} {made : List Call}
    (hi : tidy b (activeWalker i) made) :
    tidy b none
      (made ++
        ((match i.commits with
          | some _ => [Call.commitsClose]
          | none => []) ++
        (match activeWalker i with
          | some id => [Call.treesClose id]
          | none => []))) := by
  have h1 : tidy b (activeWalker i)
      (made ++ (match i.commits with
        | some _ => [Call.commitsClose]
        | none => [])) := by
    cases i.commits with
    | none => simpa using hi
    | some c => exact tidy_commitsClose hi
  rw [← List.append_assoc]
  cases ha : activeWalker i with
  | none =>
    rw [ha] at h1
    simpa using h1
  | some id =>
    rw [ha] at h1
    exact tidy_close h1

theorem tidy_nil (b : Nat) : tidy b none [] := by
  refine ⟨fun p q id h => ?_, fun id h => ?_, fun id h => ?_, fun id t rec seen h => ?_⟩
  · simp at h
  · cases h
  · simp at h
  · simp at h

/-- C12: after any number of calls of `Next` on the iterator that `NewIterator` returns,
none of which has returned `io.EOF` (they may have returned rows or other errors), one
call of `Close` leaves the commit stream, if one was opened, closed exactly once and
every tree walker that was created closed exactly once, among the calls made since
`NewIterator` returned. -/
theorem C12_released_once (git : Git) (tmpl it : commitTreesIter) (repo : Repository)
    (calls0 calls : List Call) (n : Nat)
    (hnew : NewIterator git tmpl repo calls0 = ((some it, none), calls)) :
    ∃ rs i1 calls1, NextN git n it calls = some (rs, i1, calls1) ∧
      ((∀ x ∈ rs, x.2 ≠ some GoError.EOF) →
        ∃ made, (Close i1 calls1).2 = calls ++ made ∧
          (it.commits = none → made.count Call.commitsClose = 0) ∧
          (it.commits ≠ none → made.count Call.commitsClose = 1) ∧
          ∀ id t rec seen, Call.NewTreeWalker id t rec seen ∈ made →
            made.count (Call.treesClose id) = 1) := by
  obtain ⟨-, hrepo, htrees, -, -, -⟩ := NewIterator_some hnew
  have hscan : scans repo it := ⟨hrepo, fun h => absurd htrees h⟩
  obtain ⟨rs, i1, calls1, hrun, -, -⟩ := NextN_scans (g := git) n it calls hscan
  refine ⟨rs, i1, calls1, hrun, fun hne => ?_⟩
  have hstart : tidy calls.length (activeWalker it) [] := by
    rw [activeWalker, htrees]
    exact tidy_nil _
  have hrun1 : NextN git n it (calls ++ []) = some (rs, i1, calls1) := by
    rw [List.append_nil]
    exact hrun
  obtain ⟨made1, rfl, h1, h2, h3⟩ := NextN_tidy calls n it i1 [] calls1 rs hstart hrun1
  have hcount : made1.count Call.commitsClose = 0 := by simpa using h2 hne
  have hfinal := tidy_Close h1
  rw [Close_calls, List.append_assoc]
  refine ⟨_, rfl, fun hc => ?_, fun hc => ?_, fun id t rec seen hid => ?_⟩
  · rw [List.count_append, hcount, h3.2 hc]
    cases activeWalker i1 <;> simp
  · cases hc1 : i1.commits with
    | none => exact absurd (h3.1 hc1) hc
    | some c =>
      rw [List.count_append, hcount]
      cases activeWalker i1 <;> simp
  · rcases (hfinal.2.2.2 id t rec seen hid).2 with h | h
    · cases h
    · exact h

/-- C12 (witness): two calls of `Next` on the example repository, then `Close`: the
commit stream and the one walker created are closed once. -/
theorem C12_released_once_witness :
    ∃ rs i1 calls1,
      NextN exGit 2 (exIter false [Res.ok exCommit, Res.ok exCommit2])
        [Call.NewCommitsByHashIter "r2" []] = some (rs, i1, calls1) ∧
      ((∀ x ∈ rs, x.2 ≠ some GoError.EOF) →
        ∃ made, (Close i1 calls1).2 = [Call.NewCommitsByHashIter "r2" []] ++ made ∧
          ((exIter false [Res.ok exCommit, Res.ok exCommit2]).commits = none →
            made.count Call.commitsClose = 0) ∧
          ((exIter false [Res.ok exCommit, Res.ok exCommit2]).commits ≠ none →
            made.count Call.commitsClose = 1) ∧
          ∀ id t rec seen, Call.NewTreeWalker id t rec seen ∈ made →
            made.count (Call.treesClose id) = 1) :=
  C12_released_once exGit (template (SqlSession.gitbase ⟨false⟩) [] [])
    (exIter false [Res.ok exCommit, Res.ok exCommit2]) exRepo []
    [Call.NewCommitsByHashIter "r2" []] 2 rfl

/-- C19: when `Next` of the active walker returns an error (`io.EOF` or another, under
either policy), the same pass through the loop closes the walker and clears the walker
field.  So, among the calls made by any number of calls of `Next` on the iterator that
`NewIterator` returns, and by a `Close` after them, no call is made on a walker after
its `Close`: neither `Next` nor a second `Close`. -/
theorem C19_closed_walker_unused (git : Git) (tmpl it : commitTreesIter) (repo : Repository)
    (calls0 calls : List Call) (n : Nat)
    (hnew : NewIterator git tmpl repo calls0 = ((some it, none), calls)) :
    (∀ (s : Session) (i : commitTreesIter) (callsi : List Call) (w : TreeWalker)
        (cs : CommitIter) (e : GoError),
      i.trees = some w → i.commits = some cs → w.Next.1 = Res.err e →
      Next.body git s i callsi =
          Flow.continues { i with trees := none }
            (callsi ++ [Call.treesNext w.id, Call.treesClose w.id]) ∨
        Next.body git s i callsi =
          Flow.returns none (some e) { i with trees := none }
            (callsi ++ [Call.treesNext w.id, Call.treesClose w.id])) ∧
    ∃ rs i1 calls1, NextN git n it calls = some (rs, i1, calls1) ∧
      ∃ made, calls1 = calls ++ made ∧ closedWalkersUnused made ∧
        ∃ closing, (Close i1 calls1).2 = calls ++ (made ++ closing) ∧
          closedWalkersUnused (made ++ closing) := by
  constructor
  · intro s i callsi w cs e ht hc hw
    obtain ⟨id, items⟩ := w
    cases items with
    | nil =>
      simp only [TreeWalker.Next, Res.err.injEq] at hw
      subst hw
      exact Or.inl (by simp [Next.body, Next.walk, TreeWalker.Next, ht, hc])
    | cons x rest =>
      simp only [TreeWalker.Next] at hw
      subst hw
      by_cases h : e = GoError.EOF ∨ s.SkipGitErrors = true
      · exact Or.inl (by simp [Next.body, Next.walk, TreeWalker.Next, ht, hc, h])
      · exact Or.inr (by simp [Next.body, Next.walk, TreeWalker.Next, ht, hc, h])
  · obtain ⟨-, hrepo, htrees, -, -, -⟩ := NewIterator_some hnew
    have hscan : scans repo it := ⟨hrepo, fun h => absurd htrees h⟩
    obtain ⟨rs, i1, calls1, hrun, -, -⟩ := NextN_scans (g := git) n it calls hscan
    have hstart : tidy calls.length (activeWalker it) [] := by
      rw [activeWalker, htrees]
      exact tidy_nil _
    have hrun1 : NextN git n it (calls ++ []) = some (rs, i1, calls1) := by
      rw [List.append_nil]
      exact hrun
    obtain ⟨made1, rfl, h1, -, -⟩ := NextN_tidy calls n it i1 [] calls1 rs hstart hrun1
    refine ⟨rs, i1, _, hrun, made1, rfl, h1.1, _, ?_, (tidy_Close h1).1⟩
    rw [Close_calls, List.append_assoc]

/-- C19 (witness): five calls of `Next` on the example repository, which close the
walker of the first commit and create another, then `Close`. -/
theorem C19_closed_walker_unused_witness :
    ∃ rs i1 calls1,
      NextN exGit 5 (exIter false [Res.ok exCommit, Res.ok exCommit2])
        [Call.NewCommitsByHashIter "r2" []] = some (rs, i1, calls1) ∧
      ∃ made, calls1 = [Call.NewCommitsByHashIter "r2" []] ++ made ∧
        closedWalkersUnused made ∧
        ∃ closing, (Close i1 calls1).2 =
            [Call.NewCommitsByHashIter "r2" []] ++ (made ++ closing) ∧
          closedWalkersUnused (made ++ closing) :=
  (C19_closed_walker_unused exGit (template (SqlSession.gitbase ⟨false⟩) [] [])
    (exIter false [Res.ok exCommit, Res.ok exCommit2]) exRepo []
    [Call.NewCommitsByHashIter "r2" []] 5 rfl).2


/-! ## Rows of one commit under a walker that only reads the seen map -/

theorem Reach_cases {store : TreeStore} {es : List TreeEntry} {h : Hash}
    (hr : Reach store es h) :
    ∃ e ∈ es, e.Mode = FileMode.Dir ∧
      (h = e.Hash ∨
        ∃ children, getTreeEntries store e.Hash = some children ∧ Reach store children h) := by
  induction hr with
  | entry e he hd => exact ⟨e, he, hd, Or.inl rfl⟩
  | child h1 children e _ hl he hd ih =>
    obtain ⟨e0, he0, hd0, hcase⟩ := ih
    refine ⟨e0, he0, hd0, Or.inr ?_⟩
    rcases hcase with rfl | ⟨ch0, hl0, hr0⟩
    · exact ⟨children, hl, Reach.entry e he hd⟩
    · exact ⟨ch0, hl0, Reach.child h1 children e hr0 hl he hd⟩

theorem readEntries_sound {descend : Hash → List (Res TreeEntry)} {seen : List Hash}
    {es : List TreeEntry} {h : Hash} (hm : h ∈ dirHashes (readEntries descend seen es)) :
    ∃ e ∈ es, e.Mode = FileMode.Dir ∧ (h = e.Hash ∨ h ∈ dirHashes (descend e.Hash)) := by
  induction es with
  | nil => simp [readEntries, dirHashes] at hm
  | cons e es ih =>
    by_cases hd : e.Mode = FileMode.Dir
    · by_cases hseen : e.Hash ∈ seen
      · simp only [readEntries, hd, hseen, if_true] at hm
        obtain ⟨e1, he1, h1⟩ := ih hm
        exact ⟨e1, List.mem_cons_of_mem _ he1, h1⟩
      · simp only [readEntries, hd, hseen, if_true, if_false, dirHashes, dirHashes_append,
          List.mem_cons, List.mem_append] at hm
        rcases hm with rfl | hm | hm
        · exact ⟨e, List.mem_cons_self _ _, hd, Or.inl rfl⟩
        · exact ⟨e, List.mem_cons_self _ _, hd, Or.inr hm⟩
        · obtain ⟨e1, he1, h1⟩ := ih hm
          exact ⟨e1, List.mem_cons_of_mem _ he1, h1⟩
    · simp only [readEntries, hd, if_false, dirHashes] at hm
      obtain ⟨e1, he1, h1⟩ := ih hm
      exact ⟨e1, List.mem_cons_of_mem _ he1, h1⟩

theorem readTree_sound (store : TreeStore) (seen : List Hash) (n : Nat) :
    ∀ (x h : Hash), h ∈ dirHashes (readTree store seen n x) →
      ∃ children, getTreeEntries store x = some children ∧ Reach store children h := by
  induction n with
  | zero =>
    intro x h hm
    cases hl : getTreeEntries store x <;> simp [readTree, hl, dirHashes] at hm
  | succ n ih =>
    intro x h hm
    cases hl : getTreeEntries store x with
    | none => simp [readTree, hl, dirHashes] at hm
    | some children =>
      simp only [readTree, hl] at hm
      obtain ⟨e, he, hd, hcase⟩ := readEntries_sound hm
      refine ⟨children, rfl, ?_⟩
      rcases hcase with rfl | hsub
      · exact Reach.entry e he hd
      · obtain ⟨ch1, hl1, hr1⟩ := ih e.Hash h hsub
        exact Reach_of_child (Reach.entry e he hd) hl1 hr1

theorem NewReadingTreeWalker_sound (store : TreeStore) (t : Tree) {h : Hash}
    (hm : h ∈ dirHashes (NewReadingTreeWalker store t true [])) : Reach store t.Entries h := by
  obtain ⟨e, he, hd, hcase⟩ := readEntries_sound hm
  rcases hcase with rfl | hsub
  · exact Reach.entry e he hd
  · obtain ⟨ch1, hl1, hr1⟩ := readTree_sound store [] store.length e.Hash h hsub
    exact Reach_of_child (Reach.entry e he hd) hl1 hr1

theorem readEntries_mem {d : Hash → List (Res TreeEntry)} {es : List TreeEntry}
    {e : TreeEntry} (he : e ∈ es) (hd : e.Mode = FileMode.Dir) :
    e.Hash ∈ dirHashes (readEntries d [] es) ∧
      (∀ h ∈ dirHashes (d e.Hash), h ∈ dirHashes (readEntries d [] es)) ∧
      (noError (readEntries d [] es) → noError (d e.Hash)) := by
  induction es with
  | nil => simp at he
  | cons e1 es ih =>
    by_cases hd1 : e1.Mode = FileMode.Dir
    · simp only [readEntries, hd1, if_true, List.not_mem_nil, if_false, dirHashes,
        dirHashes_append, List.mem_cons, List.mem_append]
      rcases List.mem_cons.1 he with rfl | he1
      · exact ⟨Or.inl rfl, fun h hm => Or.inr (Or.inl hm),
          fun hok => (noError_append (noError_cons hok)).1⟩
      · obtain ⟨h1, h2, h3⟩ := ih he1
        exact ⟨Or.inr (Or.inr h1), fun h hm => Or.inr (Or.inr (h2 h hm)),
          fun hok => h3 (noError_append (noError_cons hok)).2⟩
    · simp only [readEntries, hd1, if_false, dirHashes]
      rcases List.mem_cons.1 he with rfl | he1
      · exact absurd hd hd1
      · obtain ⟨h1, h2, h3⟩ := ih he1
        exact ⟨h1, h2, fun hok => h3 (noError_cons hok)⟩

theorem not_noError_err (e : GoError) : ¬ noError [Res.err e] := by
  intro h
  obtain ⟨e1, he1⟩ := h (Res.err e) (List.mem_cons_self _ _)
  cases he1

theorem readTree_complete (store : TreeStore) (n : Nat) :
    ∀ (es : List TreeEntry), noError (readEntries (readTree store [] n) [] es) →
      ∀ h : Hash, Reach store es h →
        h ∈ dirHashes (readEntries (readTree store [] n) [] es) := by
  induction n with
  | zero =>
    intro es hok h hr
    obtain ⟨e, he, hd, hcase⟩ := Reach_cases hr
    obtain ⟨h1, -, h3⟩ := readEntries_mem (d := readTree store [] 0) he hd
    rcases hcase with rfl | ⟨children, hl, -⟩
    · exact h1
    · have hsub := h3 hok
      simp only [readTree, hl] at hsub
      exact absurd hsub (not_noError_err _)
  | succ n ih =>
    intro es hok h hr
    obtain ⟨e, he, hd, hcase⟩ := Reach_cases hr
    obtain ⟨h1, h2, h3⟩ := readEntries_mem (d := readTree store [] (n + 1)) he hd
    rcases hcase with rfl | ⟨children, hl, hr1⟩
    · exact h1
    · have hsub := h3 hok
      apply h2
      simp only [readTree, hl] at hsub ⊢
      exact ih children hsub h hr1

theorem NewReadingTreeWalker_complete (store : TreeStore) (t : Tree)
    (hok : noError (NewReadingTreeWalker store t true [])) {h : Hash}
    (hr : Reach store t.Entries h) : h ∈ dirHashes (NewReadingTreeWalker store t true []) :=
  readTree_complete store store.length t.Entries hok h hr


/-! ## The tree hashes of the rows of a commit -/

/-- C2 (counterexample): the root tree has the directories `a`, `gone` and `z` and the
file `f`, and the tree of `gone` is missing from the store.  The directory `z` is reached from the root
tree, but under the tree walker of the specification the walk ends at `gone` and `Next`
returns no row for `z`, be the failure skipped or returned. -/
theorem C2_counterexample :
    Reach exGoneStore exGoneTree.Entries ⟨"b3"⟩ ∧
    Option.map (fun p => p.1)
        (NextN (exGit.withStore exGoneStore) 4 (exIter true [Res.ok exGoneCommit]) []) =
      some [rowResult exRepo exGoneCommit ⟨"a3"⟩, rowResult exRepo exGoneCommit ⟨"b1"⟩,
        rowResult exRepo exGoneCommit ⟨"b2"⟩, (none, some GoError.EOF)] ∧
    Option.map (fun p => p.1)
        (NextN (exGit.withStore exGoneStore) 5 (exIter false [Res.ok exGoneCommit]) []) =
      some [rowResult exRepo exGoneCommit ⟨"a3"⟩, rowResult exRepo exGoneCommit ⟨"b1"⟩,
        rowResult exRepo exGoneCommit ⟨"b2"⟩, (none, some ErrObjectNotFound),
        (none, some GoError.EOF)] :=
  ⟨Reach.entry ⟨"z", FileMode.Dir, ⟨"b3"⟩⟩ (by decide) rfl, by decide, by decide⟩

/-- C2 (amended): when the walk of a commit meets no failure, be the tree walker that of
the specification or one that only reads the seen map, the rows `Next` returns for the
commit (after which it goes on with the next commit) carry as tree_hash exactly the hash
of the root tree and the hashes of the directory-mode entries reached from it through
directory-mode entries; every row other than the root row comes from a directory-mode
entry the walker yields, never from a file, symlink or submodule entry. -/
theorem C2_tree_hashes_of_complete_walk (git : Git) (store : TreeStore) (i : commitTreesIter)
    (calls : List Call) (s : Session) (r : Repository) (c : Commit) (t : Tree)
    (rest : List (Res Commit))
    (hs : i.ctx.Session = SqlSession.gitbase s) (ht : i.trees = none)
    (hc : i.commits = some ⟨Res.ok c :: rest⟩) (htree : c.Tree = Res.ok t)
    (hr : i.repo = some r)
    (hw : git.NewTreeWalker t true [] = NewTreeWalker store t true [] ∨
      git.NewTreeWalker t true [] = NewReadingTreeWalker store t true [])
    (hok : noError (git.NewTreeWalker t true [])) :
    (∃ mid : List Call, ∀ n : Nat,
      NextN git ((commitRows r c t (git.NewTreeWalker t true [])).length + (n + 1)) i calls =
        thenResults (commitRows r c t (git.NewTreeWalker t true []))
          (NextN git (n + 1)
            { i with commits := some ⟨rest⟩, trees := none, commit := some c }
            (calls ++ mid))) ∧
    (∀ h : Hash, rowResult r c h ∈ commitRows r c t (git.NewTreeWalker t true []) ↔
      h = t.Hash ∨ Reach store t.Entries h) ∧
    (∀ x ∈ commitRows r c t (git.NewTreeWalker t true []),
      x = rowResult r c t.Hash ∨
      ∃ e, Res.ok e ∈ git.NewTreeWalker t true [] ∧ e.Mode = FileMode.Dir ∧
        x = rowResult r c e.Hash) := by
  refine ⟨?_, fun h => ?_, fun x hx => ?_⟩
  · obtain ⟨mid, -, hrun⟩ :=
      NextN_commit (g := git) calls hs ht hc htree hr (Or.inl (walkError_of_noError hok))
    exact ⟨mid, hrun⟩
  · rw [mem_commitRows, dirHashes_of_noError hok]
    rcases hw with hw | hw
    · rw [hw] at hok ⊢
      constructor
      · rintro (h1 | h1)
        · exact Or.inl h1
        · exact Or.inr (NewTreeWalker_sound store t h1)
      · rintro (h1 | h1)
        · exact Or.inl h1
        · exact Or.inr (walkTree_complete store t hok h1)
    · rw [hw] at hok ⊢
      constructor
      · rintro (h1 | h1)
        · exact Or.inl h1
        · exact Or.inr (NewReadingTreeWalker_sound store t h1)
      · rintro (h1 | h1)
        · exact Or.inl h1
        · exact Or.inr (NewReadingTreeWalker_complete store t hok h1)
  · simp only [commitRows, List.mem_cons, List.mem_map] at hx
    rcases hx with rfl | ⟨e, he, rfl⟩
    · exact Or.inl rfl
    · exact Or.inr ⟨e, (mem_dirsBeforeError he).1, (mem_dirsBeforeError he).2, rfl⟩

/-- C2 (witness): the root tree with the directories `d1`, `d2` and the file `f` gives
exactly the rows of the root tree, `d1` and `d2`. -/
theorem C2_tree_hashes_of_complete_walk_witness :
    (∃ mid : List Call, ∀ n : Nat,
      NextN exGit (3 + (n + 1)) (exIter false [Res.ok exCommit]) [] =
        thenResults
          [rowResult exRepo exCommit ⟨"a0"⟩, rowResult exRepo exCommit ⟨"d1"⟩,
            rowResult exRepo exCommit ⟨"d2"⟩]
          (NextN exGit (n + 1)
            { exIter false [] with commit := some exCommit } ([] ++ mid))) ∧
    (∀ h : Hash,
      rowResult exRepo exCommit h ∈
          [rowResult exRepo exCommit ⟨"a0"⟩, rowResult exRepo exCommit ⟨"d1"⟩,
            rowResult exRepo exCommit ⟨"d2"⟩] ↔
        h = exTree.Hash ∨ Reach exStore exTree.Entries h) ∧
    (∀ x ∈ [rowResult exRepo exCommit ⟨"a0"⟩, rowResult exRepo exCommit ⟨"d1"⟩,
        rowResult exRepo exCommit ⟨"d2"⟩],
      x = rowResult exRepo exCommit exTree.Hash ∨
      ∃ e, Res.ok e ∈ [Res.ok exD1, Res.ok exD2, Res.ok exF] ∧ e.Mode = FileMode.Dir ∧
        x = rowResult exRepo exCommit e.Hash) :=
  C2_tree_hashes_of_complete_walk exGit exStore (exIter false [Res.ok exCommit]) [] ⟨false⟩
    exRepo exCommit exTree [] rfl rfl rfl rfl rfl (Or.inl rfl) (noError_of_all (by decide))


/-! ## The walker decides how often a tree hash is returned -/

theorem walkFailure_of_continue {s : Session} {items : List (Res TreeEntry)}
    (hw : walkError items = GoError.EOF ∨ s.SkipGitErrors = true) :
    walkFailure s items = [] := by
  simp [walkFailure, hw]

theorem walkFailure_of_strict {s : Session} {items : List (Res TreeEntry)}
    (hw : ¬ (walkError items = GoError.EOF ∨ s.SkipGitErrors = true)) :
    walkFailure s items = [(none, some (walkError items))] := by
  simp [walkFailure, hw]

/-- The rows of the directory entries of a walker whose failure is returned, followed by
that failure, followed by what the iterator does without walker. -/
theorem NextN_walk_strict {g : Git} {s : Session} (ws : List (Res TreeEntry)) :
    ∀ (i : commitTreesIter) (calls : List Call) (id : Nat) (cs : CommitIter)
      (r : Repository) (c : Commit),
      i.ctx.Session = SqlSession.gitbase s → i.trees = some ⟨id, ws⟩ →
      i.commits = some cs → i.repo = some r → i.commit = some c →
      ¬ (walkError ws = GoError.EOF ∨ s.SkipGitErrors = true) →
      ∃ mid : List Call, ∀ n : Nat,
        NextN g ((dirsBeforeError ws).length + 1 + n) i calls =
          thenResults
            ((dirsBeforeError ws).map (fun e => rowResult r c e.Hash) ++
              [(none, some (walkError ws))])
            (NextN g n { i with trees := none } (calls ++ mid)) := by
  induction ws with
  | nil =>
    intro i calls id cs r c hs ht hc hr hcm hw
    exact absurd (Or.inl rfl) hw
  | cons w ws ih =>
    intro i calls id cs r c hs ht hc hr hcm hw
    cases w with
    | err e =>
      have he : e ≠ GoError.EOF := fun h => hw (Or.inl (by simp [walkError, h]))
      have hstrict : s.SkipGitErrors = false := by
        cases hsk : s.SkipGitErrors
        · rfl
        · exact absurd (Or.inr hsk) hw
      refine ⟨[Call.treesNext id, Call.treesClose id], fun n => ?_⟩
      have hstep := Next_walk_error_strict (g := g) calls hs ht hc he hstrict
      simp only [dirsBeforeError, List.length_nil, Nat.zero_add, List.map_nil, List.nil_append,
        walkError]
      rw [show 1 + n = n + 1 by omega, NextN_succ_of_returned hstep]
    | ok e =>
      have hw1 : ¬ (walkError ws = GoError.EOF ∨ s.SkipGitErrors = true) := by
        simpa [walkError] using hw
      obtain ⟨mid, hrun⟩ :=
        ih { i with trees := some ⟨id, ws⟩ } (calls ++ [Call.treesNext id]) id cs r c
          hs rfl hc hr hcm hw1
      refine ⟨Call.treesNext id :: mid, fun n => ?_⟩
      have hcalls : calls ++ Call.treesNext id :: mid = calls ++ [Call.treesNext id] ++ mid := by
        simp
      by_cases hd : e.Mode = FileMode.Dir
      · have hstep := Next_walk_dir (g := g) calls hs ht hc hd hr hcm
        simp only [dirsBeforeError, hd, if_true, List.length_cons, List.map_cons, walkError]
        rw [show (dirsBeforeError ws).length + 1 + 1 + n =
          ((dirsBeforeError ws).length + 1 + n) + 1 by omega]
        rw [NextN_succ_of_returned hstep, hrun n, thenResults_thenResults, hcalls]
        rfl
      · have hstep := Next_walk_file (g := g) calls hs ht hc hd
        simp only [dirsBeforeError, hd, if_false, walkError]
        rw [show (dirsBeforeError ws).length + 1 + n =
          ((dirsBeforeError ws).length + n) + 1 by omega]
        rw [NextN_congr hstep]
        rw [show (dirsBeforeError ws).length + n + 1 =
          (dirsBeforeError ws).length + 1 + n by omega]
        rw [hrun n, hcalls]

/-- The rows of a newly fetched commit, followed by the failure of its walk when that is
returned, followed by what the iterator does once the walk of the commit has ended. -/
theorem NextN_commit_then {g : Git} {s : Session} {i : commitTreesIter} (calls : List Call)
    {c : Commit} {t : Tree} {r : Repository} {rest : List (Res Commit)}
    (hs : i.ctx.Session = SqlSession.gitbase s) (ht : i.trees = none)
    (hc : i.commits = some ⟨Res.ok c :: rest⟩) (htree : c.Tree = Res.ok t)
    (hr : i.repo = some r) :
    ∃ mid : List Call, ∀ n : Nat,
      NextN g ((commitRows r c t (g.NewTreeWalker t true [])).length +
          (walkFailure s (g.NewTreeWalker t true [])).length + (n + 1)) i calls =
        thenResults
          (commitRows r c t (g.NewTreeWalker t true []) ++
            walkFailure s (g.NewTreeWalker t true []))
          (NextN g (n + 1)
            { i with commits := some ⟨rest⟩, trees := none, commit := some c }
            (calls ++ mid)) := by
  by_cases hw : walkError (g.NewTreeWalker t true []) = GoError.EOF ∨ s.SkipGitErrors = true
  · obtain ⟨mid, -, hrun⟩ := NextN_commit (g := g) calls hs ht hc htree hr hw
    refine ⟨mid, fun n => ?_⟩
    rw [walkFailure_of_continue hw, List.length_nil, Nat.add_zero, List.append_nil]
    exact hrun n
  · have hstep := Next_root (g := g) calls hs ht hc htree hr
    obtain ⟨mid, hrun⟩ :=
      NextN_walk_strict (g := g) (s := s) (g.NewTreeWalker t true [])
        { i with
          commits := some ⟨rest⟩,
          trees := some ⟨calls.length + 2, g.NewTreeWalker t true []⟩,
          commit := some c }
        (calls ++ [Call.commitsNext, Call.commitTree c.Hash,
          Call.NewTreeWalker (calls.length + 2) t.Hash true []])
        (calls.length + 2) ⟨rest⟩ r c hs rfl rfl hr rfl hw
    refine ⟨[Call.commitsNext, Call.commitTree c.Hash,
      Call.NewTreeWalker (calls.length + 2) t.Hash true []] ++ mid, fun n => ?_⟩
    rw [walkFailure_of_strict hw]
    simp only [commitRows, List.length_cons, List.length_map, List.length_nil]
    rw [show (dirsBeforeError (g.NewTreeWalker t true [])).length + 1 + (0 + 1) + (n + 1) =
      ((dirsBeforeError (g.NewTreeWalker t true [])).length + 1 + (n + 1)) + 1 by omega]
    rw [NextN_succ_of_returned hstep, hrun (n + 1), thenResults_thenResults,
      ← List.append_assoc calls]
    rfl

theorem commitRows_eq_map (r : Repository) (c : Commit) (t : Tree)
    (items : List (Res TreeEntry)) :
    commitRows r c t items =
      (t.Hash :: (dirsBeforeError items).map TreeEntry.Hash).map (rowResult r c) := by
  simp [commitRows, List.map_map, Function.comp_def]

theorem occurrences_map_rowResult (r : Repository) (c : Commit) (h : Hash) (hs : List Hash) :
    occurrences (rowResult r c h) (hs.map (rowResult r c)) =
      (hs.filter (fun x => decide (x = h))).length := by
  induction hs with
  | nil => rfl
  | cons x hs ih =>
    rw [List.map_cons, occurrences_cons, ih]
    by_cases hx : x = h
    · have h1 : rowResult r c x = rowResult r c h := by rw [hx]
      simp [List.filter_cons, hx]
    · have h1 : rowResult r c x ≠ rowResult r c h := fun heq => hx (rowResult_inj heq)
      simp [List.filter_cons, hx, h1]


/-- C3 (counterexample): the directories `d1` and `d2` of the root tree both hold the
directory `e0`.  `Next` creates the walker with an empty seen map and marks no hash in
it; with a walker that only reads the map, the walk of the one commit yields `e0` under
`d1` and again under `d2`, and `Next` returns two rows with the tree hash `e0`. -/
theorem C3_counterexample :
    Option.map (fun p => p.1)
        (NextN (exGit.withReadingWalker exSharedStore) 6 (exIter false [Res.ok exCommit]) []) =
      some [rowResult exRepo exCommit ⟨"a0"⟩, rowResult exRepo exCommit ⟨"d1"⟩,
        rowResult exRepo exCommit ⟨"e0"⟩, rowResult exRepo exCommit ⟨"d2"⟩,
        rowResult exRepo exCommit ⟨"e0"⟩, (none, some GoError.EOF)] := by
  decide

/-- C3 (amended): for every tree walker, the rows `Next` returns for one commit are the
row of the root tree followed by one row for every directory-mode entry that the walker,
created with an empty seen map, yields before its end or its first error, in the order
of the walker: `Next` leaves out no such entry and does no deduplication itself.  A tree
hash is returned as many times as it is the hash of the root tree or of such an entry,
and the rows of the commit are pairwise distinct exactly when the hashes of these
entries are pairwise distinct and differ from the hash of the root tree. -/
theorem C3_rows_follow_walker (git : Git) (i : commitTreesIter)
    (calls : List Call) (s : Session) (r : Repository) (c : Commit) (t : Tree)
    (rest : List (Res Commit))
    (hs : i.ctx.Session = SqlSession.gitbase s) (ht : i.trees = none)
    (hc : i.commits = some ⟨Res.ok c :: rest⟩) (htree : c.Tree = Res.ok t)
    (hr : i.repo = some r) :
    (∃ (i1 : commitTreesIter) (calls1 : List Call) (w : TreeWalker),
      NextN git (commitRows r c t (git.NewTreeWalker t true [])).length i calls =
        some (commitRows r c t (git.NewTreeWalker t true []), i1, calls1) ∧
      i1.commits = some ⟨rest⟩ ∧ i1.trees = some w ∧ dirsBeforeError w.items = []) ∧
    commitRows r c t (git.NewTreeWalker t true []) =
      (t.Hash :: (dirsBeforeError (git.NewTreeWalker t true [])).map TreeEntry.Hash).map
        (rowResult r c) ∧
    (∀ h : Hash,
      occurrences (rowResult r c h) (commitRows r c t (git.NewTreeWalker t true [])) =
        ((t.Hash :: (dirsBeforeError (git.NewTreeWalker t true [])).map TreeEntry.Hash).filter
          (fun x => decide (x = h))).length) ∧
    ((commitRows r c t (git.NewTreeWalker t true [])).Nodup ↔
      t.Hash ∉ (dirsBeforeError (git.NewTreeWalker t true [])).map TreeEntry.Hash ∧
        ((dirsBeforeError (git.NewTreeWalker t true [])).map TreeEntry.Hash).Nodup) := by
  have hinj : Function.Injective (rowResult r c) := fun a b hab => rowResult_inj hab
  refine ⟨?_, commitRows_eq_map r c t _, fun h => ?_, ?_⟩
  · obtain ⟨ws1, calls1, hrun, hws1⟩ := NextN_commit_rows (g := git) calls hs ht hc htree hr
    exact ⟨{ i with
        commits := some ⟨rest⟩,
        trees := some ⟨calls.length + 2, ws1⟩,
        commit := some c }, calls1, ⟨calls.length + 2, ws1⟩, hrun, rfl, rfl, hws1⟩
  · rw [commitRows_eq_map, occurrences_map_rowResult]
  · rw [commitRows_eq_map, List.nodup_map_iff hinj, List.nodup_cons]

/-- C3 (witness): for the root tree with the directories `d1`, `d2` and the file `f`
the walker yields `d1`, `d2` and `f`; `Next` returns the rows of the root tree, `d1` and
`d2`, each once. -/
theorem C3_rows_follow_walker_witness :
    (∃ (i1 : commitTreesIter) (calls1 : List Call) (w : TreeWalker),
      NextN exGit 3 (exIter false [Res.ok exCommit]) [] =
        some ([rowResult exRepo exCommit ⟨"a0"⟩, rowResult exRepo exCommit ⟨"d1"⟩,
          rowResult exRepo exCommit ⟨"d2"⟩], i1, calls1) ∧
      i1.commits = some ⟨[]⟩ ∧ i1.trees = some w ∧ dirsBeforeError w.items = []) ∧
    (∀ h : Hash,
      occurrences (rowResult exRepo exCommit h)
          [rowResult exRepo exCommit ⟨"a0"⟩, rowResult exRepo exCommit ⟨"d1"⟩,
            rowResult exRepo exCommit ⟨"d2"⟩] =
        (([⟨"a0"⟩, ⟨"d1"⟩, ⟨"d2"⟩] : List Hash).filter (fun x => decide (x = h))).length) ∧
    [rowResult exRepo exCommit ⟨"a0"⟩, rowResult exRepo exCommit ⟨"d1"⟩,
      rowResult exRepo exCommit ⟨"d2"⟩].Nodup :=
  have h := C3_rows_follow_walker exGit (exIter false [Res.ok exCommit]) [] ⟨false⟩ exRepo
    exCommit exTree [] rfl rfl rfl rfl rfl
  ⟨h.1, h.2.2.1, h.2.2.2.2 (by decide)⟩

/-- C4 (counterexample): the commits `c1` and `c2` both reach the directory `e0`, `c1`
under `d1` and under `d2`.  With a walker that only reads the seen map, which `Next`
creates empty and never marks, the rows of `c1` hold `e0` twice, not once; the rows of
`c2` hold it once.  And the commits `c5` and `c2` both have the directory `d1`, but the
walk of `c5` ends at the missing tree of `gone` before it: under the tree walker of the
specification the rows of `c5` do not hold `d1`, be the failure skipped or returned. -/
theorem C4_counterexample :
    (Reach exSharedStore exTree.Entries ⟨"e0"⟩ ∧ Reach exSharedStore exTree2.Entries ⟨"e0"⟩ ∧
      Option.map (fun p => p.1)
          (NextN (exGit.withReadingWalker exSharedStore) 9
            (exIter false [Res.ok exCommit, Res.ok exCommit2]) []) =
        some [rowResult exRepo exCommit ⟨"a0"⟩, rowResult exRepo exCommit ⟨"d1"⟩,
          rowResult exRepo exCommit ⟨"e0"⟩, rowResult exRepo exCommit ⟨"d2"⟩,
          rowResult exRepo exCommit ⟨"e0"⟩,
          rowResult exRepo exCommit2 ⟨"a1"⟩, rowResult exRepo exCommit2 ⟨"d1"⟩,
          rowResult exRepo exCommit2 ⟨"e0"⟩, (none, some GoError.EOF)]) ∧
    (Reach exStore exGoneTree2.Entries ⟨"d1"⟩ ∧ Reach exStore exTree2.Entries ⟨"d1"⟩ ∧
      Option.map (fun p => p.1)
          (NextN exGit 5 (exIter true [Res.ok exGoneCommit2, Res.ok exCommit2]) []) =
        some [rowResult exRepo exGoneCommit2 ⟨"a4"⟩, rowResult exRepo exGoneCommit2 ⟨"b2"⟩,
          rowResult exRepo exCommit2 ⟨"a1"⟩, rowResult exRepo exCommit2 ⟨"d1"⟩,
          (none, some GoError.EOF)] ∧
      Option.map (fun p => p.1)
          (NextN exGit 6 (exIter false [Res.ok exGoneCommit2, Res.ok exCommit2]) []) =
        some [rowResult exRepo exGoneCommit2 ⟨"a4"⟩, rowResult exRepo exGoneCommit2 ⟨"b2"⟩,
          (none, some ErrObjectNotFound),
          rowResult exRepo exCommit2 ⟨"a1"⟩, rowResult exRepo exCommit2 ⟨"d1"⟩,
          (none, some GoError.EOF)]) :=
  ⟨⟨Reach.child ⟨"d1"⟩ [⟨"x", FileMode.Dir, ⟨"e0"⟩⟩] ⟨"x", FileMode.Dir, ⟨"e0"⟩⟩
      (Reach.entry exD1 (by decide) rfl) (by decide) (by decide) rfl,
    Reach.child ⟨"d1"⟩ [⟨"x", FileMode.Dir, ⟨"e0"⟩⟩] ⟨"x", FileMode.Dir, ⟨"e0"⟩⟩
      (Reach.entry exD1 (by decide) rfl) (by decide) (by decide) rfl,
    by decide⟩,
  ⟨Reach.entry exD1 (by decide) rfl, Reach.entry exD1 (by decide) rfl, by decide, by decide⟩⟩

/-- C4 (amended): every time `Next` starts the walk of a newly fetched commit it creates
the walker with a new, empty seen map, whatever the walks before it have met.  So for
two successive commits of one repository the results of `Next` are the rows of the first
commit, the failure of its walk when that is returned, and the rows of the second
commit, each commit with the entries of its own walker created with the empty map; a
directory hash `S` that both walkers yield has a row among the rows of the first commit
and again among the rows of the second, in each as many rows as `S` is the hash of the
root tree or of a directory-mode entry that the walker of that commit yields. -/
theorem C4_fresh_walker_per_commit (git : Git) (i : commitTreesIter)
    (calls : List Call) (s : Session) (r : Repository) (c1 c2 : Commit) (t1 t2 : Tree)
    (rest : List (Res Commit)) (S : Hash)
    (hs : i.ctx.Session = SqlSession.gitbase s) (ht : i.trees = none)
    (hc : i.commits = some ⟨Res.ok c1 :: Res.ok c2 :: rest⟩)
    (htree1 : c1.Tree = Res.ok t1) (htree2 : c2.Tree = Res.ok t2) (hr : i.repo = some r)
    (hS1 : S ∈ (dirsBeforeError (git.NewTreeWalker t1 true [])).map TreeEntry.Hash)
    (hS2 : S ∈ (dirsBeforeError (git.NewTreeWalker t2 true [])).map TreeEntry.Hash) :
    (∀ (j : commitTreesIter) (callsj : List Call) (c : Commit) (t : Tree)
        (restj : List (Res Commit)),
      j.ctx.Session = SqlSession.gitbase s → j.trees = none →
      j.commits = some ⟨Res.ok c :: restj⟩ → c.Tree = Res.ok t → j.repo = some r →
      Next git j callsj =
        some (Outcome.returned (rowResult r c t.Hash).1 none
          { j with
            commits := some ⟨restj⟩,
            trees := some ⟨callsj.length + 2, git.NewTreeWalker t true []⟩,
            commit := some c }
          (callsj ++ [Call.commitsNext, Call.commitTree c.Hash,
            Call.NewTreeWalker (callsj.length + 2) t.Hash true []]))) ∧
    (∃ (i2 : commitTreesIter) (calls2 : List Call),
      NextN git
          ((commitRows r c1 t1 (git.NewTreeWalker t1 true [])).length +
            (walkFailure s (git.NewTreeWalker t1 true [])).length +
            (commitRows r c2 t2 (git.NewTreeWalker t2 true [])).length) i calls =
        some (commitRows r c1 t1 (git.NewTreeWalker t1 true []) ++
            walkFailure s (git.NewTreeWalker t1 true []) ++
            commitRows r c2 t2 (git.NewTreeWalker t2 true []), i2, calls2)) ∧
    rowResult r c1 S ∈ commitRows r c1 t1 (git.NewTreeWalker t1 true []) ∧
    rowResult r c2 S ∈ commitRows r c2 t2 (git.NewTreeWalker t2 true []) ∧
    occurrences (rowResult r c1 S) (commitRows r c1 t1 (git.NewTreeWalker t1 true [])) =
      ((t1.Hash :: (dirsBeforeError (git.NewTreeWalker t1 true [])).map TreeEntry.Hash).filter
        (fun x => decide (x = S))).length ∧
    occurrences (rowResult r c2 S) (commitRows r c2 t2 (git.NewTreeWalker t2 true [])) =
      ((t2.Hash :: (dirsBeforeError (git.NewTreeWalker t2 true [])).map TreeEntry.Hash).filter
        (fun x => decide (x = S))).length := by
  refine ⟨fun j callsj c t restj hsj htj hcj htreej hrj =>
      Next_root callsj hsj htj hcj htreej hrj, ?_, mem_commitRows.2 (Or.inr hS1),
    mem_commitRows.2 (Or.inr hS2), ?_, ?_⟩
  · obtain ⟨mid, hrun⟩ := NextN_commit_then (g := git) calls hs ht hc htree1 hr
    obtain ⟨ws1, calls1, hrows, -⟩ :=
      NextN_commit_rows (g := git)
        (i := { i with commits := some ⟨Res.ok c2 :: rest⟩, trees := none, commit := some c1 })
        (calls ++ mid) hs rfl rfl htree2 hr
    have hlen : (commitRows r c2 t2 (git.NewTreeWalker t2 true [])).length =
        (dirsBeforeError (git.NewTreeWalker t2 true [])).length + 1 := by
      simp [commitRows]
    have h1 := hrun (dirsBeforeError (git.NewTreeWalker t2 true [])).length
    rw [← hlen] at h1
    refine ⟨{ i with
        commits := some ⟨rest⟩,
        trees := some ⟨(calls ++ mid).length + 2, ws1⟩,
        commit := some c2 }, calls1, ?_⟩
    rw [h1]
    erw [hrows]
    rfl
  · rw [commitRows_eq_map, occurrences_map_rowResult]
  · rw [commitRows_eq_map, occurrences_map_rowResult]

/-- C4 (witness): `exCommit` and `exCommit2` both have the directory `d1`, which has a
row among the rows of each of them. -/
theorem C4_fresh_walker_per_commit_witness :
    (∃ (i2 : commitTreesIter) (calls2 : List Call),
      NextN exGit (3 + 0 + 2) (exIter false [Res.ok exCommit, Res.ok exCommit2]) [] =
        some ([rowResult exRepo exCommit ⟨"a0"⟩, rowResult exRepo exCommit ⟨"d1"⟩,
              rowResult exRepo exCommit ⟨"d2"⟩] ++ [] ++
            [rowResult exRepo exCommit2 ⟨"a1"⟩, rowResult exRepo exCommit2 ⟨"d1"⟩],
          i2, calls2)) ∧
    occurrences (rowResult exRepo exCommit ⟨"d1"⟩)
      [rowResult exRepo exCommit ⟨"a0"⟩, rowResult exRepo exCommit ⟨"d1"⟩,
        rowResult exRepo exCommit ⟨"d2"⟩] = 1 ∧
    occurrences (rowResult exRepo exCommit2 ⟨"d1"⟩)
      [rowResult exRepo exCommit2 ⟨"a1"⟩, rowResult exRepo exCommit2 ⟨"d1"⟩] = 1 :=
  have h := C4_fresh_walker_per_commit exGit (exIter false [Res.ok exCommit, Res.ok exCommit2])
    [] ⟨false⟩ exRepo exCommit exCommit2 exTree exTree2 [] ⟨"d1"⟩ rfl rfl rfl rfl rfl rfl
    (by decide) (by decide)
  ⟨h.2.1, h.2.2.2.2.1, h.2.2.2.2.2⟩

end Gitbase
